import Mathlib

/-!
Mython interpreter core: lexer, runtime object model, statement execution.

A shallow embedding of `lexer.cpp`, `runtime.cpp` and `statement.cpp`.

* `namespace parse`   : the indentation-sensitive lexer (`lexer.h`, `lexer.cpp`).
* `namespace runtime` : values, classes, instances, comparisons (`runtime.cpp`).
* `namespace ast`     : the statement nodes and their `Execute` (`statement.cpp`).

Definitions come first, theorems follow.
-/

set_option autoImplicit false

namespace parse

/-- Token kinds of `lexer.h` (`parse::token_type`), a closed tagged union. -/
inductive Token where
  | Number (value : Int)
  | Id (value : String)
  | Char (value : Char)
  | String (value : String)
  | Class
  | Return
  | If
  | Else
  | Def
  | Newline
  | Print
  | Indent
  | Dedent
  | Eof
  | And
  | Or
  | Not
  | Eq
  | NotEq
  | LessOrEq
  | GreaterOrEq
  | None
  | True
  | False
  deriving DecidableEq, Repr

/-- Exceptions and non-termination of the lexer. `LexerError` is the C++ exception of that
name, `OutOfRange` is what `std::vector::at` throws, `Diverges` stands for a loop that
never ends. -/
inductive LexFailure where
  | LexerError (what : String)
  | OutOfRange
  | Diverges
  deriving DecidableEq, Repr

/-- Model of the `std::istream` the lexer reads: the characters not yet extracted and the
two state bits the code observes. -/
structure IStream where
  rest : List Char
  eofbit : Bool
  failbit : Bool
  deriving DecidableEq, Repr

namespace IStream

/-- A stream over a character sequence, in the good state. -/
def ofChars (cs : List Char) : IStream := ⟨cs, false, false⟩

/-- Model of `std::istream::good()`. -/
def good (s : IStream) : Bool := !s.eofbit && !s.failbit

/-- Model of `std::istream::eof()`. -/
def eof (s : IStream) : Bool := s.eofbit

/-- Model of `std::istream::peek()`: on a stream that is not good the sentry sets failbit and
the result is EOF; at the end of the characters eofbit is set. -/
def peek (s : IStream) : Option Char × IStream :=
  if s.good then
    match s.rest with
    | [] => (none, { s with eofbit := true })
    | c :: _ => (some c, s)
  else (none, { s with failbit := true })

/-- Model of `std::istream::get()` and `get(ch)`: at the end of the characters both eofbit
and failbit are set. -/
def get (s : IStream) : Option Char × IStream :=
  if s.good then
    match s.rest with
    | [] => (none, { s with eofbit := true, failbit := true })
    | c :: r => (some c, { s with rest := r })
  else (none, { s with failbit := true })

/-- Model of `std::istream::putback(c)` (and of `unget()` when `c` is the character read
last): eofbit is cleared first, and the character is restored unless failbit is set. -/
def putback (s : IStream) (c : Char) : IStream :=
  if s.failbit then { s with eofbit := false }
  else { s with eofbit := false, rest := c :: s.rest }

end IStream

/-- The character constants the scanner tests for. -/
def chNewline : Char := Char.ofNat 10
def chReturn : Char := Char.ofNat 13
def chTab : Char := Char.ofNat 9
def chDQuote : Char := Char.ofNat 34
def chSQuote : Char := Char.ofNat 39
def chBackslash : Char := Char.ofNat 92

/-- Model of `Lexer::TokenLine`: the indent and the tokens of one line read from the input. -/
structure TokenLine where
  line_indent : Nat
  tokens : List Token
  deriving DecidableEq, Repr

/-- The loop of `CountIndents` on a good stream: counts and extracts leading spaces. The
boolean tells that `peek` met the end of the input (which sets eofbit). -/
def countSpaces : List Char → Nat × List Char × Bool
  | [] => (0, [], true)
  | c :: r =>
    if c = ' ' then
      match countSpaces r with
      | (n, r1, e) => (n + 1, r1, e)
    else (0, c :: r, false)

/-- Model of `Lexer::TokenLine::CountIndents` (lexer.cpp 167-178), for a stream in the good
state: returns the depth `line_indent_ / 2`, or throws when the count is odd. -/
def CountIndents (s : IStream) : Except LexFailure (Nat × IStream) :=
  match countSpaces s.rest with
  | (n, r, e) =>
    if n % 2 ≠ 0 then .error (.LexerError "Wrong indents number")
    else .ok (n / 2, { s with rest := r, eofbit := s.eofbit || e })

/-- The loop of `ReadComment`: extracts up to and including the newline, or to the end of the
input. The result is `none` when the end was met, else the characters after the newline. -/
def skipComment : List Char → Option (List Char)
  | [] => none
  | c :: r => if c = chNewline then some r else skipComment r

/-- Model of `Lexer::TokenLine::ReadComment` (lexer.cpp 179-185): the newline that ends the
comment is put back with `unget`; at the end of the input both state bits are set. -/
def ReadComment (s : IStream) : IStream :=
  match skipComment s.rest with
  | none => { s with rest := [], eofbit := true, failbit := true }
  | some r => IStream.putback { s with rest := r } chNewline

/-- The loop of `ReadString` over the stream buffer: `acc` is `line.value` so far. -/
def readStringLoop (quote : Char) : List Char → List Char → Except LexFailure (String × List Char)
  | [], _ => .error (.LexerError "String parsing error")
  | ch :: r, acc =>
    if ch = quote then .ok (String.mk acc, r)
    else if ch = chBackslash then
      match r with
      | [] => .error (.LexerError "String parsing error")
      | sp :: r1 =>
        if sp = 'n' then readStringLoop quote r1 (acc ++ [chNewline])
        else if sp = 't' then readStringLoop quote r1 (acc ++ [chTab])
        else if sp = chDQuote then readStringLoop quote r1 (acc ++ [chDQuote])
        else if sp = chSQuote then readStringLoop quote r1 (acc ++ [chSQuote])
        else .error (.LexerError "Wrong special symbol appeared")
    else if ch = chNewline ∨ ch = chReturn then .error (.LexerError "Unexpected end of line")
    else readStringLoop quote r (acc ++ [ch])

/-- Model of `Lexer::TokenLine::ReadString` (lexer.cpp 186-247). It reads through
`istreambuf_iterator`, so the state bits of the stream are not touched. -/
def ReadString (quote : Char) (s : IStream) : Except LexFailure (Token × IStream) :=
  match readStringLoop quote s.rest [] with
  | .error e => .error e
  | .ok (v, r) => .ok (Token.String v, { s with rest := r })

/-- The digit loop of `ReadNumber`: `while (isdigit(peek())) push_back(get())`. The boolean
tells that `peek` met the end of the input. -/
def takeDigits : List Char → List Char × List Char × Bool
  | [] => ([], [], true)
  | c :: r =>
    if c.isDigit then
      match takeDigits r with
      | (ds, r1, e) => (c :: ds, r1, e)
    else ([], c :: r, false)

/-- Decimal value of a run of digits. -/
def digitsValue (ds : List Char) : Nat :=
  ds.foldl (fun acc c => 10 * acc + (c.toNat - 48)) 0

/-- Model of `std::stoi` on the text `ReadNumber` builds (an optional minus sign and a run
of digits): `none` when `stoi` throws (no digit, or a value outside the range of `int`). -/
def stoi (negative : Bool) (ds : List Char) : Option Int :=
  if ds = [] then none
  else if negative then
    (if digitsValue ds ≤ 2147483648 then some (-(digitsValue ds : Int)) else none)
  else
    (if digitsValue ds ≤ 2147483647 then some (digitsValue ds : Int) else none)

/-- Model of `Lexer::TokenLine::ReadNumber` (lexer.cpp 248-272) on a good stream. -/
def ReadNumber (s : IStream) : Except LexFailure (Token × IStream) :=
  let negative : Bool := decide (s.rest.head? = some '-')
  let afterSign : List Char := if negative then s.rest.tail else s.rest
  match takeDigits afterSign with
  | (ds, r, e) =>
    match stoi negative ds with
    | none => .error (.LexerError "Number parsing error")
    | some v => .ok (Token.Number v, { s with rest := r, eofbit := s.eofbit || e })

/-- The character test of `ReadId`: `isalpha(ch) || isdigit(ch) || ch == '_'`. -/
def isIdChar (c : Char) : Bool := c.isAlpha || c.isDigit || c = '_'

/-- The loop of `ReadId`: `while (input_.get(ch))`, with `putback` of the first character
that does not belong to the identifier. The boolean tells that `get` met the end of the
input. -/
def takeIdChars : List Char → List Char × List Char × Bool
  | [] => ([], [], true)
  | c :: r =>
    if isIdChar c then
      match takeIdChars r with
      | (cs, r1, e) => (c :: cs, r1, e)
    else ([], c :: r, false)

/-- The keyword table of `ReadId` (lexer.cpp 290-331). -/
def keywordOrId (id : String) : Token :=
  if id = "class" then Token.Class
  else if id = "return" then Token.Return
  else if id = "if" then Token.If
  else if id = "return" then Token.Return
  else if id = "else" then Token.Else
  else if id = "def" then Token.Def
  else if id = "print" then Token.Print
  else if id = "and" then Token.And
  else if id = "or" then Token.Or
  else if id = "not" then Token.Not
  else if id = "None" then Token.None
  else if id = "True" then Token.True
  else if id = "False" then Token.False
  else Token.Id id

/-- Model of `Lexer::TokenLine::ReadId` (lexer.cpp 273-332) on a good stream. -/
def ReadId (s : IStream) : Except LexFailure (Token × IStream) :=
  match takeIdChars s.rest with
  | (cs, r, e) =>
    if cs = [] then .error (.LexerError "Id parsing error occured")
    else .ok (keywordOrId (String.mk cs),
              { s with rest := r, eofbit := s.eofbit || e, failbit := s.failbit || e })

/-- Model of `Lexer::TokenLine::ReadEq` (lexer.cpp 333-349): two characters are extracted and
the first one selects the token. -/
def ReadEq (s : IStream) : Except LexFailure (Token × IStream) :=
  match s.get with
  | (ch, s1) =>
    match s1.get with
    | (_, s2) =>
      if ch = some '=' then .ok (Token.Eq, s2)
      else if ch = some '!' then .ok (Token.NotEq, s2)
      else if ch = some '<' then .ok (Token.LessOrEq, s2)
      else if ch = some '>' then .ok (Token.GreaterOrEq, s2)
      else .error (.LexerError "Unknown equivalence parsing error occured")

/-- The `while` loop of `ReadLine` (lexer.cpp 122-154). `fuel` bounds the number of
iterations; each iteration extracts at least one character. -/
def ReadLineLoop : Nat → IStream → List Token → Except LexFailure (List Token × IStream)
  | 0, _, _ => .error .Diverges
  | fuel + 1, s, toks =>
    if s.eof then .ok (toks, s)
    else
      match s.get with
      | (none, s1) => .ok (toks, s1)
      | (some ch, s1) =>
        if ch = chNewline then .ok (toks ++ [Token.Newline], s1)
        else if ch = ' ' then ReadLineLoop fuel s1 toks
        else if ch = '#' then ReadLineLoop fuel (ReadComment s1) toks
        else if ch = chDQuote ∨ ch = chSQuote then
          match ReadString ch s1 with
          | .error e => .error e
          | .ok (t, s2) => ReadLineLoop fuel s2 (toks ++ [t])
        else if ch.isDigit then
          match ReadNumber (s1.putback ch) with
          | .error e => .error e
          | .ok (t, s2) => ReadLineLoop fuel s2 (toks ++ [t])
        else if ch.isAlpha ∨ ch = '_' then
          match ReadId (s1.putback ch) with
          | .error e => .error e
          | .ok (t, s2) => ReadLineLoop fuel s2 (toks ++ [t])
        else if ch = '=' ∨ ch = '!' ∨ ch = '<' ∨ ch = '>' then
          match s1.peek with
          | (p, s2) =>
            if p = some '=' then
              match ReadEq (s2.putback ch) with
              | .error e => .error e
              | .ok (t, s3) => ReadLineLoop fuel s3 (toks ++ [t])
            else ReadLineLoop fuel s2 (toks ++ [Token.Char ch])
        else ReadLineLoop fuel s1 (toks ++ [Token.Char ch])

/-- The end of `ReadLine` (lexer.cpp 157-162): at the end of the input a `Newline` is added
unless the line is empty or already ends with one, and then `Eof`. -/
def finishLine (toks : List Token) (s : IStream) : List Token :=
  if s.eof then
    (if toks ≠ [] ∧ toks.getLast? ≠ some Token.Newline then toks ++ [Token.Newline] else toks)
      ++ [Token.Eof]
  else toks

/-- Model of `Lexer::TokenLine::ReadLine` (lexer.cpp 118-165), which is also
`Lexer::GetTokenLine`. On a stream that is not good, `peek` and `get` extract nothing. -/
def ReadLine (s : IStream) : Except LexFailure (TokenLine × IStream) :=
  if s.good then
    match CountIndents s with
    | .error e => .error e
    | .ok (d, s1) =>
      match ReadLineLoop (s1.rest.length + 1) s1 [] with
      | .error e => .error e
      | .ok (toks, s2) => .ok (⟨d, finishLine toks s2⟩, s2)
  else
    .ok (⟨0, finishLine [] s⟩, { s with failbit := true })

/-- Model of `Lexer::TokenLine::IsEmpty` (lexer.cpp 351-356). -/
def TokenLine.IsEmpty (tl : TokenLine) : Bool :=
  tl.tokens.isEmpty || tl.tokens.all (fun t => t = Token.Newline)

/-- Model of the state of `parse::Lexer` (lexer.h 119-123). -/
structure Lexer where
  input : IStream
  current_indent : Nat
  current_pos : Int
  tokens : List Token
  deriving DecidableEq, Repr

/-- Model of `Lexer::UpdateIndent` (lexer.cpp 365-378). -/
def UpdateIndent (L : Lexer) (new_indent : Nat) : Lexer :=
  if new_indent > L.current_indent then
    { L with tokens := L.tokens ++ List.replicate (new_indent - L.current_indent) Token.Indent,
             current_indent := new_indent }
  else if new_indent < L.current_indent then
    { L with tokens := L.tokens ++ List.replicate (L.current_indent - new_indent) Token.Dedent,
             current_indent := new_indent }
  else { L with current_indent := new_indent }

/-- The `while (true)` loop of `NextToken` (lexer.cpp 101-111): lines are read until one is not
empty. Without fuel left the loop is reported as diverging. -/
def pullLine : Nat → IStream → Except LexFailure (TokenLine × IStream)
  | 0, _ => .error .Diverges
  | fuel + 1, s =>
    match ReadLine s with
    | .error e => .error e
    | .ok (tl, s1) => if tl.IsEmpty then pullLine fuel s1 else .ok (tl, s1)

/-- Model of `tokens_.at(i)` for an `int` index. -/
def tokenAt (toks : List Token) (i : Int) : Except LexFailure Token :=
  if i < 0 then .error .OutOfRange
  else
    match toks.get? i.toNat with
    | some t => .ok t
    | none => .error .OutOfRange

/-- Model of `Lexer::NextToken` (lexer.cpp 92-114). -/
def NextToken (L : Lexer) : Except LexFailure (Token × Lexer) :=
  if L.current_pos + 1 < (L.tokens.length : Int) then
    match tokenAt L.tokens (L.current_pos + 1) with
    | .error e => .error e
    | .ok t => .ok (t, { L with current_pos := L.current_pos + 1 })
  else if L.tokens ≠ [] ∧ L.tokens.getLast? = some Token.Eof then
    .ok (Token.Eof, L)
  else
    match pullLine (L.input.rest.length + 1) L.input with
    | .error e => .error e
    | .ok (tl, s1) =>
      let L1 := UpdateIndent { L with input := s1 } tl.line_indent
      let L2 := { L1 with tokens := L1.tokens ++ tl.tokens }
      match tokenAt L2.tokens (L2.current_pos + 1) with
      | .error e => .error e
      | .ok t => .ok (t, { L2 with current_pos := L2.current_pos + 1 })

/-- Model of the constructor `Lexer::Lexer` (lexer.cpp 81-85), which reads the first token. -/
def Lexer.create (input : IStream) : Except LexFailure Lexer :=
  match NextToken ⟨input, 0, -1, []⟩ with
  | .error e => .error e
  | .ok (_, L) => .ok L

/-- Model of `Lexer::CurrentToken` (lexer.cpp 87-90). -/
def CurrentToken (L : Lexer) : Except LexFailure Token := tokenAt L.tokens L.current_pos

/-- Drives a lexer the way the parser does: `NextToken` is called until it returns `Eof`
(at most `n` times); the result is the token buffer. -/
def drain : Nat → Lexer → Except LexFailure (List Token)
  | 0, _ => .error .Diverges
  | n + 1, L =>
    match CurrentToken L with
    | .error e => .error e
    | .ok t =>
      if t = Token.Eof then .ok L.tokens
      else
        match NextToken L with
        | .error e => .error e
        | .ok (_, L1) => drain n L1

/-- The complete token stream of an input text. -/
def Tokenize (input : String) : Except LexFailure (List Token) :=
  match Lexer.create (IStream.ofChars input.data) with
  | .error e => .error e
  | .ok L => drain (2 * input.length + 4) L

end parse


/-! ## Specification vocabulary of the lexer -/

namespace parse

/-- Stream states met while lexing: failbit is only ever set together with eofbit, and eofbit
is only set once every character has been extracted. -/
def IStream.sane (s : IStream) : Prop :=
  (s.failbit = true → s.eofbit = true) ∧ (s.eofbit = true → s.rest = [])

/-- Number of leading spaces of a character sequence. -/
def leadingSpaces : List Char → Nat
  | [] => 0
  | c :: r => if c = ' ' then leadingSpaces r + 1 else 0

/-- The indentation tokens the specification asks for between a line of depth `p` and the
next non-blank line of depth `d`. -/
def indentTokens (p d : Nat) : List Token :=
  if d > p then List.replicate (d - p) Token.Indent
  else if d < p then List.replicate (p - d) Token.Dedent
  else []

/-- The token stream the specification asks for, for non-blank lines given as pairs of depth
and own tokens, after a line of depth `p`. -/
def render : Nat → List (Nat × List Token) → List Token
  | _, [] => []
  | p, (d, ts) :: ls => indentTokens p d ++ ts ++ render d ls

/-- Depth of the last of the lines, `p` when there is none. -/
def lastDepth : Nat → List (Nat × List Token) → Nat
  | p, [] => p
  | _, (d, _) :: ls => lastDepth d ls

/-- The non-blank lines between two positions of the input: `NonBlankLines s ls s1` holds when
reading line after line from `s` arrives at `s1`, and `ls` lists, for each line that is not
blank, its depth `d` (the line starts with `2 * d` spaces) and its own tokens. -/
inductive NonBlankLines : IStream → List (Nat × List Token) → IStream → Prop
  | done (s : IStream) : NonBlankLines s [] s
  | blank {s s1 s2 : IStream} {tl : TokenLine} {ls : List (Nat × List Token)} :
      ReadLine s = .ok (tl, s1) → tl.IsEmpty = true → NonBlankLines s1 ls s2 →
      NonBlankLines s ls s2
  | line {s s1 s2 : IStream} {tl : TokenLine} {d : Nat} {ls : List (Nat × List Token)} :
      ReadLine s = .ok (tl, s1) → tl.IsEmpty = false → leadingSpaces s.rest = 2 * d →
      NonBlankLines s1 ls s2 → NonBlankLines s ((d, tl.tokens) :: ls) s2

/-- Lexer states reachable for an input: the constructor, then calls of `NextToken`. -/
inductive Reachable (input : List Char) : Lexer → Prop
  | create {L : Lexer} : Lexer.create (IStream.ofChars input) = .ok L → Reachable input L
  | next {L L1 : Lexer} {t : Token} :
      Reachable input L → NextToken L = .ok (t, L1) → Reachable input L1

/-- What holds of every lexer state met while lexing the stream `s0`. -/
def LexInv (s0 : IStream) (L : Lexer) : Prop :=
  ∃ lines, NonBlankLines s0 lines L.input ∧ L.tokens = render 0 lines ∧
    L.current_indent = lastDepth 0 lines ∧ L.input.sane ∧
    (L.input.eofbit = true → L.tokens.getLast? = some Token.Eof) ∧
    (L.input.eofbit = false → Token.Eof ∉ L.tokens)

end parse

/-! ## Runtime object model and statement nodes -/

/-- The six comparator functions of `runtime.cpp` a `Comparison` node can hold. -/
inductive ast.Comparator where
  | Equal
  | NotEqual
  | Less
  | Greater
  | LessOrEqual
  | GreaterOrEqual
  deriving DecidableEq, Repr

mutual

/-- Model of `runtime::ObjectHolder`: an empty holder (`None`) or a handle to an object. The
immutable objects are held by value; a class instance is held by its address in the heap,
so that an owning holder and the alias made by `ObjectHolder::Share` denote the same
instance. -/
inductive runtime.ObjectHolder where
  | None
  | Bool (value : Bool)
  | Number (value : Int)
  | String (value : String)
  | Class (cls : runtime.Class)
  | ClassInstance (address : Nat)

/-- Model of `runtime::Class`: the name, the method table and the parent. A class is
immutable and receives its parent when it is built, so the parent chain is a finite,
acyclic chain; it is held by value. -/
inductive runtime.Class where
  | mk (name_ : String) (names_to_methods_ : List runtime.Method)
      (parent_ : Option runtime.Class)

/-- Model of `runtime::Method`. -/
inductive runtime.Method where
  | mk (name : String) (formal_params : List String) (body : ast.Statement)

/-- The statement nodes of `statement.cpp`. -/
inductive ast.Statement where
  /-- Modelled from the spec: the literal nodes (`statement.h` is not part of the sources);
  a literal yields its value and has no effect. -/
  | Const (value : runtime.ObjectHolder)
  | Assignment (var_ : String) (rv_ : ast.Statement)
  | VariableValue (dotted_ids_ : List String)
  | Print (args_ : List ast.Statement)
  | MethodCall (object_ : ast.Statement) (method_ : String) (args_ : List ast.Statement)
  | Stringify (argument_ : ast.Statement)
  | Add (lhs_ rhs_ : ast.Statement)
  | Sub (lhs_ rhs_ : ast.Statement)
  | Mult (lhs_ rhs_ : ast.Statement)
  | Div (lhs_ rhs_ : ast.Statement)
  | Compound (statements_ : List ast.Statement)
  | Return (statement_ : ast.Statement)
  | ClassDefinition (cls_ : runtime.ObjectHolder)
  | FieldAssignment (object_ : List String) (field_name_ : String) (rv_ : ast.Statement)
  | IfElse (condition_ if_body_ : ast.Statement) (else_body_ : Option ast.Statement)
  | Or (lhs_ rhs_ : ast.Statement)
  | And (lhs_ rhs_ : ast.Statement)
  | Not (argument_ : ast.Statement)
  | Comparison (cmp_ : ast.Comparator) (lhs_ rhs_ : ast.Statement)
  | NewInstance (class_ : runtime.Class) (args_ : List ast.Statement)
  | MethodBody (body_ : ast.Statement)

end

namespace runtime

/-- Modelled from the spec: `runtime::Closure` is declared in `runtime.h`, which is not part
of the sources; it is a mapping from names to holders with unique keys, here a list of
bindings read with `Closure.find` and written with `Closure.assign`. -/
abbrev Closure := List (String × ObjectHolder)

/-- Model of `closure.find(name)` / `closure.at(name)`. -/
def Closure.find (c : Closure) (name : String) : Option ObjectHolder :=
  match c with
  | [] => none
  | (k, v) :: r => if k = name then some v else Closure.find r name

/-- Model of `closure[name] = value`. -/
def Closure.assign (c : Closure) (name : String) (value : ObjectHolder) : Closure :=
  match c with
  | [] => [(name, value)]
  | (k, v) :: r => if k = name then (k, value) :: r else (k, v) :: Closure.assign r name value

def Method.name : Method → String
  | .mk n _ _ => n

def Method.formal_params : Method → List String
  | .mk _ p _ => p

def Method.body : Method → ast.Statement
  | .mk _ _ b => b

/-- Model of `Class::GetName` (runtime.cpp 134-136). -/
def Class.GetName : Class → String
  | .mk n _ _ => n

def Class.names_to_methods_ : Class → List Method
  | .mk _ m _ => m

def Class.parent_ : Class → Option Class
  | .mk _ _ p => p

/-- Model of `names_to_methods_[method.name] = method` in the constructor of `Class`. -/
def assignMethod (table : List Method) (method : Method) : List Method :=
  match table with
  | [] => [method]
  | m :: r => if m.name = method.name then method :: r else m :: assignMethod r method

/-- Model of `names_to_methods_.find(name)`. -/
def findMethod (table : List Method) (name : String) : Option Method :=
  match table with
  | [] => none
  | m :: r => if m.name = name then some m else findMethod r name

/-- Model of the constructor `Class::Class` (runtime.cpp 114-121): the methods are entered
into the table one after the other. -/
def Class.create (name : String) (methods : List Method) (parent : Option Class) : Class :=
  .mk name (methods.foldl assignMethod []) parent

/-- Model of `Class::GetMethod` (runtime.cpp 123-132). -/
def Class.GetMethod : Class → String → Option Method
  | .mk _ table none, name => findMethod table name
  | .mk _ table (some parent), name =>
    match findMethod table name with
    | some m => some m
    | none => Class.GetMethod parent name

/-- Model of `runtime::ClassInstance`: the class and the field table. -/
structure ClassInstance where
  cls_ : Class
  closure_ : Closure

/-- Model of `ClassInstance::HasMethod` (runtime.cpp 79-82). -/
def ClassInstance.HasMethod (self : ClassInstance) (method : String) (argument_count : Nat) :
    Bool :=
  match self.cls_.GetMethod method with
  | some mth => mth.formal_params.length = argument_count
  | none => false

/-- Model of `runtime::IsTrue` (runtime.cpp 52-68). -/
def IsTrue (object : ObjectHolder) : Bool :=
  match object with
  | .None => false
  | .Bool b => b
  | .Number n => n ≠ 0
  | .String s => s ≠ ""
  | _ => false

/-- What execution reads and writes: the closure passed to `Execute` by reference (`scope`),
the class instances created so far (`heap`, addressed by position; no instance is ever
removed) and the text written to the output stream of the `Context` (`output`). -/
structure State where
  scope : Closure
  heap : List ClassInstance
  output : String

/-- The ways an execution can fail. `runtime_error` and `out_of_range` are the C++
exceptions; `UndefinedBehaviour` is a null dereference, a division by zero or a quotient
outside the range of `int`; `OutOfFuel` is the bound of the model on the depth of the
execution. -/
inductive Failure where
  | runtime_error (what : String)
  | out_of_range
  | UndefinedBehaviour
  | OutOfFuel
  deriving DecidableEq, Repr

/-- How an execution ends: normally with a result, with the `ReturnException` of a `return`
in flight, or with a failure. -/
inductive Completion (α : Type) where
  | Normal (result : α)
  | ReturnException (result : ObjectHolder)
  | Throw (failure : Failure)

/-- An execution ends in a completion and a state. -/
abbrev Res (α : Type) := Completion α × State

/-- Sequencing: the continuation runs after a normal completion only. -/
def Res.bind {α β : Type} (r : Res α) (k : α → State → Res β) : Res β :=
  match r with
  | (.Normal a, st) => k a st
  | (.ReturnException v, st) => (.ReturnException v, st)
  | (.Throw e, st) => (.Throw e, st)

/-- The type of `Equal`, `Less` and the other comparators. -/
abbrev Cmp := ObjectHolder → ObjectHolder → State → Res Bool

/-- The method names of `runtime.cpp` 12-14 and `statement.cpp` 15-16. -/
def STR_METHOD : String := "__str__"
def EQ_METHOD : String := "__eq__"
def LT_METHOD : String := "__lt__"
def ADD_METHOD : String := "__add__"
def INIT_METHOD : String := "__init__"

/-- Model of `NotEqual` (runtime.cpp 183-185) over a given `Equal`. -/
def NotEqualWith (equal : Cmp) : Cmp :=
  fun lhs rhs st => Res.bind (equal lhs rhs st) (fun b st1 => (.Normal (!b), st1))

/-- Model of `Greater` (runtime.cpp 187-189) over given `Equal` and `Less`: `&&` evaluates
`NotEqual` only when `!Less` is true. -/
def GreaterWith (equal less : Cmp) : Cmp :=
  fun lhs rhs st => Res.bind (less lhs rhs st) (fun l st1 =>
    if !l then NotEqualWith equal lhs rhs st1 else (.Normal false, st1))

/-- Model of `LessOrEqual` (runtime.cpp 191-193). -/
def LessOrEqualWith (equal less : Cmp) : Cmp :=
  fun lhs rhs st => Res.bind (GreaterWith equal less lhs rhs st) (fun g st1 => (.Normal (!g), st1))

/-- Model of `GreaterOrEqual` (runtime.cpp 195-197). -/
def GreaterOrEqualWith (less : Cmp) : Cmp :=
  fun lhs rhs st => Res.bind (less lhs rhs st) (fun l st1 => (.Normal (!l), st1))

/-- The comparator a `Comparison` node applies. -/
def applyComparator (cmp : ast.Comparator) (equal less : Cmp) : Cmp :=
  match cmp with
  | .Equal => equal
  | .NotEqual => NotEqualWith equal
  | .Less => less
  | .Greater => GreaterWith equal less
  | .LessOrEqual => LessOrEqualWith equal less
  | .GreaterOrEqual => GreaterOrEqualWith less

/-- What `Equal` and `Less` do with the result of `__eq__` and `__lt__`,
`.TryAs<Bool>()->GetValue()`: a result that is not a `Bool` is a null dereference. -/
def boolResult (r : ObjectHolder) (st : State) : Res Bool :=
  match r with
  | .Bool b => (.Normal b, st)
  | _ => (.Throw .UndefinedBehaviour, st)

/-- The closure `ClassInstance::Call` builds (runtime.cpp 105-109): `self`, then the formal
parameters in order, each bound to the argument at the same position. -/
def bindParams : List String → List ObjectHolder → Closure → Closure
  | p :: ps, a :: as, c => bindParams ps as (Closure.assign c p a)
  | _, _, c => c

def methodVars (self : Nat) (formal_params : List String) (actual_args : List ObjectHolder) :
    Closure :=
  bindParams formal_params actual_args (Closure.assign [] "self" (.ClassInstance self))

/-- The text `os << this` writes for an instance; the real text is an address chosen by the
implementation. -/
def addressText (address : Nat) : String := "<instance " ++ toString address ++ ">"

/-- The value of type `int` that `+`, `-` and `*` of two `int` operands leave for the exact
result `n`: the 32 low bits of `n`, read in two's complement. -/
def wrapInt (n : Int) : Int := (n + 2147483648) % 4294967296 - 2147483648

/-- A quotient of type `int`: the one quotient outside the range of `int`, that of the least
`int` by `-1`, is undefined. -/
def intResult (n : Int) (st : State) : Res ObjectHolder :=
  if -2147483648 ≤ n ∧ n ≤ 2147483647 then (.Normal (.Number n), st)
  else (.Throw .UndefinedBehaviour, st)

/-- The loop of `VariableValue::Execute` (statement.cpp 45-54): `closure` is `*closure_ptr`,
`result` the holder found last. -/
def resolveIds (heap : List ClassInstance) :
    List String → Closure → ObjectHolder → Completion ObjectHolder
  | [], _, result => .Normal result
  | id :: ids, closure, _ =>
    match closure.find id with
    | none => .Throw (.runtime_error ("Wrong var name: " ++ id))
    | some (.ClassInstance a) =>
      match heap.get? a with
      | some inst => resolveIds heap ids inst.closure_ (.ClassInstance a)
      | none => .Throw .UndefinedBehaviour
    | some v => resolveIds heap ids closure v

/-- The loop of `FieldAssignment::Execute` (statement.cpp 230-234): the closure the field is
written to, `none` for the scope itself, `some a` for the fields of the instance at `a`. -/
def fieldOwner (heap : List ClassInstance) :
    List String → Closure → Option Nat → Completion (Option Nat)
  | [], _, owner => .Normal owner
  | id :: ids, closure, _ =>
    match closure.find id with
    | none => .Throw .out_of_range
    | some (.ClassInstance a) =>
      match heap.get? a with
      | some inst => fieldOwner heap ids inst.closure_ (some a)
      | none => .Throw .UndefinedBehaviour
    | some _ => .Throw .UndefinedBehaviour

/-- Writing a field of the instance at `a`. -/
def assignField (heap : List ClassInstance) (a : Nat) (name : String) (value : ObjectHolder) :
    List ClassInstance :=
  match heap.get? a with
  | some inst => heap.set a { inst with closure_ := inst.closure_.assign name value }
  | none => heap

end runtime

namespace runtime

/-- Model of `ObjectHolder::operator bool` (runtime.cpp 48-50). -/
def nonEmpty (object : ObjectHolder) : Bool :=
  match object with
  | .None => false
  | _ => true

end runtime

namespace ast

open runtime

/-- The loops that evaluate argument expressions in order (statement.cpp 109-112 and
320-323); `exec` is `Execute` of a statement. -/
def ExecuteArgs (exec : Statement → State → Res ObjectHolder) :
    List Statement → State → Res (List ObjectHolder)
  | [], st => (.Normal [], st)
  | arg :: args, st =>
    Res.bind (exec arg st) (fun v st1 =>
      Res.bind (ExecuteArgs exec args st1) (fun vs st2 => (.Normal (v :: vs), st2)))

/-- The loop of `Compound::Execute` (statement.cpp 202-204). -/
def ExecuteStatements (exec : Statement → State → Res ObjectHolder) :
    List Statement → State → Res Unit
  | [], st => (.Normal (), st)
  | statemant :: statements, st =>
    Res.bind (exec statemant st) (fun _ st1 => ExecuteStatements exec statements st1)

/-- The loop of `Print::Execute` (statement.cpp 74-89); `print` is `Object::Print`. -/
def PrintArgs (exec : Statement → State → Res ObjectHolder)
    (print : ObjectHolder → State → Res String) : Bool → List Statement → State → Res Unit
  | _, [], st => (.Normal (), st)
  | first, var_ptr :: args, st =>
    Res.bind (exec var_ptr st) (fun var st1 =>
      let st2 : State := if first then st1 else { st1 with output := st1.output ++ " " }
      if nonEmpty var then
        Res.bind (print var st2) (fun text st3 =>
          PrintArgs exec print false args { st3 with output := st3.output ++ text })
      else PrintArgs exec print false args { st2 with output := st2.output ++ "None" })

end ast

open runtime in
mutual

/-- Model of `ClassInstance::Call` (runtime.cpp 96-112) for the instance at address `self`.
The body runs in the fresh closure `method_vars`; the closure of the caller is untouched. -/
def runtime.Call : Nat → Nat → String → List ObjectHolder → State → Res ObjectHolder
  | 0, _, _, _, st => (.Throw .OutOfFuel, st)
  | fuel + 1, self, method, actual_args, st =>
    match st.heap.get? self with
    | none => (.Throw .UndefinedBehaviour, st)
    | some inst =>
      if !inst.HasMethod method actual_args.length then
        (.Throw (.runtime_error
          ("Method " ++ method ++ " wasn't found in class " ++ inst.cls_.GetName)), st)
      else
        match inst.cls_.GetMethod method with
        | none => (.Throw .UndefinedBehaviour, st)
        | some method_ptr =>
          match ast.Execute fuel method_ptr.body
              { st with scope := methodVars self method_ptr.formal_params actual_args } with
          | (c, st1) => (c, { st1 with scope := st.scope })

/-- Model of the virtual `Object::Print` (runtime.cpp 70-77, 138-144): the text written to
`os`. The holder must not be empty. `Print` of `Number` and `String` is declared in
`runtime.h`, which is not part of the sources: a number is written in decimal, a string as
it is. -/
def runtime.PrintObject : Nat → ObjectHolder → State → Res String
  | 0, _, st => (.Throw .OutOfFuel, st)
  | fuel + 1, object, st =>
    match object with
    | .None => (.Throw .UndefinedBehaviour, st)
    | .Bool b => (.Normal (if b then "True" else "False"), st)
    | .Number n => (.Normal (toString n), st)
    | .String s => (.Normal s, st)
    | .Class c => (.Normal ("Class " ++ c.GetName), st)
    | .ClassInstance a =>
      match st.heap.get? a with
      | none => (.Throw .UndefinedBehaviour, st)
      | some inst =>
        if inst.HasMethod STR_METHOD 0 then
          Res.bind (runtime.Call fuel a STR_METHOD [] st) (fun r st1 =>
            runtime.PrintObject fuel r st1)
        else (.Normal (addressText a), st)

/-- Model of `runtime::Equal` (runtime.cpp 146-164). -/
def runtime.Equal : Nat → ObjectHolder → ObjectHolder → State → Res Bool
  | 0, _, _, st => (.Throw .OutOfFuel, st)
  | fuel + 1, lhs, rhs, st =>
    match lhs, rhs with
    | .Bool a, .Bool b => (.Normal (decide (a = b)), st)
    | .Number a, .Number b => (.Normal (decide (a = b)), st)
    | .String a, .String b => (.Normal (decide (a = b)), st)
    | .ClassInstance a, .ClassInstance _ =>
      Res.bind (runtime.Call fuel a EQ_METHOD [rhs] st) boolResult
    | .None, .None => (.Normal true, st)
    | _, _ => (.Throw (.runtime_error "Trying to compare wrong object types"), st)

/-- Model of `runtime::Less` (runtime.cpp 166-181). -/
def runtime.Less : Nat → ObjectHolder → ObjectHolder → State → Res Bool
  | 0, _, _, st => (.Throw .OutOfFuel, st)
  | fuel + 1, lhs, rhs, st =>
    match lhs, rhs with
    | .Bool a, .Bool b => (.Normal (decide (a < b)), st)
    | .Number a, .Number b => (.Normal (decide (a < b)), st)
    | .String a, .String b => (.Normal (decide (a < b)), st)
    | .ClassInstance a, _ =>
      match st.heap.get? a with
      | none => (.Throw .UndefinedBehaviour, st)
      | some inst =>
        if inst.HasMethod LT_METHOD 1 then
          Res.bind (runtime.Call fuel a LT_METHOD [rhs] st) boolResult
        else (.Throw (.runtime_error "Trying to compare wrong object types"), st)
    | _, _ => (.Throw (.runtime_error "Trying to compare wrong object types"), st)

/-- Model of `Execute` of every statement node of `statement.cpp`. Holders address the
instances in a heap from which nothing is removed, so the model follows the code as long as
every instance that is used still has an owner. `MethodCall` and `NewInstance` keep a raw
pointer to an instance (statement.cpp 103 and 315-317) and use it after other code has run:
the receiver of a call may be owned by nothing but the holder its expression has returned,
and the one owner of a new instance is the binding of the scope under the name of the class,
which an argument expression can replace. Where the code then reads a destroyed instance, the
model still reads it in the heap; what is proved about the two nodes therefore asks for the
instance to be held when the pointer is used (`runtime.Held`, or the name of the class still
bound to the new instance), except at the failing input of C10, which is such a case. -/
def ast.Execute : Nat → ast.Statement → State → Res ObjectHolder
  | 0, _, st => (.Throw .OutOfFuel, st)
  | _ + 1, .Const value, st => (.Normal value, st)
  | fuel + 1, .Assignment var_ rv_, st =>
    Res.bind (ast.Execute fuel rv_ st) (fun v st1 =>
      (.Normal v, { st1 with scope := st1.scope.assign var_ v }))
  | _ + 1, .VariableValue dotted_ids_, st =>
    (resolveIds st.heap dotted_ids_ st.scope .None, st)
  | fuel + 1, .Print args_, st =>
    Res.bind (ast.PrintArgs (ast.Execute fuel) (runtime.PrintObject fuel) true args_ st) (fun _ st1 =>
      (.Normal .None, { st1 with output := st1.output ++ "\n" }))
  | fuel + 1, .MethodCall object_ method_ args_, st =>
    Res.bind (ast.Execute fuel object_ st) (fun obj st1 =>
      match obj with
      | .ClassInstance a =>
        match st1.heap.get? a with
        | none => (.Throw .UndefinedBehaviour, st1)
        | some inst =>
          if !inst.HasMethod method_ args_.length then (.Normal .None, st1)
          else
            Res.bind (ast.ExecuteArgs (ast.Execute fuel) args_ st1) (fun actual_args st2 =>
              runtime.Call fuel a method_ actual_args st2)
      | _ => (.Normal .None, st1))
  | fuel + 1, .Stringify argument_, st =>
    Res.bind (ast.Execute fuel argument_ st) (fun var st1 =>
      if !nonEmpty var then (.Normal (.String "None"), st1)
      else Res.bind (runtime.PrintObject fuel var st1) (fun text st2 =>
        (.Normal (.String text), st2)))
  | fuel + 1, .Add lhs_ rhs_, st =>
    Res.bind (ast.Execute fuel lhs_ st) (fun lhs_obj st1 =>
      Res.bind (ast.Execute fuel rhs_ st1) (fun rhs_obj st2 =>
        if !(nonEmpty lhs_obj && nonEmpty rhs_obj) then
          (.Throw (.runtime_error "Attemp to Add wrong object types"), st2)
        else
          match lhs_obj, rhs_obj with
          | .Number a, .Number b => (.Normal (.Number (wrapInt (a + b))), st2)
          | .String a, .String b => (.Normal (.String (a ++ b)), st2)
          | .ClassInstance a, _ =>
            match st2.heap.get? a with
            | none => (.Throw .UndefinedBehaviour, st2)
            | some inst =>
              if inst.HasMethod ADD_METHOD 1 then runtime.Call fuel a ADD_METHOD [rhs_obj] st2
              else (.Throw (.runtime_error "Attemp to Add wrong object types"), st2)
          | _, _ => (.Throw (.runtime_error "Attemp to Add wrong object types"), st2)))
  | fuel + 1, .Sub lhs_ rhs_, st =>
    Res.bind (ast.Execute fuel lhs_ st) (fun lhs_obj st1 =>
      Res.bind (ast.Execute fuel rhs_ st1) (fun rhs_obj st2 =>
        if !(nonEmpty lhs_obj && nonEmpty rhs_obj) then
          (.Throw (.runtime_error "Attemp to Substract wrong object types"), st2)
        else
          match lhs_obj, rhs_obj with
          | .Number a, .Number b => (.Normal (.Number (wrapInt (a - b))), st2)
          | _, _ => (.Throw (.runtime_error "Attemp to Substract wrong object types"), st2)))
  | fuel + 1, .Mult lhs_ rhs_, st =>
    Res.bind (ast.Execute fuel lhs_ st) (fun lhs_obj st1 =>
      Res.bind (ast.Execute fuel rhs_ st1) (fun rhs_obj st2 =>
        if !(nonEmpty lhs_obj && nonEmpty rhs_obj) then
          (.Throw (.runtime_error "Attemp to Multiply wrong object types"), st2)
        else
          match lhs_obj, rhs_obj with
          | .Number a, .Number b => (.Normal (.Number (wrapInt (a * b))), st2)
          | _, _ => (.Throw (.runtime_error "Attemp to Multiply wrong object types"), st2)))
  | fuel + 1, .Div lhs_ rhs_, st =>
    Res.bind (ast.Execute fuel lhs_ st) (fun lhs_obj st1 =>
      Res.bind (ast.Execute fuel rhs_ st1) (fun rhs_obj st2 =>
        if !(nonEmpty lhs_obj && nonEmpty rhs_obj) then
          (.Throw (.runtime_error "Attemp to Divide wrong object types"), st2)
        else
          match lhs_obj, rhs_obj with
          | .Number a, .Number b =>
            if b = 0 then (.Throw .UndefinedBehaviour, st2) else intResult (Int.tdiv a b) st2
          | _, _ => (.Throw (.runtime_error "Attemp to Divide wrong object types"), st2)))
  | fuel + 1, .Compound statements_, st =>
    Res.bind (ast.ExecuteStatements (ast.Execute fuel) statements_ st) (fun _ st1 => (.Normal .None, st1))
  | fuel + 1, .Return statement_, st =>
    Res.bind (ast.Execute fuel statement_ st) (fun v st1 => (.ReturnException v, st1))
  | _ + 1, .ClassDefinition cls_, st =>
    match cls_ with
    | .Class c => (.Normal cls_, { st with scope := st.scope.assign c.GetName cls_ })
    | _ => (.Throw .UndefinedBehaviour, st)
  | fuel + 1, .FieldAssignment object_ field_name_ rv_, st =>
    match fieldOwner st.heap object_ st.scope none with
    | .Normal owner =>
      Res.bind (ast.Execute fuel rv_ st) (fun v st1 =>
        match owner with
        | none => (.Normal v, { st1 with scope := st1.scope.assign field_name_ v })
        | some a => (.Normal v, { st1 with heap := assignField st1.heap a field_name_ v }))
    | .ReturnException v => (.ReturnException v, st)
    | .Throw e => (.Throw e, st)
  | fuel + 1, .IfElse condition_ if_body_ else_body_, st =>
    Res.bind (ast.Execute fuel condition_ st) (fun condition_holder st1 =>
      if IsTrue condition_holder then ast.Execute fuel if_body_ st1
      else
        match else_body_ with
        | some e => ast.Execute fuel e st1
        | none => (.Normal .None, st1))
  | fuel + 1, .Or lhs_ rhs_, st =>
    Res.bind (ast.Execute fuel lhs_ st) (fun lhs_obj st1 =>
      Res.bind (ast.Execute fuel rhs_ st1) (fun rhs_obj st2 =>
        if nonEmpty lhs_obj && nonEmpty rhs_obj then
          (.Normal (.Bool (IsTrue lhs_obj || IsTrue rhs_obj)), st2)
        else (.Throw (.runtime_error "Attemp to call operator Or for wrong object types"), st2)))
  | fuel + 1, .And lhs_ rhs_, st =>
    Res.bind (ast.Execute fuel lhs_ st) (fun lhs_obj st1 =>
      Res.bind (ast.Execute fuel rhs_ st1) (fun rhs_obj st2 =>
        if nonEmpty lhs_obj && nonEmpty rhs_obj then
          (.Normal (.Bool (IsTrue lhs_obj && IsTrue rhs_obj)), st2)
        else (.Throw (.runtime_error "Attemp to call operator And for wrong object types"), st2)))
  | fuel + 1, .Not argument_, st =>
    Res.bind (ast.Execute fuel argument_ st) (fun obj st1 =>
      if nonEmpty obj then (.Normal (.Bool (!IsTrue obj)), st1)
      else (.Throw (.runtime_error "Wrong argument parsed to Not"), st1))
  | fuel + 1, .Comparison cmp_ lhs_ rhs_, st =>
    Res.bind (ast.Execute fuel lhs_ st) (fun lhs_obj st1 =>
      Res.bind (ast.Execute fuel rhs_ st1) (fun rhs_obj st2 =>
        Res.bind (applyComparator cmp_ (runtime.Equal fuel) (runtime.Less fuel) lhs_obj rhs_obj st2)
          (fun b st3 => (.Normal (.Bool b), st3))))
  | fuel + 1, .NewInstance class_ args_, st =>
    let class_name := class_.GetName
    let self := st.heap.length
    let st1 : State :=
      { st with heap := st.heap ++ [⟨class_, []⟩],
                scope := st.scope.assign class_name (.ClassInstance self) }
    let afterInit : Res Unit :=
      if (ClassInstance.mk class_ []).HasMethod INIT_METHOD args_.length then
        Res.bind (ast.ExecuteArgs (ast.Execute fuel) args_ st1) (fun actual_args st2 =>
          Res.bind (runtime.Call fuel self INIT_METHOD actual_args st2) (fun _ st3 =>
            (.Normal (), st3)))
      else (.Normal (), st1)
    Res.bind afterInit (fun _ st4 =>
      match st4.scope.find class_name with
      | some v => (.Normal v, st4)
      | none => (.Throw .out_of_range, st4))
  | fuel + 1, .MethodBody body_, st =>
    match ast.Execute fuel body_ st with
    | (.ReturnException result, st1) => (.Normal result, st1)
    | r => r

end

namespace runtime

/-- Model of `runtime::NotEqual` (runtime.cpp 183-185). -/
def NotEqual (fuel : Nat) : Cmp := NotEqualWith (Equal fuel)

/-- Model of `runtime::Greater` (runtime.cpp 187-189). -/
def Greater (fuel : Nat) : Cmp := GreaterWith (Equal fuel) (Less fuel)

/-- Model of `runtime::LessOrEqual` (runtime.cpp 191-193). -/
def LessOrEqual (fuel : Nat) : Cmp := LessOrEqualWith (Equal fuel) (Less fuel)

/-- Model of `runtime::GreaterOrEqual` (runtime.cpp 195-197). -/
def GreaterOrEqual (fuel : Nat) : Cmp := GreaterOrEqualWith (Less fuel)

end runtime

/-! ## Specification vocabulary of the runtime -/

namespace runtime

/-- The pairings for which the specification defines `Equal`: both holders empty, or both of
the same kind among `Bool`, `Number`, `String` and class instance. -/
def definedForEqual : ObjectHolder → ObjectHolder → Bool
  | .None, .None => true
  | .Bool _, .Bool _ => true
  | .Number _, .Number _ => true
  | .String _, .String _ => true
  | .ClassInstance _, .ClassInstance _ => true
  | _, _ => false

/-- The pairings of `Bool`, `Number` and `String` values of the same kind. -/
def bothPrimitive : ObjectHolder → ObjectHolder → Bool
  | .Bool _, .Bool _ => true
  | .Number _, .Number _ => true
  | .String _, .String _ => true
  | _, _ => false

/-- The holder is a class instance. -/
def isInstance : ObjectHolder → Bool
  | .ClassInstance _ => true
  | _ => false

/-- The parent chain of a class: the class first, then its ancestors. -/
def Class.chain : Class → List Class
  | .mk n t none => [.mk n t none]
  | .mk n t (some p) => .mk n t (some p) :: Class.chain p

/-- The method the specification asks `GetMethod` for: that of the nearest class of the chain
that declares the name. -/
def nearestDeclaration (c : Class) (name : String) : Option Method :=
  c.chain.findSome? (fun k => findMethod k.names_to_methods_ name)

end runtime

namespace runtime

/-- The results of the six comparators of `runtime.cpp`, in the order `Equal`, `NotEqual`,
`Less`, `Greater`, `LessOrEqual`, `GreaterOrEqual`. -/
def sixComparators (fuel : Nat) (lhs rhs : ObjectHolder) (st : State) : List (Res Bool) :=
  [Equal fuel lhs rhs st, NotEqual fuel lhs rhs st, Less fuel lhs rhs st,
   Greater fuel lhs rhs st, LessOrEqual fuel lhs rhs st, GreaterOrEqual fuel lhs rhs st]

/-- The six native relations between two values of a linear order, as normal completions in
the state `st`, in the same order. -/
def nativeRelations {α : Type} [LinearOrder α] (a b : α) (st : State) : List (Res Bool) :=
  [(.Normal (decide (a = b)), st), (.Normal (decide (a ≠ b)), st), (.Normal (decide (a < b)), st),
   (.Normal (decide (a > b)), st), (.Normal (decide (a ≤ b)), st), (.Normal (decide (a ≥ b)), st)]

/-- Exactly one of three truth values holds. -/
def exactlyOne (l e g : Bool) : Prop :=
  (l = true ∧ e = false ∧ g = false) ∨ (l = false ∧ e = true ∧ g = false) ∨
    (l = false ∧ e = false ∧ g = true)

end runtime

namespace runtime

/-- Every instance of the first heap is still there in the second, with the same class. -/
def ClassesKept (h h1 : List ClassInstance) : Prop :=
  ∀ (a : Nat) (inst : ClassInstance), h.get? a = some inst →
    ∃ inst1 : ClassInstance, h1.get? a = some inst1 ∧ inst1.cls_ = inst.cls_

/-- The execution that ends in `r` from the state `st` keeps the instances and their classes. -/
def Keeps {α : Type} (st : State) (r : Res α) : Prop := ClassesKept st.heap r.2.heap

end runtime

namespace ast

open runtime

/-- Executing the statement reaches a `Return` nested inside `Compound` and `IfElse` nodes:
`ReachesReturn fuel body st v st2` holds when, from the state `st`, the statements before
that `Return` complete normally, the branches taken lead to it, and its operand evaluates to
`v`, leaving the state `st2`. -/
inductive ReachesReturn : Nat → Statement → State → ObjectHolder → State → Prop
  | here {fuel : Nat} {e : Statement} {st st1 : State} {v : ObjectHolder} :
      Execute fuel e st = (.Normal v, st1) → ReachesReturn (fuel + 1) (.Return e) st v st1
  | compound {fuel : Nat} (before after : List Statement) {s : Statement}
      {st st1 st2 : State} {v : ObjectHolder} :
      ExecuteStatements (Execute fuel) before st = (.Normal (), st1) →
      ReachesReturn fuel s st1 v st2 →
      ReachesReturn (fuel + 1) (.Compound (before ++ s :: after)) st v st2
  | ifBranch {fuel : Nat} {c t : Statement} {e : Option Statement} {st st1 st2 : State}
      {cv v : ObjectHolder} :
      Execute fuel c st = (.Normal cv, st1) → IsTrue cv = true →
      ReachesReturn fuel t st1 v st2 → ReachesReturn (fuel + 1) (.IfElse c t e) st v st2
  | elseBranch {fuel : Nat} {c t e : Statement} {st st1 st2 : State} {cv v : ObjectHolder} :
      Execute fuel c st = (.Normal cv, st1) → IsTrue cv = false →
      ReachesReturn fuel e st1 v st2 → ReachesReturn (fuel + 1) (.IfElse c t (some e)) st v st2

end ast

/-! ## Example programs -/

namespace examples

open runtime ast

/-- The empty state: no variable, no instance, no output. -/
def emptyState : State := ⟨[], [], ""⟩

/-- A class whose only method is `__lt__(other)`, returning the given `Bool`. -/
def onlyLt (result : Bool) : runtime.Class :=
  Class.create "OnlyLt" [.mk "__lt__" ["other"] (.MethodBody (.Return (.Const (.Bool result))))]
    none

/-- Two instances of `onlyLt result`, at the addresses 0 and 1. -/
def twoOnlyLt (result : Bool) : State :=
  ⟨[], [⟨onlyLt result, []⟩, ⟨onlyLt result, []⟩], ""⟩

/-- A class with a method `broken()` whose body reads an undefined variable. -/
def withBroken : runtime.Class :=
  Class.create "WithBroken" [.mk "broken" [] (.VariableValue ["nope"])] none

/-- The class of the specification: `__init__(v)` sets `self.v = v`. -/
def withInit : runtime.Class :=
  Class.create "C"
    [.mk "__init__" ["v"] (.FieldAssignment ["self"] "v" (.VariableValue ["v"]))] none

/-- A method body with a `return` inside an `if` inside a sequence, followed by prints. -/
def nestedReturn : Statement :=
  .Compound [
    .IfElse (.Const (.Bool true))
      (.Compound [.Return (.Const (.Number 1)), .Print [.Const (.String "after return")]])
      none,
    .Print [.Const (.String "after if")]]

end examples

namespace runtime

/-- The values of the C++ type `int`. -/
def inIntRange (n : Int) : Prop := -2147483648 ≤ n ∧ n ≤ 2147483647

/-- Both holders are `Number` values. -/
def bothNumbers : ObjectHolder → ObjectHolder → Bool
  | .Number _, .Number _ => true
  | _, _ => false

/-- Both holders are `String` values. -/
def bothStrings : ObjectHolder → ObjectHolder → Bool
  | .String _, .String _ => true
  | _, _ => false

end runtime

namespace examples

open runtime ast

/-- A class whose `__add__(other)` returns the number 42 and whose `__sub__(other)` returns
the number 7. -/
def withAdd : runtime.Class :=
  Class.create "WithAdd"
    [.mk "__add__" ["other"] (.MethodBody (.Return (.Const (.Number 42)))),
     .mk "__sub__" ["other"] (.MethodBody (.Return (.Const (.Number 7))))] none

/-- A state with one instance of `withAdd`, bound to the variable `a`. -/
def oneWithAdd : State := ⟨[("a", .ClassInstance 0)], [⟨withAdd, []⟩], ""⟩

end examples
namespace ast

open runtime

/-- The first statement of `NewInstance::Execute` (statement.cpp 313): a new instance of the
class is created and bound in the scope under the name of the class. -/
def withNewInstance (class_ : runtime.Class) (st : State) : State :=
  { st with heap := st.heap ++ [⟨class_, []⟩],
            scope := st.scope.assign class_.GetName (.ClassInstance st.heap.length) }

/-- The dotted path resolves to the value `v`: the first name is bound in the closure, each
name but the last is bound to an instance of the heap, in whose fields the next name is
looked up, and the last name is bound to `v` (an instance of the heap if it is one). -/
inductive Resolves (heap : List ClassInstance) :
    List String → Closure → ObjectHolder → Prop
  | last {id : String} {c : Closure} {v : ObjectHolder} :
      c.find id = some v →
      (∀ a : Nat, v = .ClassInstance a → ∃ inst : ClassInstance, heap.get? a = some inst) →
      Resolves heap [id] c v
  | step {id id2 : String} {ids : List String} {c : Closure} {a : Nat} {inst : ClassInstance}
      {v : ObjectHolder} :
      c.find id = some (.ClassInstance a) → heap.get? a = some inst →
      Resolves heap (id2 :: ids) inst.closure_ v → Resolves heap (id :: id2 :: ids) c v

/-- Some segment of the dotted path is absent from the closure it is looked up in; `missing`
is that segment. -/
inductive Absent (heap : List ClassInstance) : List String → Closure → String → Prop
  | here {id : String} {ids : List String} {c : Closure} :
      c.find id = none → Absent heap (id :: ids) c id
  | later {id missing : String} {ids : List String} {c : Closure} {a : Nat}
      {inst : ClassInstance} :
      c.find id = some (.ClassInstance a) → heap.get? a = some inst →
      Absent heap ids inst.closure_ missing → Absent heap (id :: ids) c missing

/-- Every segment of the dotted path but the last, when it is bound, is bound to a class
instance of the heap (and the last one, when it is bound to an instance, to one of the
heap). -/
def InstancePath (heap : List ClassInstance) : List String → Closure → Prop
  | [], _ => True
  | id :: rest, c =>
    match rest with
    | [] => ∀ a : Nat, c.find id = some (.ClassInstance a) →
        ∃ inst : ClassInstance, heap.get? a = some inst
    | _ :: _ => ∀ v : ObjectHolder, c.find id = some v →
        ∃ (a : Nat) (inst : ClassInstance), v = .ClassInstance a ∧ heap.get? a = some inst ∧
          InstancePath heap rest inst.closure_

end ast

namespace examples

open runtime ast

/-- An instance `p` whose field `q` is an instance whose field `n` is the number 7. -/
def nestedFields : State :=
  ⟨[("p", .ClassInstance 0)],
   [⟨withInit, [("q", .ClassInstance 1)]⟩, ⟨withInit, [("n", .Number 7)]⟩], ""⟩

end examples

namespace ast

open runtime

/-- The rendering the specification gives for the values that are not objects with methods:
the text `None` for an empty holder, `True` or `False` for a `Bool`, the decimal text of a
`Number`, the text itself of a `String`. -/
def renderPrimitive : ObjectHolder → Option String
  | .None => some "None"
  | .Bool b => some (if b then "True" else "False")
  | .Number n => some (toString n)
  | .String s => some s
  | _ => none

/-- The texts joined by single spaces. -/
def joinSpaces : List String → String
  | [] => ""
  | [t] => t
  | t :: u :: ts => t ++ " " ++ joinSpaces (u :: ts)

/-- The arguments of a `Print` are evaluated in order, each one in the state left by the
printing of the one before it, without writing to the output themselves, and their values
are rendered by `renderPrimitive`: `PrintsQuietly fuel first args st texts st2` gives the
renderings and the state after the last argument has been printed. `first` tells that no
argument has been printed yet. -/
inductive PrintsQuietly (fuel : Nat) : Bool → List Statement → State → List String → State →
    Prop
  | done (first : Bool) (st : State) : PrintsQuietly fuel first [] st [] st
  | next {first : Bool} {e : Statement} {es : List Statement} {st st1 st2 : State}
      {v : ObjectHolder} {text : String} {texts : List String} :
      Execute fuel e st = (.Normal v, st1) → st1.output = st.output →
      renderPrimitive v = some text →
      PrintsQuietly fuel false es
        { st1 with output := st1.output ++ (if first then "" else " ") ++ text } texts st2 →
      PrintsQuietly fuel first (e :: es) st (text :: texts) st2

end ast

namespace examples

open runtime ast

/-- A class whose method `noisy()` prints `x` and returns the number 1. -/
def withNoisy : runtime.Class :=
  Class.create "WithNoisy"
    [.mk "noisy" [] (.MethodBody (.Compound
      [.Print [.Const (.String "x")], .Return (.Const (.Number 1))]))] none

/-- A state with one instance of `withNoisy`, bound to the variable `obj`. -/
def oneNoisy : State := ⟨[("obj", .ClassInstance 0)], [⟨withNoisy, []⟩], ""⟩

end examples
namespace parse

/-- The character an escape pair stands for: the pairs are backslash-n, backslash-t,
backslash-double-quote and backslash-single-quote. -/
def escapeOf (c : Char) : Option Char :=
  if c = 'n' then some chNewline
  else if c = 't' then some chTab
  else if c = chDQuote then some chDQuote
  else if c = chSQuote then some chSQuote
  else none

/-- The bodies of string literals opened by the quote `q`, with their values:
`LiteralBody q src val` holds when the characters `src` are made of escape pairs and of
characters other than the quote `q`, the backslash, the newline and the carriage return, and
`val` is `src` with each escape pair replaced by the character it stands for. -/
inductive LiteralBody (q : Char) : List Char → List Char → Prop
  | nil : LiteralBody q [] []
  | plain {c : Char} {src val : List Char} :
      c ≠ q → c ≠ chBackslash → c ≠ chNewline → c ≠ chReturn → LiteralBody q src val →
      LiteralBody q (c :: src) (c :: val)
  | escape {e d : Char} {src val : List Char} :
      escapeOf e = some d → LiteralBody q src val →
      LiteralBody q (chBackslash :: e :: src) (d :: val)

end parse

namespace parse

/-- A character sequence made of whole lines: it is empty or ends with a newline. -/
def WholeLines (p : List Char) : Prop := p = [] ∨ ∃ p0, p = p0 ++ [chNewline]

/-- The content of a blank line, without the newline that ends it: an even number of
spaces, followed by nothing or by a comment. -/
def isBlankLine (q : List Char) : Bool :=
  leadingSpaces q % 2 = 0 &&
    (match q.dropWhile (fun c => c = ' ') with
     | [] => true
     | c :: rest => c = '#' && rest.all (fun x => x ≠ chNewline))

/-- The token stream of an input text when the driver may call `NextToken` at most `n`
times; `Tokenize` is the case `n = 2 * input.length + 4`. -/
def TokenizeFuel (n : Nat) (input : String) : Except LexFailure (List Token) :=
  match Lexer.create (IStream.ofChars input.data) with
  | .error e => .error e
  | .ok L => drain n L

/-- Two streams that differ by the blank line `b`: they are the same, or the first one is
the second one with `b` and a newline inserted before `post`, after whole lines. -/
def Inserted (b post : List Char) (sA sB : IStream) : Prop :=
  sA = sB ∨ ∃ p, WholeLines p ∧ sA = ⟨p ++ b ++ chNewline :: post, false, false⟩ ∧
    sB = ⟨p ++ post, false, false⟩

end parse

namespace parse

/-- Two lexer states that differ only by the blank line `b` in what is left of the input. -/
def LexSim (b post : List Char) (LA LB : Lexer) : Prop :=
  LA.tokens = LB.tokens ∧ LA.current_pos = LB.current_pos ∧
    LA.current_indent = LB.current_indent ∧ Inserted b post LA.input LB.input

end parse

namespace parse

/-- The tokens a line holds on its own account: every token but `Newline`, `Indent`,
`Dedent` and `Eof`, a `Number` only with a value that is not negative. -/
def isOwnToken : Token → Bool
  | .Newline => false
  | .Indent => false
  | .Dedent => false
  | .Eof => false
  | .Number v => decide (0 ≤ v)
  | _ => true

end parse
namespace parse

/-- The tokens of a line whose own tokens are `own`: ended by a newline character the line
holds them followed by `Newline`; ended by the end of the input (`atEnd`) it holds them,
followed by `Newline` unless there is none, and then `Eof`. -/
def lineShape (own : List Token) (atEnd : Bool) : List Token :=
  if atEnd then (if own = [] then [] else own ++ [Token.Newline]) ++ [Token.Eof]
  else own ++ [Token.Newline]

/-- What holds of the token buffer, the cursor and the recorded depth of a lexer once its
constructor has returned. -/
def Lexer.WellFormed (L : Lexer) : Prop :=
  0 ≤ L.current_pos ∧ L.current_pos < (L.tokens.length : Int) ∧
  Token.Eof ∉ L.tokens.dropLast ∧
  L.tokens.count Token.Indent = L.tokens.count Token.Dedent + L.current_indent ∧
  (∀ k, (L.tokens.take k).count Token.Dedent ≤ (L.tokens.take k).count Token.Indent) ∧
  (∀ v, Token.Number v ∈ L.tokens → 0 ≤ v)

/-- The same for a lexer that may still be inside its constructor: the buffer is then empty
and the cursor is before it. -/
def Lexer.Started (L : Lexer) : Prop :=
  ((L.current_pos = -1 ∧ L.tokens = []) ∨
    (0 ≤ L.current_pos ∧ L.current_pos < (L.tokens.length : Int))) ∧
  Token.Eof ∉ L.tokens.dropLast ∧
  L.tokens.count Token.Indent = L.tokens.count Token.Dedent + L.current_indent ∧
  (∀ k, (L.tokens.take k).count Token.Dedent ≤ (L.tokens.take k).count Token.Indent) ∧
  (∀ v, Token.Number v ∈ L.tokens → 0 ≤ v)

end parse
namespace parse

/-- The fixed keyword table of the specification. -/
def keywordTable : List (String × Token) :=
  [("class", Token.Class), ("return", Token.Return), ("if", Token.If), ("else", Token.Else),
   ("def", Token.Def), ("print", Token.Print), ("and", Token.And), ("or", Token.Or),
   ("not", Token.Not), ("None", Token.None), ("True", Token.True), ("False", Token.False)]

/-- The token the specification gives an identifier lexeme: the marker token of the keyword
table when the whole lexeme is one of the keywords, `Id` of the lexeme otherwise. -/
def lexemeToken (s : String) : Token :=
  match keywordTable.lookup s with
  | some t => t
  | none => Token.Id s

end parse

namespace parse

/-- The state of a lexer after `n` further calls of `NextToken`. -/
def advance : Nat → Lexer → Except LexFailure Lexer
  | 0, L => .ok L
  | n + 1, L =>
    match NextToken L with
    | .error e => .error e
    | .ok (_, L1) => advance n L1

end parse

namespace examples

open runtime ast

/-- The scope that binds `x` to the number 5 and `y` to the number 3. -/
def twoNumbers : State := ⟨[("x", .Number 5), ("y", .Number 3)], [], ""⟩

end examples
namespace parse

/-- The states of a lexer whose input ends with the line `last`, ended by a newline
character: the line is still to be read; or it has been read, was not blank, and its tokens
end the buffer; or the end of the input has been read after it, which adds the `Dedent`
tokens that close its depth and `Eof`; or the line was blank and the end of the input has
been read. -/
def LastLinePhase (last : List Char) (L : Lexer) : Prop :=
  (∃ q, WholeLines q ∧ L.input = ⟨q ++ last, false, false⟩) ∨
  (∃ (front : List Token) (tl : TokenLine),
    ReadLine ⟨last, false, false⟩ = .ok (tl, ⟨[], false, false⟩) ∧ tl.IsEmpty = false ∧
    L.input = ⟨[], false, false⟩ ∧ L.tokens = front ++ tl.tokens ∧
    L.current_indent = tl.line_indent) ∨
  (∃ (front : List Token) (tl : TokenLine),
    ReadLine ⟨last, false, false⟩ = .ok (tl, ⟨[], false, false⟩) ∧ tl.IsEmpty = false ∧
    L.input.eofbit = true ∧
    L.tokens = front ++ tl.tokens ++ indentTokens tl.line_indent 0 ++ [Token.Eof]) ∨
  (∃ tl : TokenLine,
    ReadLine ⟨last, false, false⟩ = .ok (tl, ⟨[], false, false⟩) ∧ tl.IsEmpty = true ∧
    L.input.eofbit = true)

end parse

namespace examples
open runtime ast

/-- A class with a field `k` read by its comparison methods: `__eq__(other)` returns
`self.k == other.k` and `__lt__(other)` returns `self.k < other.k`. -/
def keyed : runtime.Class :=
  Class.create "Keyed"
    [.mk "__eq__" ["other"] (.MethodBody (.Return
        (.Comparison .Equal (.VariableValue ["self", "k"]) (.VariableValue ["other", "k"])))),
     .mk "__lt__" ["other"] (.MethodBody (.Return
        (.Comparison .Less (.VariableValue ["self", "k"]) (.VariableValue ["other", "k"]))))]
    none

/-- Two instances of `keyed`, at the addresses 0 and 1, with the keys `j` and `k`. -/
def twoKeyed (j k : Int) : State :=
  ⟨[], [⟨keyed, [("k", .Number j)]⟩, ⟨keyed, [("k", .Number k)]⟩], ""⟩

end examples

namespace runtime

end runtime

namespace examples
open runtime ast

end examples

/-! ## Theorems: lexer -/

namespace parse

/-! ## Stream lemmas -/

theorem IStream.good_iff (s : IStream) : s.good = true ↔ s.eofbit = false ∧ s.failbit = false := by
  cases s with
  | mk r e f => cases e <;> cases f <;> simp [IStream.good]

theorem IStream.sane_of_good {s : IStream} (h : s.good = true) : s.sane := by
  have := (IStream.good_iff s).1 h
  constructor <;> intro h1 <;> simp_all

theorem IStream.good_of_sane {s : IStream} (h : s.sane) (he : s.eofbit = false) :
    s.good = true := by
  rw [IStream.good_iff]
  refine ⟨he, ?_⟩
  cases hf : s.failbit with
  | false => rfl
  | true => have := h.1 hf; simp_all

theorem IStream.get_some {s s1 : IStream} {c : Char} (h : s.get = (some c, s1)) :
    s.good = true ∧ s1.good = true ∧ s.rest = c :: s1.rest := by
  unfold IStream.get at h
  split at h
  · rename_i hg
    split at h
    · simp at h
    · rename_i c1 r hr
      simp only [Prod.mk.injEq, Option.some.injEq] at h
      obtain ⟨h1, h2⟩ := h
      subst h1; subst h2
      exact ⟨hg, by simpa [IStream.good] using hg, by simp [hr]⟩
  · simp at h

theorem IStream.get_sane {s s1 : IStream} {x : Option Char} (h : s.get = (x, s1))
    (hs : s.sane) : s1.sane := by
  by_cases hg : s.good = true
  · cases hr : s.rest with
    | nil =>
      simp only [IStream.get, hg, hr, if_true, Prod.mk.injEq] at h
      obtain ⟨_, h2⟩ := h
      subst h2
      exact ⟨fun _ => rfl, fun _ => rfl⟩
    | cons c r =>
      simp only [IStream.get, hg, hr, if_true, Prod.mk.injEq] at h
      obtain ⟨_, h2⟩ := h
      subst h2
      have hg2 : (IStream.mk r s.eofbit s.failbit).good = true := by
        simpa [IStream.good] using hg
      exact IStream.sane_of_good hg2
  · simp only [IStream.get, hg, Prod.mk.injEq, if_false, Bool.false_eq_true] at h
    obtain ⟨_, h2⟩ := h
    subst h2
    have he : s.eofbit = true := by
      cases he : s.eofbit with
      | true => rfl
      | false => exact absurd (IStream.good_of_sane hs he) hg
    exact ⟨fun _ => he, fun _ => hs.2 he⟩

theorem IStream.peek_sane {s s1 : IStream} {x : Option Char} (h : s.peek = (x, s1))
    (hs : s.good = true) : s1.sane ∧ (x ≠ none → s1 = s) := by
  cases hr : s.rest with
  | nil =>
    simp only [IStream.peek, hs, hr, if_true, Prod.mk.injEq] at h
    obtain ⟨h1, h2⟩ := h
    subst h1; subst h2
    exact ⟨⟨fun _ => rfl, fun _ => rfl⟩, fun hx => absurd rfl hx⟩
  | cons c r =>
    simp only [IStream.peek, hs, hr, if_true, Prod.mk.injEq] at h
    obtain ⟨_, h2⟩ := h
    subst h2
    exact ⟨IStream.sane_of_good hs, fun _ => rfl⟩

theorem IStream.putback_good {s : IStream} (c : Char) (h : s.good = true) :
    (s.putback c).good = true ∧ (s.putback c).rest = c :: s.rest := by
  have hb := (IStream.good_iff s).1 h
  unfold IStream.putback
  simp [hb.2, IStream.good]

end parse

namespace parse

/-! ## The readers keep the stream sane and never produce `Eof` -/

theorem countSpaces_spec (cs : List Char) :
    (countSpaces cs).1 = leadingSpaces cs ∧
      ((countSpaces cs).2.2 = true → (countSpaces cs).2.1 = []) := by
  induction cs with
  | nil => simp [countSpaces, leadingSpaces]
  | cons c r ih =>
    by_cases hc : c = ' '
    · simp only [countSpaces, leadingSpaces, hc, if_true]
      exact ⟨by rw [ih.1], ih.2⟩
    · simp [countSpaces, leadingSpaces, hc]

theorem CountIndents_spec {s s1 : IStream} {d : Nat} (hg : s.good = true)
    (h : CountIndents s = .ok (d, s1)) :
    s1.sane ∧ leadingSpaces s.rest = 2 * d := by
  have hb := (IStream.good_iff s).1 hg
  have hc := countSpaces_spec s.rest
  unfold CountIndents at h
  split at h
  rename_i n r e heq
  rw [heq] at hc
  simp only at hc
  split at h
  · simp at h
  · rename_i hn
    simp only [Except.ok.injEq, Prod.mk.injEq] at h
    obtain ⟨h1, h2⟩ := h
    subst h2
    refine ⟨⟨?_, ?_⟩, ?_⟩
    · intro hf; simp [hb.2] at hf
    · intro he
      simp only [hb.1, Bool.false_or] at he
      exact hc.2 he
    · rw [← hc.1, ← h1]
      simp only [ne_eq, Decidable.not_not] at hn
      omega

theorem ReadComment_sane {s : IStream} (hg : s.good = true) : (ReadComment s).sane := by
  unfold ReadComment
  split
  · exact ⟨fun _ => rfl, fun _ => rfl⟩
  · rename_i r _
    have hg2 : (IStream.mk r s.eofbit s.failbit).good = true := by
      simpa [IStream.good] using hg
    exact IStream.sane_of_good (IStream.putback_good chNewline hg2).1

theorem ReadString_spec {q : Char} {s s2 : IStream} {t : Token} (hg : s.good = true)
    (h : ReadString q s = .ok (t, s2)) : s2.sane ∧ t ≠ Token.Eof := by
  unfold ReadString at h
  split at h
  · simp at h
  · simp only [Except.ok.injEq, Prod.mk.injEq] at h
    obtain ⟨h1, h2⟩ := h
    subst h1; subst h2
    refine ⟨IStream.sane_of_good ?_, by simp⟩
    simpa [IStream.good] using hg

theorem takeDigits_end (cs : List Char) :
    (takeDigits cs).2.2 = true → (takeDigits cs).2.1 = [] := by
  induction cs with
  | nil => simp [takeDigits]
  | cons c r ih =>
    by_cases hc : c.isDigit = true
    · simpa [takeDigits, hc] using ih
    · simp [takeDigits, hc]

theorem ReadNumber_spec {s s2 : IStream} {t : Token} (hg : s.good = true)
    (h : ReadNumber s = .ok (t, s2)) : s2.sane ∧ t ≠ Token.Eof := by
  have hb := (IStream.good_iff s).1 hg
  have hd := takeDigits_end (if decide (s.rest.head? = some '-') = true then s.rest.tail else s.rest)
  unfold ReadNumber at h
  simp only at h
  split at h
  · simp at h
  · simp only [Except.ok.injEq, Prod.mk.injEq] at h
    obtain ⟨h1, h2⟩ := h
    subst h1; subst h2
    refine ⟨⟨?_, ?_⟩, by simp⟩
    · intro hf; simp [hb.2] at hf
    · intro he
      simp only [hb.1, Bool.false_or] at he
      exact hd he

theorem takeIdChars_end (cs : List Char) :
    (takeIdChars cs).2.2 = true → (takeIdChars cs).2.1 = [] := by
  induction cs with
  | nil => simp [takeIdChars]
  | cons c r ih =>
    by_cases hc : isIdChar c = true
    · simpa [takeIdChars, hc] using ih
    · simp [takeIdChars, hc]

theorem ite_ne_token {c : Prop} [Decidable c] {a b x : Token} (ha : a ≠ x) (hb : b ≠ x) :
    (if c then a else b) ≠ x := by
  by_cases hc : c
  · rw [if_pos hc]; exact ha
  · rw [if_neg hc]; exact hb

theorem keywordOrId_ne_Eof (id : String) : keywordOrId id ≠ Token.Eof := by
  unfold keywordOrId
  repeat' apply ite_ne_token
  all_goals (intro h; cases h)

theorem ReadId_spec {s s2 : IStream} {t : Token} (hg : s.good = true)
    (h : ReadId s = .ok (t, s2)) : s2.sane ∧ t ≠ Token.Eof := by
  have hb := (IStream.good_iff s).1 hg
  unfold ReadId at h
  split at h
  rename_i cs r e heq
  have hd := takeIdChars_end s.rest
  rw [heq] at hd
  split at h
  · simp at h
  · simp only [Except.ok.injEq, Prod.mk.injEq] at h
    obtain ⟨h1, h2⟩ := h
    subst h1; subst h2
    refine ⟨⟨?_, ?_⟩, keywordOrId_ne_Eof _⟩
    · intro hf
      simp only [hb.2, Bool.false_or] at hf
      simp [hf]
    · intro he
      simp only [hb.1, Bool.false_or] at he
      exact hd he

theorem ReadEq_spec {s s2 : IStream} {t : Token} (hs : s.sane)
    (h : ReadEq s = .ok (t, s2)) : s2.sane ∧ t ≠ Token.Eof := by
  unfold ReadEq at h
  split at h
  rename_i ch s1 h1
  split at h
  rename_i x s3 h3
  have hs3 : s3.sane := IStream.get_sane h3 (IStream.get_sane h1 hs)
  repeat' split at h
  all_goals first
    | (simp at h; done)
    | (simp only [Except.ok.injEq, Prod.mk.injEq] at h
       obtain ⟨e1, e2⟩ := h
       subst e1; subst e2
       exact ⟨hs3, by simp⟩)

end parse

namespace parse

theorem not_mem_snoc {toks : List Token} {t : Token} (h : Token.Eof ∉ toks)
    (ht : t ≠ Token.Eof) : Token.Eof ∉ toks ++ [t] := by
  simp only [List.mem_append, List.mem_singleton, not_or]
  exact ⟨h, fun e => ht e.symm⟩

theorem ReadLineLoop_spec (fuel : Nat) : ∀ (s : IStream) (toks toks1 : List Token) (s1 : IStream),
    s.sane → Token.Eof ∉ toks → ReadLineLoop fuel s toks = .ok (toks1, s1) →
    s1.sane ∧ Token.Eof ∉ toks1 := by
  induction fuel with
  | zero => intro s toks toks1 s1 _ _ h; simp [ReadLineLoop] at h
  | succ n ih =>
    intro s toks toks1 s1 hs hE h
    rw [ReadLineLoop] at h
    split at h
    · simp only [Except.ok.injEq, Prod.mk.injEq] at h
      obtain ⟨e1, e2⟩ := h
      subst e1; subst e2
      exact ⟨hs, hE⟩
    · split at h
      · rename_i sg hget
        simp only [Except.ok.injEq, Prod.mk.injEq] at h
        obtain ⟨e1, e2⟩ := h
        subst e1; subst e2
        exact ⟨IStream.get_sane hget hs, hE⟩
      · rename_i ch sg hget
        obtain ⟨hg, hg1, hr⟩ := IStream.get_some hget
        split at h
        · simp only [Except.ok.injEq, Prod.mk.injEq] at h
          obtain ⟨e1, e2⟩ := h
          subst e1; subst e2
          exact ⟨IStream.sane_of_good hg1, not_mem_snoc hE (by simp)⟩
        · split at h
          · exact ih _ _ _ _ (IStream.sane_of_good hg1) hE h
          · split at h
            · exact ih _ _ _ _ (ReadComment_sane hg1) hE h
            · split at h
              · split at h
                · simp at h
                · rename_i t s2 hrd
                  obtain ⟨a, b⟩ := ReadString_spec hg1 hrd
                  exact ih _ _ _ _ a (not_mem_snoc hE b) h
              · split at h
                · split at h
                  · simp at h
                  · rename_i t s2 hrd
                    obtain ⟨a, b⟩ := ReadNumber_spec (IStream.putback_good ch hg1).1 hrd
                    exact ih _ _ _ _ a (not_mem_snoc hE b) h
                · split at h
                  · split at h
                    · simp at h
                    · rename_i t s2 hrd
                      obtain ⟨a, b⟩ := ReadId_spec (IStream.putback_good ch hg1).1 hrd
                      exact ih _ _ _ _ a (not_mem_snoc hE b) h
                  · split at h
                    · split at h
                      rename_i p s2 hpk
                      obtain ⟨hps, hpe⟩ := IStream.peek_sane hpk hg1
                      split at h
                      · rename_i hp
                        have hs2 : s2 = sg := hpe (by rw [hp]; simp)
                        subst hs2
                        split at h
                        · simp at h
                        · rename_i t s3 hrd
                          obtain ⟨a, b⟩ := ReadEq_spec
                            (IStream.sane_of_good (IStream.putback_good ch hg1).1) hrd
                          exact ih _ _ _ _ a (not_mem_snoc hE b) h
                      · exact ih _ _ _ _ hps (not_mem_snoc hE (by simp)) h
                    · exact ih _ _ _ _ (IStream.sane_of_good hg1) (not_mem_snoc hE (by simp)) h

end parse

namespace parse

theorem finishLine_eof {toks : List Token} {s : IStream} (h : s.eofbit = true) :
    (finishLine toks s).getLast? = some Token.Eof := by
  unfold finishLine
  simp [IStream.eof, h]

theorem finishLine_not_eof {toks : List Token} {s : IStream} (h : s.eofbit = false) :
    finishLine toks s = toks := by
  unfold finishLine
  simp [IStream.eof, h]

theorem mem_of_getLast? {toks : List Token} {t : Token} (h : toks.getLast? = some t) :
    t ∈ toks := List.mem_of_getLast?_eq_some h

theorem IsEmpty_no_Eof {tl : TokenLine} (h : tl.IsEmpty = true) : Token.Eof ∉ tl.tokens := by
  intro hm
  unfold TokenLine.IsEmpty at h
  simp only [Bool.or_eq_true, List.isEmpty_iff, List.all_eq_true, decide_eq_true_eq] at h
  rcases h with h | h
  · rw [h] at hm; simp at hm
  · have := h _ hm
    cases this

theorem ReadLine_spec {s s1 : IStream} {tl : TokenLine} (hg : s.good = true)
    (h : ReadLine s = .ok (tl, s1)) :
    s1.sane ∧ leadingSpaces s.rest = 2 * tl.line_indent ∧
      (s1.eofbit = true → tl.tokens.getLast? = some Token.Eof) ∧
      (s1.eofbit = false → Token.Eof ∉ tl.tokens) := by
  unfold ReadLine at h
  rw [if_pos hg] at h
  split at h
  · simp at h
  · rename_i d sc hci
    obtain ⟨hsc, hls⟩ := CountIndents_spec hg hci
    split at h
    · simp at h
    · rename_i toks s2 hloop
      obtain ⟨hs2, hE⟩ := ReadLineLoop_spec _ _ _ _ _ hsc (by simp) hloop
      simp only [Except.ok.injEq, Prod.mk.injEq] at h
      obtain ⟨e1, e2⟩ := h
      subst e1; subst e2
      refine ⟨hs2, hls, fun he => finishLine_eof he, fun he => ?_⟩
      simp only [finishLine_not_eof he]
      exact hE

theorem pullLine_spec (fuel : Nat) : ∀ (s s1 : IStream) (tl : TokenLine), s.good = true →
    pullLine fuel s = .ok (tl, s1) →
    NonBlankLines s [(tl.line_indent, tl.tokens)] s1 ∧ s1.sane ∧
      (s1.eofbit = true → tl.tokens.getLast? = some Token.Eof) ∧
      (s1.eofbit = false → Token.Eof ∉ tl.tokens) := by
  induction fuel with
  | zero => intro s s1 tl _ h; simp [pullLine] at h
  | succ n ih =>
    intro s s1 tl hg h
    rw [pullLine] at h
    split at h
    · simp at h
    · rename_i tl0 s0 hrl
      obtain ⟨hs0, hls, he1, he2⟩ := ReadLine_spec hg hrl
      split at h
      · rename_i hemp
        have hne : s0.eofbit = false := by
          cases hb : s0.eofbit with
          | false => rfl
          | true => exact absurd (mem_of_getLast? (he1 hb)) (IsEmpty_no_Eof hemp)
        obtain ⟨a, b⟩ := ih _ _ _ (IStream.good_of_sane hs0 hne) h
        exact ⟨NonBlankLines.blank hrl hemp a, b⟩
      · rename_i hemp
        simp only [Except.ok.injEq, Prod.mk.injEq] at h
        obtain ⟨e1, e2⟩ := h
        subst e1; subst e2
        exact ⟨NonBlankLines.line hrl (by simpa using hemp) hls (NonBlankLines.done _),
          hs0, he1, he2⟩

theorem NonBlankLines_append {s s1 s2 : IStream} {ls ls1 : List (Nat × List Token)}
    (h : NonBlankLines s ls s1) (h1 : NonBlankLines s1 ls1 s2) :
    NonBlankLines s (ls ++ ls1) s2 := by
  induction h with
  | done s => simpa using h1
  | blank hr he _ ih => exact NonBlankLines.blank hr he (ih h1)
  | line hr he hl _ ih => exact NonBlankLines.line hr he hl (ih h1)

theorem render_append (ls : List (Nat × List Token)) : ∀ (p d : Nat) (ts : List Token),
    render p (ls ++ [(d, ts)]) = render p ls ++ (indentTokens (lastDepth p ls) d ++ ts) := by
  induction ls with
  | nil => intro p d ts; simp [render, lastDepth]
  | cons l ls ih =>
    intro p d ts
    obtain ⟨d0, ts0⟩ := l
    simp [render, lastDepth, ih]

theorem lastDepth_append (ls : List (Nat × List Token)) : ∀ (p d : Nat) (ts : List Token),
    lastDepth p (ls ++ [(d, ts)]) = d := by
  induction ls with
  | nil => intro p d ts; simp [lastDepth]
  | cons l ls ih =>
    intro p d ts
    obtain ⟨d0, ts0⟩ := l
    simp [lastDepth, ih]

theorem UpdateIndent_spec (L : Lexer) (d : Nat) :
    (UpdateIndent L d).tokens = L.tokens ++ indentTokens L.current_indent d ∧
      (UpdateIndent L d).current_indent = d ∧ (UpdateIndent L d).input = L.input ∧
      (UpdateIndent L d).current_pos = L.current_pos := by
  unfold UpdateIndent indentTokens
  split
  · simp
  · split <;> simp

theorem indentTokens_no_Eof (p d : Nat) : Token.Eof ∉ indentTokens p d := by
  unfold indentTokens
  split
  · simp [List.mem_replicate]
  · split <;> simp [List.mem_replicate]

theorem tokenAt_mem {toks : List Token} {i : Int} {t : Token} (h : tokenAt toks i = .ok t) :
    t ∈ toks := by
  unfold tokenAt at h
  split at h
  · simp at h
  · split at h
    · rename_i t0 hget
      simp only [Except.ok.injEq] at h
      subst h
      exact List.get?_mem hget
    · simp at h

theorem NextToken_inv {s0 : IStream} {L L1 : Lexer} {t : Token} (hI : LexInv s0 L)
    (h : NextToken L = .ok (t, L1)) : LexInv s0 L1 := by
  obtain ⟨lines, hl, htok, hind, hsane, he1, he2⟩ := hI
  unfold NextToken at h
  split at h
  · split at h
    · simp at h
    · simp only [Except.ok.injEq, Prod.mk.injEq] at h
      obtain ⟨_, e2⟩ := h
      subst e2
      exact ⟨lines, hl, htok, hind, hsane, he1, he2⟩
  · split at h
    · simp only [Except.ok.injEq, Prod.mk.injEq] at h
      obtain ⟨_, e2⟩ := h
      subst e2
      exact ⟨lines, hl, htok, hind, hsane, he1, he2⟩
    · rename_i hpos hlast
      have hne : L.input.eofbit = false := by
        cases hb : L.input.eofbit with
        | false => rfl
        | true =>
          exfalso
          apply hlast
          have := he1 hb
          refine ⟨?_, this⟩
          intro hnil
          rw [hnil] at this
          simp at this
      have hg := IStream.good_of_sane hsane hne
      split at h
      · simp at h
      · rename_i tl s1 hpull
        obtain ⟨hnb, hs1, hp1, hp2⟩ := pullLine_spec _ _ _ _ hg hpull
        obtain ⟨u1, u2, u3, u4⟩ := UpdateIndent_spec { L with input := s1 } tl.line_indent
        simp only at u1 u2 u3 u4
        simp only at h
        split at h
        · simp at h
        · simp only [Except.ok.injEq, Prod.mk.injEq] at h
          obtain ⟨_, e2⟩ := h
          subst e2
          refine ⟨lines ++ [(tl.line_indent, tl.tokens)], ?_, ?_, ?_, ?_, ?_, ?_⟩
          · simp only [u3]
            exact NonBlankLines_append hl hnb
          · show (UpdateIndent _ _).tokens ++ tl.tokens = _
            rw [u1, render_append, ← htok, ← hind, List.append_assoc]
          · simp only [u2, lastDepth_append]
          · simp only [u3]; exact hs1
          · intro hb
            simp only [u3] at hb
            have hlast := hp1 hb
            have hnil : tl.tokens ≠ [] := by
              intro hn; rw [hn] at hlast; simp at hlast
            simp only [u1]
            rw [List.getLast?_append_of_ne_nil _ hnil]
            exact hlast
          · intro hb
            simp only [u3] at hb
            simp only [u1, List.mem_append, not_or]
            exact ⟨⟨he2 hne, indentTokens_no_Eof _ _⟩, hp2 hb⟩

theorem LexInv_init (cs : List Char) : LexInv (IStream.ofChars cs) ⟨IStream.ofChars cs, 0, -1, []⟩ :=
  ⟨[], NonBlankLines.done _, rfl, rfl, IStream.sane_of_good rfl, (fun h => by cases h),
    (fun _ => by simp)⟩

theorem Reachable_inv {cs : List Char} {L : Lexer} (h : Reachable cs L) :
    LexInv (IStream.ofChars cs) L := by
  induction h with
  | create hc =>
    unfold Lexer.create at hc
    split at hc
    · simp at hc
    · rename_i t L0 hn
      simp only [Except.ok.injEq] at hc
      subst hc
      exact NextToken_inv (LexInv_init cs) hn
  | next _ hn ih => exact NextToken_inv ih hn

theorem drain_reachable (n : Nat) : ∀ (cs : List Char) (L : Lexer) (toks : List Token),
    Reachable cs L → drain n L = .ok toks →
    ∃ L1, Reachable cs L1 ∧ toks = L1.tokens ∧ Token.Eof ∈ L1.tokens := by
  induction n with
  | zero => intro cs L toks _ h; simp [drain] at h
  | succ n ih =>
    intro cs L toks hR h
    rw [drain] at h
    split at h
    · simp at h
    · rename_i t hcur
      split at h
      · rename_i ht
        simp only [Except.ok.injEq] at h
        subst ht
        exact ⟨L, hR, h.symm, tokenAt_mem hcur⟩
      · split at h
        · simp at h
        · rename_i t1 L1 hn
          exact ih cs L1 toks (Reachable.next hR hn) h

end parse

namespace parse

/-- Claim C1: for every successfully lexed input the token stream is, for the lines that are
not blank taken in order, the concatenation of the indentation tokens and the own tokens of
each line, where a line of depth `d` (it starts with `2 * d` spaces) that follows a line of
depth `p` (`p = 0` before the first line) is preceded by exactly `d - p` `Indent` tokens when
`d > p`, exactly `p - d` `Dedent` tokens when `d < p`, and by neither when `d = p`. This
holds of the token buffer in every state the lexer reaches, the recorded depth being that of
the last line read, and of the complete token stream, whose lines cover the input up to its
end. -/
theorem indent_reconciliation (input : String) :
    (∀ L : Lexer, Reachable input.data L →
      ∃ lines : List (Nat × List Token),
        NonBlankLines (IStream.ofChars input.data) lines L.input ∧
        L.tokens = render 0 lines ∧ L.current_indent = lastDepth 0 lines ∧
        (Token.Eof ∈ L.tokens → L.input.rest = [])) ∧
    (∀ toks : List Token, Tokenize input = .ok toks →
      ∃ (lines : List (Nat × List Token)) (s1 : IStream),
        NonBlankLines (IStream.ofChars input.data) lines s1 ∧ s1.rest = [] ∧
        toks = render 0 lines) ∧
    (∀ p d : Nat, indentTokens p d =
      if d > p then List.replicate (d - p) Token.Indent
      else if d < p then List.replicate (p - d) Token.Dedent
      else []) := by
  have key : ∀ L : Lexer, Reachable input.data L →
      ∃ lines : List (Nat × List Token),
        NonBlankLines (IStream.ofChars input.data) lines L.input ∧
        L.tokens = render 0 lines ∧ L.current_indent = lastDepth 0 lines ∧
        (Token.Eof ∈ L.tokens → L.input.rest = []) := by
    intro L hR
    obtain ⟨lines, hl, htok, hind, hsane, _, he2⟩ := Reachable_inv hR
    refine ⟨lines, hl, htok, hind, fun hE => ?_⟩
    have heof : L.input.eofbit = true := by
      cases hb : L.input.eofbit with
      | true => rfl
      | false => exact absurd hE (he2 hb)
    exact hsane.2 heof
  refine ⟨key, ?_, fun p d => rfl⟩
  intro toks h
  unfold Tokenize at h
  split at h
  · simp at h
  · rename_i L hc
    obtain ⟨L1, hR, ht, hE⟩ := drain_reachable _ _ _ _ (Reachable.create hc) h
    obtain ⟨lines, hl, htok, _, hrest⟩ := key L1 hR
    exact ⟨lines, L1.input, hl, hrest hE, by rw [ht, htok]⟩

/-- Witness for C1: the three lines `if x:`, `    y` (depth 2) and `z` (depth 0). -/
theorem indent_reconciliation_witness :
    Tokenize "if x:\n    y\nz\n" = .ok [Token.If, Token.Id "x", Token.Char ':', Token.Newline,
        Token.Indent, Token.Indent, Token.Id "y", Token.Newline,
        Token.Dedent, Token.Dedent, Token.Id "z", Token.Newline, Token.Eof] ∧
    ∃ (lines : List (Nat × List Token)) (s1 : IStream),
      NonBlankLines (IStream.ofChars "if x:\n    y\nz\n".data) lines s1 ∧ s1.rest = [] ∧
      [Token.If, Token.Id "x", Token.Char ':', Token.Newline,
        Token.Indent, Token.Indent, Token.Id "y", Token.Newline,
        Token.Dedent, Token.Dedent, Token.Id "z", Token.Newline, Token.Eof] = render 0 lines :=
  ⟨rfl, (indent_reconciliation "if x:\n    y\nz\n").2.1 _ rfl⟩

end parse

/-! ## Runtime object model -/

namespace runtime

open examples

/-- Claim C2: `Equal` of two empty holders is true; of two `Bool`, two `Number` or two
`String` values it is the equality of the payloads; of two class instances it is the `Bool`
that `__eq__`, called on the left one with the right one as its only argument, produces: when
the call returns `Bool(v)` the result is `v`, in the state the call leaves, when the call
raises, `Equal` raises the same, and a result that is no `Bool` is dereferenced as one; two
instances of a class whose `__eq__` compares the field `k` of both are equal exactly when
the fields hold the same number; every other pairing raises a runtime error, as
`Equal(Number(1), String("1"))` does. -/
theorem Equal_contract (fuel : Nat) (st : State) :
    Equal (fuel + 1) .None .None st = (.Normal true, st) ∧
    (∀ a b : Bool, Equal (fuel + 1) (.Bool a) (.Bool b) st = (.Normal (decide (a = b)), st)) ∧
    (∀ a b : Int, Equal (fuel + 1) (.Number a) (.Number b) st = (.Normal (decide (a = b)), st)) ∧
    (∀ a b : String, Equal (fuel + 1) (.String a) (.String b) st =
      (.Normal (decide (a = b)), st)) ∧
    (∀ (a b : Nat) (v : Bool) (st1 : State),
      Call fuel a "__eq__" [.ClassInstance b] st = (.Normal (.Bool v), st1) →
      Equal (fuel + 1) (.ClassInstance a) (.ClassInstance b) st = (.Normal v, st1)) ∧
    (∀ (a b : Nat) (e : Failure) (st1 : State),
      Call fuel a "__eq__" [.ClassInstance b] st = (.Throw e, st1) →
      Equal (fuel + 1) (.ClassInstance a) (.ClassInstance b) st = (.Throw e, st1)) ∧
    (∀ (a b : Nat) (r : ObjectHolder) (st1 : State),
      Call fuel a "__eq__" [.ClassInstance b] st = (.Normal r, st1) → (∀ v, r ≠ .Bool v) →
      Equal (fuel + 1) (.ClassInstance a) (.ClassInstance b) st =
        (.Throw .UndefinedBehaviour, st1)) ∧
    (∀ j k : Int, Equal (fuel + 6) (.ClassInstance 0) (.ClassInstance 1) (twoKeyed j k) =
      (.Normal (decide (j = k)), twoKeyed j k)) ∧
    Equal 6 (.ClassInstance 0) (.ClassInstance 1) (twoKeyed 3 3) =
      (.Normal true, twoKeyed 3 3) ∧
    Equal 6 (.ClassInstance 0) (.ClassInstance 1) (twoKeyed 3 4) =
      (.Normal false, twoKeyed 3 4) ∧
    (∀ lhs rhs : ObjectHolder, definedForEqual lhs rhs = false →
      Equal (fuel + 1) lhs rhs st =
        (.Throw (.runtime_error "Trying to compare wrong object types"), st)) ∧
    Equal (fuel + 1) (.Number 1) (.String "1") st =
      (.Throw (.runtime_error "Trying to compare wrong object types"), st) := by
  refine ⟨rfl, ?_, ?_, ?_, ?_, ?_, ?_, ?_, rfl, rfl, ?_, rfl⟩
  · intro a b; simp [Equal]
  · intro a b; simp [Equal]
  · intro a b; simp [Equal]
  · intro a b v st1 h
    have h1 : Call fuel a EQ_METHOD [.ClassInstance b] st = (.Normal (.Bool v), st1) := h
    simp only [Equal, h1]
    rfl
  · intro a b e st1 h
    have h1 : Call fuel a EQ_METHOD [.ClassInstance b] st = (.Throw e, st1) := h
    simp only [Equal, h1]
    rfl
  · intro a b r st1 h hr
    have h1 : Call fuel a EQ_METHOD [.ClassInstance b] st = (.Normal r, st1) := h
    simp only [Equal, h1]
    cases r <;> first | rfl | exact absurd rfl (hr _)
  · intro j k
    rfl
  · intro lhs rhs h
    cases lhs <;> cases rhs <;> first | rfl | (simp [definedForEqual] at h)

theorem Less_of_instance (fuel : Nat) (st : State) (a : Nat) (inst : ClassInstance)
    (rhs : ObjectHolder) (hh : st.heap.get? a = some inst)
    (hm : inst.HasMethod LT_METHOD 1 = true) :
    Less (fuel + 1) (.ClassInstance a) rhs st =
      Res.bind (Call fuel a LT_METHOD [rhs] st) boolResult := by
  simp only [Less, hh]
  cases rhs <;> simp [hm]

/-- Claim C3: `Less` of two `Bool`, two `Number` or two `String` values is the native order
of the payloads; when the left operand is a class instance whose class resolves a `__lt__`
with one parameter it is the `Bool` produced by calling that method with the right operand,
whatever the right operand is: when the call returns `Bool(v)` the result is `v`, in the
state the call leaves, when the call raises, `Less` raises the same, and a result that is no
`Bool` is dereferenced as one; an instance of a class whose `__lt__` compares the field `k`
of both operands is less than another exactly when its field holds the lesser number, and an
instance of a class whose `__lt__` returns a fixed `Bool` is less than any right operand
exactly when that `Bool` is true; every other case raises a runtime error, in particular
`Less(None, None)`, although `Equal(None, None)` is true. -/
theorem Less_contract (fuel : Nat) (st : State) :
    (∀ a b : Bool, Less (fuel + 1) (.Bool a) (.Bool b) st = (.Normal (decide (a < b)), st)) ∧
    (∀ a b : Int, Less (fuel + 1) (.Number a) (.Number b) st = (.Normal (decide (a < b)), st)) ∧
    (∀ a b : String, Less (fuel + 1) (.String a) (.String b) st =
      (.Normal (decide (a < b)), st)) ∧
    (∀ (a : Nat) (inst : ClassInstance) (rhs : ObjectHolder), st.heap.get? a = some inst →
      inst.HasMethod "__lt__" 1 = true →
      (∀ (v : Bool) (st1 : State), Call fuel a "__lt__" [rhs] st = (.Normal (.Bool v), st1) →
        Less (fuel + 1) (.ClassInstance a) rhs st = (.Normal v, st1)) ∧
      (∀ (e : Failure) (st1 : State), Call fuel a "__lt__" [rhs] st = (.Throw e, st1) →
        Less (fuel + 1) (.ClassInstance a) rhs st = (.Throw e, st1)) ∧
      (∀ (r : ObjectHolder) (st1 : State), Call fuel a "__lt__" [rhs] st = (.Normal r, st1) →
        (∀ v, r ≠ .Bool v) →
        Less (fuel + 1) (.ClassInstance a) rhs st = (.Throw .UndefinedBehaviour, st1))) ∧
    (∀ j k : Int, Less (fuel + 6) (.ClassInstance 0) (.ClassInstance 1) (twoKeyed j k) =
      (.Normal (decide (j < k)), twoKeyed j k)) ∧
    (∀ (rhs : ObjectHolder) (result : Bool),
      Less (fuel + 5) (.ClassInstance 0) rhs (twoOnlyLt result) =
        (.Normal result, twoOnlyLt result)) ∧
    Less 6 (.ClassInstance 0) (.ClassInstance 1) (twoKeyed 3 4) = (.Normal true, twoKeyed 3 4) ∧
    Less 6 (.ClassInstance 0) (.ClassInstance 1) (twoKeyed 4 3) = (.Normal false, twoKeyed 4 3) ∧
    Less 5 (.ClassInstance 0) (.Number 5) (twoOnlyLt true) = (.Normal true, twoOnlyLt true) ∧
    Less 5 (.ClassInstance 0) .None (twoOnlyLt false) = (.Normal false, twoOnlyLt false) ∧
    (∀ (a : Nat) (inst : ClassInstance) (rhs : ObjectHolder), st.heap.get? a = some inst →
      inst.HasMethod "__lt__" 1 = false →
      Less (fuel + 1) (.ClassInstance a) rhs st =
        (.Throw (.runtime_error "Trying to compare wrong object types"), st)) ∧
    (∀ lhs rhs : ObjectHolder, isInstance lhs = false → bothPrimitive lhs rhs = false →
      Less (fuel + 1) lhs rhs st =
        (.Throw (.runtime_error "Trying to compare wrong object types"), st)) ∧
    Less (fuel + 1) .None .None st =
      (.Throw (.runtime_error "Trying to compare wrong object types"), st) ∧
    Equal (fuel + 1) .None .None st = (.Normal true, st) := by
  refine ⟨fun _ _ => rfl, fun _ _ => rfl, fun _ _ => rfl, ?_, fun _ _ => rfl, ?_, rfl, rfl,
    rfl, rfl, ?_, ?_, rfl, rfl⟩
  · intro a inst rhs hh hm
    have hb := Less_of_instance fuel st a inst rhs hh hm
    refine ⟨fun v st1 h => ?_, fun e st1 h => ?_, fun r st1 h hr => ?_⟩
    · have h1 : Call fuel a LT_METHOD [rhs] st = (.Normal (.Bool v), st1) := h
      rw [hb, h1]
      rfl
    · have h1 : Call fuel a LT_METHOD [rhs] st = (.Throw e, st1) := h
      rw [hb, h1]
      rfl
    · have h1 : Call fuel a LT_METHOD [rhs] st = (.Normal r, st1) := h
      rw [hb, h1]
      cases r <;> first | rfl | exact absurd rfl (hr _)
  · intro rhs result
    cases rhs <;> rfl
  · intro a inst rhs hh hm
    simp only [Less, hh]
    have hm1 : inst.HasMethod LT_METHOD 1 = false := hm
    cases rhs <;> simp [hm1]
  · intro lhs rhs hi hp
    cases lhs <;> cases rhs <;>
      first
        | rfl
        | exact Bool.noConfusion (show true = false from hi)
        | exact Bool.noConfusion (show true = false from hp)

theorem native_six {α : Type} [LinearOrder α] (a b : α) (st : State) (beq blt : Bool)
    (hbe : beq = true ↔ a = b) (hbl : blt = true ↔ a < b) (e l : Cmp) (lhs rhs : ObjectHolder)
    (h1 : e lhs rhs st = (.Normal beq, st)) (h2 : l lhs rhs st = (.Normal blt, st)) :
    [e lhs rhs st, NotEqualWith e lhs rhs st, l lhs rhs st, GreaterWith e l lhs rhs st,
      LessOrEqualWith e l lhs rhs st, GreaterOrEqualWith l lhs rhs st] =
      nativeRelations a b st := by
  have he : beq = decide (a = b) := by
    cases beq <;> simp_all
  have hl : blt = decide (a < b) := by
    cases blt <;> simp_all
  subst he; subst hl
  unfold nativeRelations
  have hg : GreaterWith e l lhs rhs st = (.Normal (decide (a > b)), st) := by
    simp only [GreaterWith, NotEqualWith, Res.bind, h1, h2]
    rcases lt_trichotomy a b with h | h | h
    · simp [h, not_lt_of_gt h]
    · simp [h]
    · simp [h, not_lt_of_gt h, ne_of_gt h]
  have hle : LessOrEqualWith e l lhs rhs st = (.Normal (decide (a ≤ b)), st) := by
    simp only [LessOrEqualWith, hg, Res.bind]
    simp [← not_le]
  have hge : GreaterOrEqualWith l lhs rhs st = (.Normal (decide (a ≥ b)), st) := by
    simp only [GreaterOrEqualWith, h2, Res.bind]
    simp [← not_le]
  have hne : NotEqualWith e lhs rhs st = (.Normal (decide (a ≠ b)), st) := by
    simp only [NotEqualWith, h1, Res.bind]
    simp
  rw [hg, hle, hge, hne, h1, h2]

theorem exactlyOne_of_linear {α : Type} [LinearOrder α] (a b : α) :
    exactlyOne (decide (a < b)) (decide (a = b)) (decide (a > b)) := by
  unfold exactlyOne
  rcases lt_trichotomy a b with h | h | h
  · left; simp [h, ne_of_lt h, not_lt_of_gt h]
  · right; left; simp [h]
  · right; right; simp [h, ne_of_gt h, not_lt_of_gt h]

/-- Claim C5: for two `Number` values, two `Bool` values (with false below true) and two
`String` values (in lexicographic order) none of the six comparators raises, each one is the
native relation of the payloads, and exactly one of `Less`, `Equal` and `Greater` holds. -/
theorem comparators_native (fuel : Nat) (st : State) :
    (∀ a b : Int, sixComparators (fuel + 1) (.Number a) (.Number b) st = nativeRelations a b st) ∧
    (∀ a b : Bool, sixComparators (fuel + 1) (.Bool a) (.Bool b) st = nativeRelations a b st) ∧
    (∀ a b : String, sixComparators (fuel + 1) (.String a) (.String b) st =
      nativeRelations a b st) ∧
    (∀ a b : Int, exactlyOne (decide (a < b)) (decide (a = b)) (decide (a > b))) ∧
    (∀ a b : Bool, exactlyOne (decide (a < b)) (decide (a = b)) (decide (a > b))) ∧
    (∀ a b : String, exactlyOne (decide (a < b)) (decide (a = b)) (decide (a > b))) ∧
    (false < true) := by
  refine ⟨?_, ?_, ?_, fun a b => ?_, fun a b => ?_, fun a b => ?_, by decide⟩
  rotate_left 3
  · convert exactlyOne_of_linear a b
  · convert exactlyOne_of_linear a b
  · convert exactlyOne_of_linear a b
  · intro a b
    exact native_six a b st _ _ decide_eq_true_iff decide_eq_true_iff
      (Equal (fuel + 1)) (Less (fuel + 1)) _ _ rfl rfl
  · intro a b
    exact native_six a b st _ _ decide_eq_true_iff decide_eq_true_iff
      (Equal (fuel + 1)) (Less (fuel + 1)) _ _ rfl rfl
  · intro a b
    exact native_six a b st _ _ decide_eq_true_iff decide_eq_true_iff
      (Equal (fuel + 1)) (Less (fuel + 1)) _ _ rfl rfl


theorem findMethod_assign (table : List Method) (method : Method) (name : String) :
    findMethod (assignMethod table method) name =
      if method.name = name then some method else findMethod table name := by
  induction table with
  | nil => simp [assignMethod, findMethod]
  | cons m r ih =>
    by_cases h1 : m.name = method.name
    · by_cases h2 : method.name = name
      · simp [assignMethod, findMethod, h1, h2]
      · have h3 : ¬ m.name = name := fun e => h2 (h1 ▸ e)
        simp [assignMethod, findMethod, h1, h2]
    · by_cases h2 : method.name = name
      · have h3 : ¬ m.name = name := fun e => h1 (e.trans h2.symm)
        simp only [assignMethod, findMethod, h1, h2, h3, if_false, if_true] at ih ⊢
        exact ih
      · simp only [assignMethod, findMethod, h1, h2, if_false] at ih ⊢
        by_cases h3 : m.name = name
        · simp [h3]
        · simpa [h3] using ih

theorem findMethod_foldl (methods : List Method) : ∀ (table : List Method) (name : String),
    findMethod (methods.foldl assignMethod table) name =
      match methods.reverse.find? (fun m => m.name = name) with
      | some m => some m
      | none => findMethod table name := by
  induction methods with
  | nil => intro table name; simp
  | cons m ms ih =>
    intro table name
    simp only [List.foldl_cons, List.reverse_cons, List.find?_append, ih, findMethod_assign]
    cases h : List.find? (fun m => decide (m.name = name)) ms.reverse with
    | some x => simp
    | none =>
      by_cases h2 : m.name = name <;> simp [h2]

theorem GetMethod_nearest : ∀ (c : Class) (name : String),
    c.GetMethod name = nearestDeclaration c name
  | .mk n t none, name => by
    simp only [Class.GetMethod, nearestDeclaration, Class.chain, List.findSome?_cons,
      List.findSome?_nil, Class.names_to_methods_]
    cases h : findMethod t name <;> rfl
  | .mk n t (some p), name => by
    have ih := GetMethod_nearest p name
    unfold nearestDeclaration at ih ⊢
    simp only [Class.GetMethod, Class.chain, List.findSome?_cons, Class.names_to_methods_]
    cases h : findMethod t name with
    | some m => rfl
    | none => exact ih

/-- Claim C6: `GetMethod(name)` on a class returns the own method of the class when the
class declares `name`, otherwise what `GetMethod(name)` returns on the parent, and not-found
without a parent; the result is the method of the nearest class of the parent chain, the
class first, that declares `name`. Hence with `A <- B <- C` where only `A` declares `m`, both
`C` and `B` resolve `m` to the method of `A`, and a declaration in a nearer class overrides
that of an ancestor. The table of a class holds, for each name, the method entered last. -/
theorem GetMethod_resolution (name : String) :
    (∀ (n : String) (table : List Method),
      Class.GetMethod (.mk n table none) name = findMethod table name) ∧
    (∀ (n : String) (table : List Method) (parent : Class) (m : Method),
      findMethod table name = some m →
      Class.GetMethod (.mk n table (some parent)) name = some m) ∧
    (∀ (n : String) (table : List Method) (parent : Class),
      findMethod table name = none →
      Class.GetMethod (.mk n table (some parent)) name = parent.GetMethod name) ∧
    (∀ c : Class, c.GetMethod name = nearestDeclaration c name) ∧
    (∀ (na nb nc : String) (ta tb tc : List Method) (m : Method),
      findMethod ta name = some m → findMethod tb name = none → findMethod tc name = none →
      Class.GetMethod (.mk nc tc (some (.mk nb tb (some (.mk na ta none))))) name = some m ∧
      Class.GetMethod (.mk nb tb (some (.mk na ta none))) name = some m) ∧
    (∀ (n : String) (methods : List Method) (parent : Option Class),
      findMethod (Class.create n methods parent).names_to_methods_ name =
        methods.reverse.find? (fun m => m.name = name)) := by
  refine ⟨fun n table => rfl, ?_, ?_, fun c => GetMethod_nearest c name, ?_, ?_⟩
  · intro n table parent m h
    simp [Class.GetMethod, h]
  · intro n table parent h
    simp [Class.GetMethod, h]
  · intro na nb nc ta tb tc m ha hb hc
    simp [Class.GetMethod, ha, hb, hc]
  · intro n methods parent
    simp only [Class.create, Class.names_to_methods_, findMethod_foldl]
    cases h : List.find? (fun m => decide (m.name = name)) methods.reverse <;> simp [findMethod]

/-- Claim C7: `HasMethod(name, n)` is true exactly when `GetMethod(name)` finds a method and
the method found has exactly `n` formal parameters. Only the nearest declaration counts: when
the class declares `name` with another number of parameters, `HasMethod(name, n)` is false
whatever the ancestors declare. -/
theorem HasMethod_arity (self : ClassInstance) (name : String) (n : Nat) :
    (self.HasMethod name n = true ↔
      ∃ m : Method, self.cls_.GetMethod name = some m ∧ m.formal_params.length = n) ∧
    (∀ (cn : String) (table : List Method) (parent : Option Class) (fields : Closure)
        (m : Method),
      findMethod table name = some m → m.formal_params.length ≠ n →
      ClassInstance.HasMethod ⟨.mk cn table parent, fields⟩ name n = false) := by
  constructor
  · unfold ClassInstance.HasMethod
    cases h : self.cls_.GetMethod name with
    | none => simp
    | some m => simp
  · intro cn table parent fields m hf hn
    unfold ClassInstance.HasMethod
    cases parent with
    | none => simp [Class.GetMethod, hf, hn]
    | some p => simp [Class.GetMethod, hf, hn]

end runtime

/-! ## Executions keep the instances and their classes -/

namespace runtime

theorem ClassesKept_refl (h : List ClassInstance) : ClassesKept h h :=
  fun _ inst hi => ⟨inst, hi, rfl⟩

theorem ClassesKept_trans {h h1 h2 : List ClassInstance} (a : ClassesKept h h1)
    (b : ClassesKept h1 h2) : ClassesKept h h2 := by
  intro x inst hi
  obtain ⟨i1, e1, c1⟩ := a x inst hi
  obtain ⟨i2, e2, c2⟩ := b x i1 e1
  exact ⟨i2, e2, c2.trans c1⟩

theorem ClassesKept_append (h x : List ClassInstance) : ClassesKept h (h ++ x) := by
  intro a inst hi
  refine ⟨inst, ?_, rfl⟩
  rw [List.get?_eq_getElem?] at hi ⊢
  have hlt : a < h.length := by
    by_contra hc
    rw [List.getElem?_eq_none (by omega)] at hi
    cases hi
  rw [List.getElem?_append_left hlt]
  exact hi

theorem ClassesKept_assignField (h : List ClassInstance) (a : Nat) (name : String)
    (v : ObjectHolder) : ClassesKept h (assignField h a name v) := by
  intro x inst hi
  unfold runtime.assignField
  cases hq : h.get? a with
  | none => exact ⟨inst, hi, rfl⟩
  | some i0 =>
    simp only
    rw [List.get?_eq_getElem?] at hi hq ⊢
    by_cases hxa : a = x
    · subst hxa
      have hlt : a < h.length := by
        by_contra hc
        rw [List.getElem?_eq_none (by omega)] at hi
        cases hi
      rw [hq] at hi
      cases hi
      exact ⟨{ inst with closure_ := inst.closure_.assign name v },
        by rw [List.getElem?_set_self hlt], rfl⟩
    · exact ⟨inst, by rw [List.getElem?_set_ne hxa]; exact hi, rfl⟩

theorem Keeps_same {α : Type} {st st1 : State} (c : Completion α) (h : st1.heap = st.heap) :
    Keeps st (c, st1) := by
  unfold Keeps
  simp only [h]
  exact ClassesKept_refl _

theorem Keeps_bind {α β : Type} {st : State} {r : Res α} {k : α → State → Res β}
    (hr : Keeps st r) (hk : ∀ a st1, Keeps st1 (k a st1)) : Keeps st (Res.bind r k) := by
  obtain ⟨c, st1⟩ := r
  cases c with
  | Normal a => exact ClassesKept_trans hr (hk a st1)
  | ReturnException v => exact hr
  | Throw e => exact hr

theorem Keeps_step {α : Type} {st st1 : State} {r : Res α} (h : ClassesKept st.heap st1.heap)
    (hr : Keeps st1 r) : Keeps st r := ClassesKept_trans h hr

theorem Keeps_via {α : Type} (st1 : State) {st : State} {r : Res α}
    (h : ClassesKept st.heap st1.heap) (hr : Keeps st1 r) : Keeps st r :=
  ClassesKept_trans h hr

theorem Keeps_of_heap {α : Type} {st st1 : State} {r : Res α} (hr : Keeps st1 r)
    (h : st1.heap = st.heap) : Keeps st r := by
  unfold Keeps at hr ⊢
  rw [← h]
  exact hr

end runtime

namespace runtime

open ast

theorem Keeps_ExecuteArgs {exec : Statement → State → Res ObjectHolder}
    (he : ∀ s st, Keeps st (exec s st)) :
    ∀ (l : List Statement) (st : State), Keeps st (ExecuteArgs exec l st) := by
  intro l
  induction l with
  | nil => intro st; exact Keeps_same _ rfl
  | cons s l ih =>
    intro st
    simp only [ast.ExecuteArgs]
    exact Keeps_bind (he s st) (fun v st1 =>
      Keeps_bind (ih st1) (fun vs st2 => Keeps_same _ rfl))

theorem Keeps_ExecuteStatements {exec : Statement → State → Res ObjectHolder}
    (he : ∀ s st, Keeps st (exec s st)) :
    ∀ (l : List Statement) (st : State), Keeps st (ExecuteStatements exec l st) := by
  intro l
  induction l with
  | nil => intro st; exact Keeps_same _ rfl
  | cons s l ih =>
    intro st
    simp only [ast.ExecuteStatements]
    exact Keeps_bind (he s st) (fun v st1 => ih st1)

theorem Keeps_PrintArgs {exec : Statement → State → Res ObjectHolder}
    {print : ObjectHolder → State → Res String}
    (he : ∀ s st, Keeps st (exec s st)) (hp : ∀ o st, Keeps st (print o st)) :
    ∀ (l : List Statement) (first : Bool) (st : State),
      Keeps st (PrintArgs exec print first l st) := by
  intro l
  induction l with
  | nil => intro first st; exact Keeps_same _ rfl
  | cons s l ih =>
    intro first st
    simp only [ast.PrintArgs]
    refine Keeps_bind (he s st) (fun var st1 => ?_)
    have h12 : ClassesKept st1.heap
        (if first = true then st1 else { st1 with output := st1.output ++ " " }).heap := by
      split <;> exact ClassesKept_refl _
    split
    · exact Keeps_step h12 (Keeps_bind (hp _ _) (fun text st3 =>
        Keeps_of_heap (ih false _) rfl))
    · exact Keeps_step h12 (Keeps_of_heap (ih false _) rfl)

theorem Keeps_boolResult (r : ObjectHolder) (st : State) : Keeps st (boolResult r st) := by
  cases r <;> exact Keeps_same _ rfl

theorem Keeps_applyComparator {e l : Cmp} (he : ∀ a b st, Keeps st (e a b st))
    (hl : ∀ a b st, Keeps st (l a b st)) (cmp : Comparator) :
    ∀ a b st, Keeps st (applyComparator cmp e l a b st) := by
  have hne : ∀ a b st, Keeps st (NotEqualWith e a b st) := fun a b st =>
    Keeps_bind (he a b st) (fun _ _ => Keeps_same _ rfl)
  have hg : ∀ a b st, Keeps st (GreaterWith e l a b st) := fun a b st =>
    Keeps_bind (hl a b st) (fun x st1 => by
      split
      · exact hne a b st1
      · exact Keeps_same _ rfl)
  intro a b st
  cases cmp with
  | Equal => exact he a b st
  | NotEqual => exact hne a b st
  | Less => exact hl a b st
  | Greater => exact hg a b st
  | LessOrEqual => exact Keeps_bind (hg a b st) (fun _ _ => Keeps_same _ rfl)
  | GreaterOrEqual => exact Keeps_bind (hl a b st) (fun _ _ => Keeps_same _ rfl)

theorem Keeps_intResult (n : Int) (st : State) : Keeps st (intResult n st) := by
  unfold runtime.intResult
  split <;> exact Keeps_same _ rfl

/-- Executions only add instances and write fields: the instances of the heap stay, each
with its class. -/
theorem Keeps_all (fuel : Nat) :
    (∀ s st, Keeps st (Execute fuel s st)) ∧
    (∀ a m args st, Keeps st (Call fuel a m args st)) ∧
    (∀ o st, Keeps st (PrintObject fuel o st)) ∧
    (∀ a b st, Keeps st (Equal fuel a b st)) ∧
    (∀ a b st, Keeps st (Less fuel a b st)) := by
  induction fuel with
  | zero =>
    refine ⟨fun s st => ?_, fun a m args st => ?_, fun o st => ?_, fun a b st => ?_,
      fun a b st => ?_⟩
    · simp only [ast.Execute]; exact Keeps_same _ rfl
    · simp only [runtime.Call]; exact Keeps_same _ rfl
    · simp only [runtime.PrintObject]; exact Keeps_same _ rfl
    · simp only [runtime.Equal]; exact Keeps_same _ rfl
    · simp only [runtime.Less]; exact Keeps_same _ rfl
  | succ n ih =>
    obtain ⟨hE, hC, hP, hEq, hLt⟩ := ih
    have hCall : ∀ a m args st, Keeps st (Call (n + 1) a m args st) := by
      intro a m args st
      simp only [runtime.Call]
      split
      · exact Keeps_same _ rfl
      · split
        · exact Keeps_same _ rfl
        · split
          · exact Keeps_same _ rfl
          · rename_i method_ptr _
            exact hE method_ptr.body
              { st with scope := methodVars a method_ptr.formal_params args }
    have hPrint : ∀ o st, Keeps st (PrintObject (n + 1) o st) := by
      intro o st
      cases o with
      | ClassInstance a =>
        simp only [runtime.PrintObject]
        split
        · exact Keeps_same _ rfl
        · split
          · exact Keeps_bind (hC _ _ _ _) (fun r st1 => hP r st1)
          · exact Keeps_same _ rfl
      | _ => simp only [runtime.PrintObject]; exact Keeps_same _ rfl
    have hEqual : ∀ a b st, Keeps st (Equal (n + 1) a b st) := by
      intro a b st
      cases a <;> cases b <;> simp only [runtime.Equal] <;>
        first
          | exact Keeps_same _ rfl
          | exact Keeps_bind (hC _ _ _ _) (fun r st1 => Keeps_boolResult r st1)
    have hLess : ∀ a b st, Keeps st (Less (n + 1) a b st) := by
      intro a b st
      cases a <;> cases b <;> simp only [runtime.Less] <;>
        first
          | exact Keeps_same _ rfl
          | (split
             · exact Keeps_same _ rfl
             · split
               · exact Keeps_bind (hC _ _ _ _) (fun r st1 => Keeps_boolResult r st1)
               · exact Keeps_same _ rfl)
    refine ⟨?_, hCall, hPrint, hEqual, hLess⟩
    intro s st
    cases s with
    | Const v => simp only [ast.Execute]; exact Keeps_same _ rfl
    | Assignment x rv =>
      simp only [ast.Execute]
      exact Keeps_bind (hE _ _) (fun v st1 => Keeps_same _ rfl)
    | VariableValue ids => simp only [ast.Execute]; exact Keeps_same _ rfl
    | Print args =>
      simp only [ast.Execute]
      exact Keeps_bind (Keeps_PrintArgs hE hP _ _ _) (fun _ st1 => Keeps_same _ rfl)
    | MethodCall o m args =>
      simp only [ast.Execute]
      refine Keeps_bind (hE _ _) (fun obj st1 => ?_)
      split
      · split
        · exact Keeps_same _ rfl
        · split
          · exact Keeps_same _ rfl
          · exact Keeps_bind (Keeps_ExecuteArgs hE _ _) (fun vs st2 => hC _ _ _ _)
      · exact Keeps_same _ rfl
    | Stringify a =>
      simp only [ast.Execute]
      refine Keeps_bind (hE _ _) (fun var st1 => ?_)
      split
      · exact Keeps_same _ rfl
      · exact Keeps_bind (hP _ _) (fun _ _ => Keeps_same _ rfl)
    | Add l r =>
      simp only [ast.Execute]
      refine Keeps_bind (hE _ _) (fun lo st1 => Keeps_bind (hE _ _) (fun ro st2 => ?_))
      split
      · exact Keeps_same _ rfl
      · split
        · exact Keeps_same _ rfl
        · exact Keeps_same _ rfl
        · split
          · exact Keeps_same _ rfl
          · split
            · exact hC _ _ _ _
            · exact Keeps_same _ rfl
        · exact Keeps_same _ rfl
    | Sub l r =>
      simp only [ast.Execute]
      refine Keeps_bind (hE _ _) (fun lo st1 => Keeps_bind (hE _ _) (fun ro st2 => ?_))
      split
      · exact Keeps_same _ rfl
      · split
        · exact Keeps_same _ rfl
        · exact Keeps_same _ rfl
    | Mult l r =>
      simp only [ast.Execute]
      refine Keeps_bind (hE _ _) (fun lo st1 => Keeps_bind (hE _ _) (fun ro st2 => ?_))
      split
      · exact Keeps_same _ rfl
      · split
        · exact Keeps_same _ rfl
        · exact Keeps_same _ rfl
    | Div l r =>
      simp only [ast.Execute]
      refine Keeps_bind (hE _ _) (fun lo st1 => Keeps_bind (hE _ _) (fun ro st2 => ?_))
      split
      · exact Keeps_same _ rfl
      · split
        · split
          · exact Keeps_same _ rfl
          · exact Keeps_intResult _ _
        · exact Keeps_same _ rfl
    | Compound l =>
      simp only [ast.Execute]
      exact Keeps_bind (Keeps_ExecuteStatements hE _ _) (fun _ _ => Keeps_same _ rfl)
    | Return e =>
      simp only [ast.Execute]
      exact Keeps_bind (hE _ _) (fun _ _ => Keeps_same _ rfl)
    | ClassDefinition c =>
      simp only [ast.Execute]
      split <;> exact Keeps_same _ rfl
    | FieldAssignment o f rv =>
      simp only [ast.Execute]
      split
      · refine Keeps_bind (hE _ _) (fun v st1 => ?_)
        split
        · exact Keeps_same _ rfl
        · exact ClassesKept_assignField _ _ _ _
      · exact Keeps_same _ rfl
      · exact Keeps_same _ rfl
    | IfElse c t e =>
      simp only [ast.Execute]
      refine Keeps_bind (hE _ _) (fun v st1 => ?_)
      split
      · exact hE _ _
      · split
        · exact hE _ _
        · exact Keeps_same _ rfl
    | Or l r =>
      simp only [ast.Execute]
      refine Keeps_bind (hE _ _) (fun lo st1 => Keeps_bind (hE _ _) (fun ro st2 => ?_))
      split <;> exact Keeps_same _ rfl
    | And l r =>
      simp only [ast.Execute]
      refine Keeps_bind (hE _ _) (fun lo st1 => Keeps_bind (hE _ _) (fun ro st2 => ?_))
      split <;> exact Keeps_same _ rfl
    | Not a =>
      simp only [ast.Execute]
      refine Keeps_bind (hE _ _) (fun o st1 => ?_)
      split <;> exact Keeps_same _ rfl
    | Comparison cmp l r =>
      simp only [ast.Execute]
      refine Keeps_bind (hE _ _) (fun lo st1 => Keeps_bind (hE _ _) (fun ro st2 => ?_))
      exact Keeps_bind (Keeps_applyComparator hEq hLt cmp _ _ _) (fun _ _ => Keeps_same _ rfl)
    | NewInstance c args =>
      simp only [ast.Execute]
      refine Keeps_bind ?_ (fun _ st4 => ?_)
      · split
        · refine Keeps_via ⟨st.scope.assign c.GetName (.ClassInstance st.heap.length),
              st.heap ++ [⟨c, []⟩], st.output⟩ (ClassesKept_append _ _) ?_
          exact Keeps_bind (Keeps_ExecuteArgs hE _ _) (fun vs st2 =>
            Keeps_bind (hC _ _ _ _) (fun _ _ => Keeps_same _ rfl))
        · exact ClassesKept_append _ _
      · split <;> exact Keeps_same _ rfl
    | MethodBody b =>
      simp only [ast.Execute]
      have := hE b st
      split
      · rename_i h
        rw [h] at this
        exact this
      · exact this

end runtime

/-! ## Derived comparators -/

namespace runtime

open ast examples

theorem HasMethod_of_cls {i1 i2 : ClassInstance} (h : i1.cls_ = i2.cls_) (m : String) (n : Nat) :
    i1.HasMethod m n = i2.HasMethod m n := by
  unfold ClassInstance.HasMethod
  rw [h]

/-- Counterexample to C4: a class that declares `__lt__` with one parameter, returning true,
and no `__eq__`. `Equal` of two of its instances raises a runtime error, yet `Greater`
returns false, `LessOrEqual` returns true and `GreaterOrEqual` returns false, none of them
raising. -/
theorem derived_comparators_counterexample :
    ClassInstance.HasMethod ⟨onlyLt true, []⟩ "__lt__" 1 = true ∧
    (onlyLt true).GetMethod "__eq__" = none ∧
    Equal 8 (.ClassInstance 0) (.ClassInstance 1) (twoOnlyLt true) =
      (.Throw (.runtime_error "Method __eq__ wasn't found in class OnlyLt"), twoOnlyLt true) ∧
    Greater 8 (.ClassInstance 0) (.ClassInstance 1) (twoOnlyLt true) =
      (.Normal false, twoOnlyLt true) ∧
    LessOrEqual 8 (.ClassInstance 0) (.ClassInstance 1) (twoOnlyLt true) =
      (.Normal true, twoOnlyLt true) ∧
    GreaterOrEqual 8 (.ClassInstance 0) (.ClassInstance 1) (twoOnlyLt true) =
      (.Normal false, twoOnlyLt true) :=
  ⟨rfl, rfl, rfl, rfl, rfl, rfl⟩

/-- Claim C4, amended: for class instances `a` and `b` whose class resolves a `__lt__` with
one parameter and no `__eq__` with one parameter, `GreaterOrEqual(a, b)` never evaluates
`Equal` and is the negation of what `__lt__` returns; when `__lt__` returns true, `Greater`
is false and `LessOrEqual` is true, `Equal` not being evaluated; when `__lt__` returns
false, `Greater` and `LessOrEqual` raise the runtime error of `Equal`. -/
theorem derived_comparators_coupling (fuel : Nat) (st st1 : State) (a : Nat)
    (rhs : ObjectHolder) (inst : ClassInstance) (l : Bool)
    (hinst : st.heap.get? a = some inst)
    (hrhs : isInstance rhs = true)
    (hlt : inst.HasMethod "__lt__" 1 = true)
    (heq : inst.HasMethod "__eq__" 1 = false)
    (hcall : Call fuel a "__lt__" [rhs] st = (.Normal (.Bool l), st1)) :
    Less (fuel + 1) (.ClassInstance a) rhs st = (.Normal l, st1) ∧
    GreaterOrEqual (fuel + 1) (.ClassInstance a) rhs st = (.Normal (!l), st1) ∧
    (l = true →
      Greater (fuel + 1) (.ClassInstance a) rhs st = (.Normal false, st1) ∧
      LessOrEqual (fuel + 1) (.ClassInstance a) rhs st = (.Normal true, st1)) ∧
    (l = false →
      Equal (fuel + 1) (.ClassInstance a) rhs st1 =
        (.Throw (.runtime_error ("Method __eq__ wasn't found in class " ++ inst.cls_.GetName)),
          st1) ∧
      Greater (fuel + 1) (.ClassInstance a) rhs st =
        (.Throw (.runtime_error ("Method __eq__ wasn't found in class " ++ inst.cls_.GetName)),
          st1) ∧
      LessOrEqual (fuel + 1) (.ClassInstance a) rhs st =
        (.Throw (.runtime_error ("Method __eq__ wasn't found in class " ++ inst.cls_.GetName)),
          st1)) := by
  have hless : Less (fuel + 1) (.ClassInstance a) rhs st = (.Normal l, st1) := by
    rw [Less_of_instance fuel st a inst rhs hinst hlt]
    show Res.bind (Call fuel a "__lt__" [rhs] st) boolResult = _
    rw [hcall]
    rfl
  obtain ⟨b, rfl⟩ : ∃ b, rhs = .ClassInstance b := by
    cases rhs <;> first | exact ⟨_, rfl⟩ | exact Bool.noConfusion (show false = true from hrhs)
  have hkeep : Keeps st (Call fuel a "__lt__" [.ClassInstance b] st) := (Keeps_all fuel).2.1 _ _ _ _
  rw [hcall] at hkeep
  obtain ⟨inst1, hi1, hc1⟩ := hkeep a inst hinst
  have heq1 : inst1.HasMethod EQ_METHOD 1 = false := by
    rw [HasMethod_of_cls hc1]; exact heq
  have hequal : Equal (fuel + 1) (.ClassInstance a) (.ClassInstance b) st1 =
      (.Throw (.runtime_error ("Method __eq__ wasn't found in class " ++ inst.cls_.GetName)),
        st1) := by
    cases fuel with
    | zero => simp [runtime.Call] at hcall
    | succ n =>
      simp only [runtime.Equal, runtime.Call]
      simp only at hi1
      rw [hi1]
      simp only [List.length_singleton, heq1, Bool.not_false, if_true, Res.bind, hc1]
      rfl
  refine ⟨hless, ?_, ?_, ?_⟩
  · simp only [GreaterOrEqual, GreaterOrEqualWith, hless, Res.bind]
  · intro hl
    subst hl
    simp [Greater, LessOrEqual, LessOrEqualWith, GreaterWith, hless, Res.bind]
  · intro hl
    subst hl
    refine ⟨hequal, ?_, ?_⟩
    · simp [Greater, GreaterWith, NotEqualWith, hless, hequal, Res.bind]
    · simp [LessOrEqual, LessOrEqualWith, GreaterWith, NotEqualWith, hless, hequal, Res.bind]

/-- Witness for C4: two instances of a class whose `__lt__` returns false. -/
theorem derived_comparators_coupling_witness :
    Greater 8 (.ClassInstance 0) (.ClassInstance 1) (twoOnlyLt false) =
      (.Throw (.runtime_error "Method __eq__ wasn't found in class OnlyLt"), twoOnlyLt false) ∧
    GreaterOrEqual 8 (.ClassInstance 0) (.ClassInstance 1) (twoOnlyLt false) =
      (.Normal true, twoOnlyLt false) :=
  have h := derived_comparators_coupling 7 (twoOnlyLt false) (twoOnlyLt false) 0
    (.ClassInstance 1) ⟨onlyLt false, []⟩ false rfl rfl rfl rfl rfl
  ⟨(h.2.2.2 rfl).2.1, h.2.1⟩

end runtime

/-! ## `ClassInstance::Call` -/

namespace runtime

open ast examples

theorem Closure_find_assign (c : Closure) (k : String) (v : ObjectHolder) (name : String) :
    (Closure.assign c k v).find name = if k = name then some v else c.find name := by
  induction c with
  | nil => simp [Closure.assign, Closure.find]
  | cons kv r ih =>
    obtain ⟨k1, v1⟩ := kv
    by_cases h1 : k1 = k
    · subst h1
      by_cases h2 : k1 = name <;> simp [Closure.assign, Closure.find, h2]
    · by_cases h2 : k = name
      · have h3 : ¬ k1 = name := fun e => h1 (e.trans h2.symm)
        simp only [Closure.assign, Closure.find, h1, h2, h3, if_false, if_true] at ih ⊢
        exact ih
      · simp only [Closure.assign, Closure.find, h1, h2, if_false] at ih ⊢
        by_cases h3 : k1 = name
        · simp [h3]
        · simpa [h3] using ih

theorem bindParams_other (ps : List String) : ∀ (as : List ObjectHolder) (c : Closure)
    (name : String), name ∉ ps → (bindParams ps as c).find name = c.find name := by
  induction ps with
  | nil => intro as c name _; cases as <;> rfl
  | cons p ps ih =>
    intro as c name hn
    cases as with
    | nil => rfl
    | cons a as =>
      simp only [List.mem_cons, not_or] at hn
      simp only [bindParams]
      rw [ih as _ name hn.2, Closure_find_assign, if_neg (fun e => hn.1 e.symm)]

theorem bindParams_nth (ps : List String) : ∀ (as : List ObjectHolder) (c : Closure),
    ps.Nodup → ps.length = as.length →
    ∀ (i : Nat) (p : String) (a : ObjectHolder), ps.get? i = some p → as.get? i = some a →
      (bindParams ps as c).find p = some a := by
  induction ps with
  | nil => intro as c _ _ i p a hp; simp at hp
  | cons p0 ps ih =>
    intro as c hnd hlen i p a hp ha
    cases as with
    | nil => simp at hlen
    | cons a0 as =>
      simp only [List.nodup_cons] at hnd
      simp only [bindParams]
      cases i with
      | zero =>
        simp only [List.get?_cons_zero, Option.some.injEq] at hp ha
        subst hp; subst ha
        rw [bindParams_other ps as _ p0 hnd.1, Closure_find_assign, if_pos rfl]
      | succ j =>
        simp only [List.get?_cons_succ] at hp ha
        exact ih as _ hnd.2 (by simpa using hlen) j p a hp ha

/-- Counterexample to C8: the class declares `broken` without parameters, so
`HasMethod("broken", 0)` is true, and yet `Call("broken", [])` raises a runtime error, the
one of the undefined variable its body reads. -/
theorem Call_counterexample :
    ClassInstance.HasMethod ⟨withBroken, []⟩ "broken" 0 = true ∧
    Call 5 0 "broken" [] ⟨[], [⟨withBroken, []⟩], ""⟩ =
      (.Throw (.runtime_error "Wrong var name: nope"), ⟨[], [⟨withBroken, []⟩], ""⟩) :=
  ⟨rfl, rfl⟩

/-- Claim C8, amended: when `HasMethod(method, |args|)` is false, `Call` raises the runtime
error that names the method and the class and does nothing else; otherwise it executes the
body of the resolved method in a fresh closure, and its outcome (a value, a runtime error of
the body, a return signal) and its effects on the heap and the output are those of the body,
the closure of the caller being untouched. The fresh closure binds `self` to the receiver
itself (its address, so that field writes through `self` are writes to the receiver) and
then, in order, each formal parameter to the argument at the same position: when the
parameter names are pairwise distinct and none is `self`, its bindings are exactly those. -/
theorem Call_contract (fuel : Nat) (self : Nat) (method : String) (args : List ObjectHolder)
    (st : State) (inst : ClassInstance) (hinst : st.heap.get? self = some inst) :
    (inst.HasMethod method args.length = false →
      Call (fuel + 1) self method args st =
        (.Throw (.runtime_error
          ("Method " ++ method ++ " wasn't found in class " ++ inst.cls_.GetName)), st)) ∧
    (inst.HasMethod method args.length = true →
      ∃ m : Method, inst.cls_.GetMethod method = some m ∧
        m.formal_params.length = args.length ∧
        Call (fuel + 1) self method args st =
          ((Execute fuel m.body { st with scope := methodVars self m.formal_params args }).1,
           { (Execute fuel m.body
               { st with scope := methodVars self m.formal_params args }).2 with
             scope := st.scope }) ∧
        (m.formal_params.Nodup → "self" ∉ m.formal_params →
          (methodVars self m.formal_params args).find "self" = some (.ClassInstance self) ∧
          (∀ (i : Nat) (p : String) (a : ObjectHolder),
            m.formal_params.get? i = some p → args.get? i = some a →
            (methodVars self m.formal_params args).find p = some a) ∧
          (∀ name : String, name ≠ "self" → name ∉ m.formal_params →
            (methodVars self m.formal_params args).find name = none))) := by
  constructor
  · intro h
    simp only [runtime.Call, hinst, h, Bool.not_false, if_true]
  · intro h
    have h0 := h
    unfold ClassInstance.HasMethod at h0
    cases hm : inst.cls_.GetMethod method with
    | none => rw [hm] at h0; simp at h0
    | some m =>
      rw [hm] at h0
      have hlen : m.formal_params.length = args.length := by simpa using h0
      refine ⟨m, rfl, hlen, ?_, ?_⟩
      · simp only [runtime.Call, hinst, h, hm, Bool.not_true, Bool.false_eq_true, if_false]
      · intro hnd hself
        refine ⟨?_, ?_, ?_⟩
        · unfold methodVars
          rw [bindParams_other _ _ _ _ hself]
          rfl
        · intro i p a hp ha
          exact bindParams_nth _ _ _ hnd hlen i p a hp ha
        · intro name hn hnp
          unfold methodVars
          rw [bindParams_other _ _ _ _ hnp, Closure_find_assign, if_neg (fun e => hn e.symm)]
          rfl

/-- Witness for C8: `__init__(v)` of the class of the specification, called with 10 on
the instance at address 0, writes the field `v` of that instance. -/
theorem Call_contract_witness :
    Call 5 0 "__init__" [.Number 10] ⟨[], [⟨withInit, []⟩], ""⟩ =
      (.Normal (.Number 10), ⟨[], [⟨withInit, [("v", .Number 10)]⟩], ""⟩) ∧
    Call 5 0 "__init__" [] ⟨[], [⟨withInit, []⟩], ""⟩ =
      (.Throw (.runtime_error "Method __init__ wasn't found in class C"),
        ⟨[], [⟨withInit, []⟩], ""⟩) :=
  have h := Call_contract 4 0 "__init__" [] ⟨[], [⟨withInit, []⟩], ""⟩ ⟨withInit, []⟩ rfl
  ⟨rfl, h.1 rfl⟩

end runtime

/-! ## Statement execution -/

namespace ast

open runtime examples

theorem ExecuteStatements_append (exec : Statement → State → Res ObjectHolder)
    (before : List Statement) : ∀ (rest : List Statement) (st st1 : State),
    ExecuteStatements exec before st = (.Normal (), st1) →
    ExecuteStatements exec (before ++ rest) st = ExecuteStatements exec rest st1 := by
  induction before with
  | nil =>
    intro rest st st1 h
    simp only [ExecuteStatements, Prod.mk.injEq] at h
    rw [← h.2]
    rfl
  | cons s before ih =>
    intro rest st st1 h
    simp only [ExecuteStatements, List.cons_append] at h ⊢
    rcases hs : exec s st with ⟨c, st0⟩
    rw [hs] at h
    cases c with
    | Normal v =>
      simp only [Res.bind] at h ⊢
      exact ih rest st0 st1 h
    | ReturnException v => simp [Res.bind] at h
    | Throw e => simp [Res.bind] at h

theorem ReachesReturn_unwinds {fuel : Nat} {body : Statement} {st st2 : State}
    {v : ObjectHolder} (h : ReachesReturn fuel body st v st2) :
    Execute fuel body st = (.ReturnException v, st2) := by
  induction h with
  | here he =>
    simp only [Execute, he, Res.bind]
  | compound before after hb _ ih =>
    simp only [Execute]
    rw [ExecuteStatements_append _ _ _ _ _ hb]
    simp only [ExecuteStatements, ih, Res.bind]
  | ifBranch hc ht _ ih =>
    simp only [Execute, hc, Res.bind, ht, if_true]
    exact ih
  | elseBranch hc ht _ ih =>
    simp only [Execute, hc, Res.bind, ht, Bool.false_eq_true, if_false]
    exact ih

/-- Claim C9: `MethodBody(body).Execute` never lets the return signal escape. When executing
`body` reaches a `Return(e)` nested at any depth inside `Compound` and `IfElse` nodes, the
execution of `body` unwinds to that point (the state is the one left by the evaluation of
`e`: the statements that follow the `Return` in the enclosing sequences are not executed)
and `MethodBody` yields the value of `e` as its normal result; when `body` completes
without a `Return`, `MethodBody` yields the result of `body`. -/
theorem MethodBody_catches_return (fuel : Nat) (body : Statement) (st : State) :
    (∀ v : ObjectHolder, (Execute fuel (.MethodBody body) st).1 ≠ .ReturnException v) ∧
    (∀ (v : ObjectHolder) (st2 : State), ReachesReturn fuel body st v st2 →
      Execute fuel body st = (.ReturnException v, st2) ∧
      Execute (fuel + 1) (.MethodBody body) st = (.Normal v, st2)) ∧
    (∀ (v : ObjectHolder) (st1 : State), Execute fuel body st = (.Normal v, st1) →
      Execute (fuel + 1) (.MethodBody body) st = (.Normal v, st1)) ∧
    (∀ (e : Failure) (st1 : State), Execute fuel body st = (.Throw e, st1) →
      Execute (fuel + 1) (.MethodBody body) st = (.Throw e, st1)) := by
  refine ⟨?_, ?_, ?_, ?_⟩
  · intro v
    cases fuel with
    | zero => simp [Execute]
    | succ n =>
      simp only [Execute]
      rcases hb : Execute n body st with ⟨c, st1⟩
      cases c <;> simp
  · intro v st2 h
    have hu := ReachesReturn_unwinds h
    exact ⟨hu, by simp only [Execute, hu]⟩
  · intro v st1 h
    simp only [Execute, h]
  · intro e st1 h
    simp only [Execute, h]

/-- Witness for C9: a `return 1` inside an `if` inside a sequence; the two `print` statements
that follow it write nothing. -/
theorem MethodBody_catches_return_witness :
    Execute 6 (.MethodBody nestedReturn) emptyState = (.Normal (.Number 1), emptyState) :=
  ((MethodBody_catches_return 5 nestedReturn emptyState).2.1 (.Number 1) emptyState
    (ReachesReturn.compound [] _ rfl
      (ReachesReturn.ifBranch rfl rfl
        (ReachesReturn.compound [] _ rfl (ReachesReturn.here rfl))))).2

end ast

namespace ast

open runtime examples

/-- Claim C10 at its failing input. With the literal 10 as argument, `NewInstance` returns
the new instance (address 0) and its field `v` is `Number(10)`. With an argument that itself
constructs an instance of the same class, `__init__` is invoked on the outer instance
(address 0) with the inner instance `x` (address 1), but what `NewInstance` returns is read
back from the scope under the name of the class, which the inner construction has bound
again: it returns the inner instance, whose field `v` is `Number(10)` and not `x`. -/
theorem NewInstance_nested_same_class :
    Execute 8 (.NewInstance withInit [.Const (.Number 10)]) emptyState =
      (.Normal (.ClassInstance 0),
        ⟨[("C", .ClassInstance 0)], [⟨withInit, [("v", .Number 10)]⟩], ""⟩) ∧
    Execute 8 (.NewInstance withInit [.NewInstance withInit [.Const (.Number 10)]]) emptyState =
      (.Normal (.ClassInstance 1),
        ⟨[("C", .ClassInstance 1)],
         [⟨withInit, [("v", .ClassInstance 1)]⟩, ⟨withInit, [("v", .Number 10)]⟩], ""⟩) :=
  ⟨rfl, rfl⟩

end ast

/-! ## Operators, method calls and variables -/

namespace ast

open runtime examples

theorem intResult_inRange {n : Int} (h : inIntRange n) (st : State) :
    intResult n st = (.Normal (.Number n), st) := by
  unfold intResult
  exact if_pos h

theorem wrapInt_inRange {n : Int} (h : inIntRange n) : wrapInt n = n := by
  unfold inIntRange at h
  unfold wrapInt
  omega

theorem wrapInt_isInt (n : Int) : inIntRange (wrapInt n) := by
  unfold inIntRange wrapInt
  omega

/-- Claim C13: `Add` evaluates both operands; it raises a runtime error when one of them is
empty; for every two `Number` values it returns `Number(a+b)`, `a+b` being the sum that `int`
holds: the exact sum when that is a value of `int`, and in every case the value of `int` with
the 32 low bits of the exact sum, so that `Add(2147483647, 1)` is `Number(-2147483648)`; for
two `String` values it returns the concatenation; otherwise, when the left operand is a class
instance whose class resolves an `__add__` with one parameter, the result is that of calling
`__add__` with the right operand; every other case raises a runtime error, as two instances
of a class without `__add__` do. -/
theorem Add_contract (fuel : Nat) (lhs rhs : Statement) (st st1 st2 : State)
    (a b : ObjectHolder) (hl : Execute fuel lhs st = (.Normal a, st1))
    (hr : Execute fuel rhs st1 = (.Normal b, st2)) :
    (∀ x y : Int, a = .Number x → b = .Number y →
      Execute (fuel + 1) (.Add lhs rhs) st = (.Normal (.Number (wrapInt (x + y))), st2) ∧
      inIntRange (wrapInt (x + y)) ∧
      (inIntRange (x + y) →
        Execute (fuel + 1) (.Add lhs rhs) st = (.Normal (.Number (x + y)), st2))) ∧
    (∀ x y : String, a = .String x → b = .String y →
      Execute (fuel + 1) (.Add lhs rhs) st = (.Normal (.String (x ++ y)), st2)) ∧
    (∀ (addr : Nat) (inst : ClassInstance), a = .ClassInstance addr → nonEmpty b = true →
      st2.heap.get? addr = some inst → inst.HasMethod "__add__" 1 = true →
      Execute (fuel + 1) (.Add lhs rhs) st = Call fuel addr "__add__" [b] st2) ∧
    (∀ (addr : Nat) (inst : ClassInstance), a = .ClassInstance addr →
      st2.heap.get? addr = some inst → inst.HasMethod "__add__" 1 = false →
      Execute (fuel + 1) (.Add lhs rhs) st =
        (.Throw (.runtime_error "Attemp to Add wrong object types"), st2)) ∧
    (nonEmpty a = false ∨ nonEmpty b = false →
      Execute (fuel + 1) (.Add lhs rhs) st =
        (.Throw (.runtime_error "Attemp to Add wrong object types"), st2)) ∧
    (bothNumbers a b = false → bothStrings a b = false → isInstance a = false →
      Execute (fuel + 1) (.Add lhs rhs) st =
        (.Throw (.runtime_error "Attemp to Add wrong object types"), st2)) ∧
    Execute 2 (.Add (.Const (.Number 2147483647)) (.Const (.Number 1))) emptyState =
      (.Normal (.Number (-2147483648)), emptyState) := by
  refine ⟨?_, ?_, ?_, ?_, ?_, ?_, rfl⟩
  · intro x y ha hb
    subst ha; subst hb
    have h : Execute (fuel + 1) (.Add lhs rhs) st =
        (.Normal (.Number (wrapInt (x + y))), st2) := by
      simp only [Execute, hl, hr, Res.bind, nonEmpty]
      rfl
    exact ⟨h, wrapInt_isInt _, fun hin => by rw [h, wrapInt_inRange hin]⟩
  · intro x y ha hb
    subst ha; subst hb
    simp only [Execute, hl, hr, Res.bind, nonEmpty]
    rfl
  · intro addr inst ha hb hh hm
    subst ha
    have hm1 : inst.HasMethod ADD_METHOD 1 = true := hm
    cases b <;> first
      | exact Bool.noConfusion (show false = true from hb)
      | (simp only [Execute, hl, hr, Res.bind, nonEmpty, hh, hm1]; rfl)
  · intro addr inst ha hh hm
    subst ha
    have hm1 : inst.HasMethod ADD_METHOD 1 = false := hm
    cases b <;> (simp only [Execute, hl, hr, Res.bind, nonEmpty, hh, hm1]; rfl)
  · intro h
    rcases h with h | h
    · cases a <;> first
        | exact Bool.noConfusion (show true = false from h)
        | (simp only [Execute, hl, hr, Res.bind, nonEmpty]; rfl)
    · cases b <;> first
        | exact Bool.noConfusion (show true = false from h)
        | (cases a <;> (simp only [Execute, hl, hr, Res.bind, nonEmpty]; rfl))
  · intro h1 h2 h3
    cases a <;> cases b <;> first
      | exact Bool.noConfusion (show true = false from h1)
      | exact Bool.noConfusion (show true = false from h2)
      | exact Bool.noConfusion (show true = false from h3)
      | (simp only [Execute, hl, hr, Res.bind, nonEmpty]; rfl)

end ast
namespace ast

open runtime examples

/-- Witness for C13: `1 + 2` is `Number(3)`, `-2147483648 + -1` is `Number(2147483647)`, and
an instance of a class with `__add__` plus 1 is what `__add__` returns. -/
theorem Add_contract_witness :
    Execute 2 (.Add (.Const (.Number 1)) (.Const (.Number 2))) emptyState =
      (.Normal (.Number 3), emptyState) ∧
    Execute 2 (.Add (.Const (.Number (-2147483648))) (.Const (.Number (-1)))) emptyState =
      (.Normal (.Number 2147483647), emptyState) ∧
    Execute 6 (.Add (.VariableValue ["a"]) (.Const (.Number 1))) oneWithAdd =
      Call 5 0 "__add__" [.Number 1] oneWithAdd ∧
    Call 5 0 "__add__" [.Number 1] oneWithAdd = (.Normal (.Number 42), oneWithAdd) :=
  ⟨((Add_contract 1 (.Const (.Number 1)) (.Const (.Number 2)) emptyState emptyState emptyState
      (.Number 1) (.Number 2) rfl rfl).1 1 2 rfl rfl).2.2 ⟨by decide, by decide⟩,
   ((Add_contract 1 (.Const (.Number (-2147483648))) (.Const (.Number (-1))) emptyState
      emptyState emptyState (.Number (-2147483648)) (.Number (-1)) rfl rfl).1
      (-2147483648) (-1) rfl rfl).1,
   (Add_contract 5 (.VariableValue ["a"]) (.Const (.Number 1)) oneWithAdd oneWithAdd oneWithAdd
      (.ClassInstance 0) (.Number 1) rfl rfl).2.2.1 0 ⟨withAdd, []⟩ rfl rfl rfl rfl,
   rfl⟩

/-- Claim C14: when both operands evaluate to `Number` values, `Sub` and `Mult` return
`Number(a-b)` and `Number(a*b)`, and `Div`, for `b != 0`, returns `Number(a/b)` with the
quotient truncated toward zero (the results being values of `int`), so that `Div(-7, 2)` and
`Div(7, -2)` are `-3`; every other pair of operands raises a runtime error: an empty operand
is not taken for zero and a class instance gets no fallback to a method of its class. -/
theorem Sub_Mult_Div_contract (fuel : Nat) (lhs rhs : Statement) (st st1 st2 : State)
    (a b : ObjectHolder) (hl : Execute fuel lhs st = (.Normal a, st1))
    (hr : Execute fuel rhs st1 = (.Normal b, st2)) :
    (∀ x y : Int, a = .Number x → b = .Number y →
      (inIntRange (x - y) →
        Execute (fuel + 1) (.Sub lhs rhs) st = (.Normal (.Number (x - y)), st2)) ∧
      (inIntRange (x * y) →
        Execute (fuel + 1) (.Mult lhs rhs) st = (.Normal (.Number (x * y)), st2)) ∧
      (y ≠ 0 → inIntRange (Int.tdiv x y) →
        Execute (fuel + 1) (.Div lhs rhs) st = (.Normal (.Number (Int.tdiv x y)), st2))) ∧
    (bothNumbers a b = false →
      Execute (fuel + 1) (.Sub lhs rhs) st =
        (.Throw (.runtime_error "Attemp to Substract wrong object types"), st2) ∧
      Execute (fuel + 1) (.Mult lhs rhs) st =
        (.Throw (.runtime_error "Attemp to Multiply wrong object types"), st2) ∧
      Execute (fuel + 1) (.Div lhs rhs) st =
        (.Throw (.runtime_error "Attemp to Divide wrong object types"), st2)) ∧
    Int.tdiv (-7) 2 = -3 ∧ Int.tdiv 7 (-2) = -3 := by
  refine ⟨?_, ?_, by decide, by decide⟩
  · intro x y ha hb
    subst ha; subst hb
    refine ⟨fun h => ?_, fun h => ?_, fun hy h => ?_⟩
    · simp only [Execute, hl, hr, Res.bind, nonEmpty]
      rw [wrapInt_inRange h]
      rfl
    · simp only [Execute, hl, hr, Res.bind, nonEmpty]
      rw [wrapInt_inRange h]
      rfl
    · simp only [Execute, hl, hr, Res.bind, nonEmpty]
      simp only [Bool.and_self, Bool.not_true, Bool.false_eq_true, if_false, hy]
      exact intResult_inRange h st2
  · intro h
    cases a <;> cases b <;> first
      | exact Bool.noConfusion (show true = false from h)
      | (simp only [Execute, hl, hr, Res.bind, nonEmpty]; exact ⟨rfl, rfl, rfl⟩)

/-- Witness for C14: `-7 / 2` is `-3`, `None - 1` raises, and an instance of a class that
declares `__sub__` minus 1 raises. -/
theorem Sub_Mult_Div_contract_witness :
    Execute 2 (.Div (.Const (.Number (-7))) (.Const (.Number 2))) emptyState =
      (.Normal (.Number (-3)), emptyState) ∧
    Execute 2 (.Sub (.Const .None) (.Const (.Number 1))) emptyState =
      (.Throw (.runtime_error "Attemp to Substract wrong object types"), emptyState) ∧
    Execute 2 (.Sub (.VariableValue ["a"]) (.Const (.Number 1))) oneWithAdd =
      (.Throw (.runtime_error "Attemp to Substract wrong object types"), oneWithAdd) ∧
    ClassInstance.HasMethod ⟨withAdd, []⟩ "__sub__" 1 = true :=
  ⟨((Sub_Mult_Div_contract 1 (.Const (.Number (-7))) (.Const (.Number 2)) emptyState emptyState
      emptyState (.Number (-7)) (.Number 2) rfl rfl).1 (-7) 2 rfl rfl).2.2 (by decide)
      ⟨by decide, by decide⟩,
   ((Sub_Mult_Div_contract 1 (.Const .None) (.Const (.Number 1)) emptyState emptyState
      emptyState .None (.Number 1) rfl rfl).2.1 rfl).1,
   ((Sub_Mult_Div_contract 1 (.VariableValue ["a"]) (.Const (.Number 1)) oneWithAdd oneWithAdd
      oneWithAdd (.ClassInstance 0) (.Number 1) rfl rfl).2.1 rfl).1,
   rfl⟩

end ast
namespace ast

open runtime examples

/-- Claim C15: `And` and `Or` execute both operand statements, the left one first, whatever
the left value is, so that the effects of the right one occur even when the left value alone
decides the result; they raise a runtime error when one of the two values is empty and
otherwise return `Bool(IsTrue(l) and IsTrue(r))`, respectively `Bool(IsTrue(l) or
IsTrue(r))`. `Not` raises a runtime error on an empty value and otherwise returns
`Bool(not IsTrue(x))`. -/
theorem And_Or_Not_contract (fuel : Nat) (lhs rhs : Statement) (st st1 st2 : State)
    (l r : ObjectHolder) (hl : Execute fuel lhs st = (.Normal l, st1))
    (hr : Execute fuel rhs st1 = (.Normal r, st2)) :
    (nonEmpty l = true → nonEmpty r = true →
      Execute (fuel + 1) (.And lhs rhs) st = (.Normal (.Bool (IsTrue l && IsTrue r)), st2) ∧
      Execute (fuel + 1) (.Or lhs rhs) st = (.Normal (.Bool (IsTrue l || IsTrue r)), st2)) ∧
    (nonEmpty l = false ∨ nonEmpty r = false →
      Execute (fuel + 1) (.And lhs rhs) st =
        (.Throw (.runtime_error "Attemp to call operator And for wrong object types"), st2) ∧
      Execute (fuel + 1) (.Or lhs rhs) st =
        (.Throw (.runtime_error "Attemp to call operator Or for wrong object types"), st2)) ∧
    (nonEmpty l = true →
      Execute (fuel + 1) (.Not lhs) st = (.Normal (.Bool (!IsTrue l)), st1)) ∧
    (nonEmpty l = false →
      Execute (fuel + 1) (.Not lhs) st =
        (.Throw (.runtime_error "Wrong argument parsed to Not"), st1)) := by
  refine ⟨?_, ?_, ?_, ?_⟩
  · intro h1 h2
    simp only [Execute, hl, hr, Res.bind, h1, h2, Bool.and_self, if_true, and_self]
  · intro h
    rcases h with h | h
    · simp [Execute, hl, hr, Res.bind, h]
    · simp [Execute, hl, hr, Res.bind, h]
  · intro h
    simp only [Execute, hl, Res.bind, h, if_true]
  · intro h
    simp [Execute, hl, Res.bind, h]

/-- Witness for C15: in `True or (x = 0)` and in `False and (x = 0)` the assignment is
executed although the left operand decides the result. -/
theorem And_Or_Not_contract_witness :
    Execute 3 (.Or (.Const (.Bool true)) (.Assignment "x" (.Const (.Number 0)))) emptyState =
      (.Normal (.Bool true), ⟨[("x", .Number 0)], [], ""⟩) ∧
    Execute 3 (.And (.Const (.Bool false)) (.Assignment "x" (.Const (.Number 0)))) emptyState =
      (.Normal (.Bool false), ⟨[("x", .Number 0)], [], ""⟩) :=
  have h := And_Or_Not_contract 2 (.Const (.Bool true)) (.Assignment "x" (.Const (.Number 0)))
    emptyState emptyState ⟨[("x", .Number 0)], [], ""⟩ (.Bool true) (.Number 0) rfl rfl
  have h1 := And_Or_Not_contract 2 (.Const (.Bool false))
    (.Assignment "x" (.Const (.Number 0)))
    emptyState emptyState ⟨[("x", .Number 0)], [], ""⟩ (.Bool false) (.Number 0) rfl rfl
  ⟨(h.1 rfl rfl).2, (h1.1 rfl rfl).1⟩

end ast

namespace runtime

/-- Claim C17: `IsTrue` is a total function: false for an empty holder, the stored value for
a `Bool`, `value != 0` for a `Number`, non-emptiness of the text for a `String`, and false
for every `Class` object and every class instance, whatever its class declares. -/
theorem IsTrue_contract :
    IsTrue .None = false ∧
    (∀ b : Bool, IsTrue (.Bool b) = b) ∧
    (∀ n : Int, IsTrue (.Number n) = decide (n ≠ 0)) ∧
    (∀ s : String, IsTrue (.String s) = decide (s ≠ "")) ∧
    (∀ c : Class, IsTrue (.Class c) = false) ∧
    (∀ a : Nat, IsTrue (.ClassInstance a) = false) ∧
    IsTrue (.Number 0) = false ∧ IsTrue (.String "") = false ∧ IsTrue (.Bool true) = true :=
  ⟨rfl, fun _ => rfl, fun _ => rfl, fun _ => rfl, fun _ => rfl, fun _ => rfl, rfl, rfl, rfl⟩

end runtime

/-! ## `NewInstance` and `VariableValue` -/

namespace ast

open runtime examples

theorem Call_scope (fuel : Nat) (self : Nat) (method : String) (args : List ObjectHolder)
    (st : State) : (Call fuel self method args st).2.scope = st.scope := by
  cases fuel with
  | zero => rfl
  | succ n =>
    simp only [runtime.Call]
    split
    · rfl
    · split
      · rfl
      · split <;> rfl

theorem bind_eq_Normal {α β : Type} {r : Res α} {k : α → State → Res β} {v : β} {s : State}
    (h : Res.bind r k = (.Normal v, s)) :
    ∃ (a : α) (s0 : State), r = (.Normal a, s0) ∧ k a s0 = (.Normal v, s) := by
  obtain ⟨c, s0⟩ := r
  cases c with
  | Normal a => exact ⟨a, s0, rfl, h⟩
  | ReturnException w => simp [Res.bind] at h
  | Throw e => simp [Res.bind] at h

/-- Counterexample to C11: `ClassDefinition` binds the name `C` to the class object; after
`NewInstance(C, [10])` has returned, the scope maps `C` to the new instance and no longer to
the class object. -/
theorem NewInstance_binding_counterexample :
    Execute 1 (.ClassDefinition (.Class withInit)) emptyState =
      (.Normal (.Class withInit), ⟨[("C", .Class withInit)], [], ""⟩) ∧
    Execute 8 (.NewInstance withInit [.Const (.Number 10)]) ⟨[("C", .Class withInit)], [], ""⟩ =
      (.Normal (.ClassInstance 0),
        ⟨[("C", .ClassInstance 0)], [⟨withInit, [("v", .Number 10)]⟩], ""⟩) :=
  ⟨rfl, rfl⟩

/-- Claim C11, amended: the binding that `NewInstance` makes under the name of the class is
not undone. `NewInstance` first binds the name of the class to the new instance, replacing
what the name was bound to, and changes no other name; when no `__init__` with as many
parameters as arguments exists that is all it does to the state, and it returns the new
instance. Otherwise, when the evaluation of the argument expressions in the scope so changed
leaves the name bound to the new instance (the binding is the only owner of the instance,
to which the code keeps a raw pointer) and `__init__` returns, `NewInstance` returns the new
instance, the scope it leaves is the one left by the argument expressions (`__init__` does
not touch it), and that scope maps the name of the class to the returned instance. -/
theorem NewInstance_binding (fuel : Nat) (class_ : runtime.Class) (args : List Statement)
    (st : State) :
    (withNewInstance class_ st).scope.find class_.GetName =
      some (.ClassInstance st.heap.length) ∧
    (∀ name : String, name ≠ class_.GetName →
      (withNewInstance class_ st).scope.find name = st.scope.find name) ∧
    (ClassInstance.HasMethod ⟨class_, []⟩ "__init__" args.length = false →
      Execute (fuel + 1) (.NewInstance class_ args) st =
        (.Normal (.ClassInstance st.heap.length), withNewInstance class_ st)) ∧
    (ClassInstance.HasMethod ⟨class_, []⟩ "__init__" args.length = true →
      ∀ (vs : List ObjectHolder) (st2 st3 : State) (r : ObjectHolder),
        ExecuteArgs (Execute fuel) args (withNewInstance class_ st) = (.Normal vs, st2) →
        st2.scope.find class_.GetName = some (.ClassInstance st.heap.length) →
        Call fuel st.heap.length "__init__" vs st2 = (.Normal r, st3) →
        Execute (fuel + 1) (.NewInstance class_ args) st =
          (.Normal (.ClassInstance st.heap.length), st3) ∧
        st3.scope = st2.scope ∧
        st3.scope.find class_.GetName = some (.ClassInstance st.heap.length)) := by
  refine ⟨?_, ?_, ?_, ?_⟩
  · simp only [withNewInstance, Closure_find_assign, if_true]
  · intro name hn
    simp only [withNewInstance, Closure_find_assign]
    exact if_neg (fun e => hn e.symm)
  · intro h
    have h1 : ClassInstance.HasMethod ⟨class_, []⟩ INIT_METHOD args.length = false := h
    simp only [Execute, h1, Bool.false_eq_true, if_false, Res.bind, Closure_find_assign, if_true]
    rfl
  · intro h vs st2 st3 r hargs hheld hcall
    have h1 : ClassInstance.HasMethod ⟨class_, []⟩ INIT_METHOD args.length = true := h
    have hargs1 : ExecuteArgs (Execute fuel) args
        { scope := st.scope.assign class_.GetName (.ClassInstance st.heap.length),
          heap := st.heap ++ [⟨class_, []⟩], output := st.output } = (.Normal vs, st2) := hargs
    have hcall1 : Call fuel st.heap.length INIT_METHOD vs st2 = (.Normal r, st3) := hcall
    have hs : st3.scope = st2.scope := by
      have := Call_scope fuel st.heap.length INIT_METHOD vs st2
      rw [hcall1] at this
      exact this
    have hf : st3.scope.find class_.GetName = some (.ClassInstance st.heap.length) := by
      rw [hs]; exact hheld
    refine ⟨?_, hs, hf⟩
    simp only [Execute, h1, if_true, hargs1, hcall1, Res.bind, hf]

/-- Witness for C11: the class of the specification, instantiated with 10 in the empty
scope; the scope left maps `C` to the instance returned. -/
theorem NewInstance_binding_witness :
    Execute 8 (.NewInstance withInit [.Const (.Number 10)]) emptyState =
      (.Normal (.ClassInstance 0),
        ⟨[("C", .ClassInstance 0)], [⟨withInit, [("v", .Number 10)]⟩], ""⟩) :=
  ((NewInstance_binding 7 withInit [.Const (.Number 10)] emptyState).2.2.2 rfl
    [.Number 10] ⟨[("C", .ClassInstance 0)], [⟨withInit, []⟩], ""⟩
    ⟨[("C", .ClassInstance 0)], [⟨withInit, [("v", .Number 10)]⟩], ""⟩ (.Number 10) rfl rfl rfl).1

end ast
namespace ast

open runtime examples

theorem resolveIds_of_Resolves {heap : List ClassInstance} {ids : List String} {c : Closure}
    {v : ObjectHolder} (h : Resolves heap ids c v) :
    ∀ res : ObjectHolder, resolveIds heap ids c res = .Normal v := by
  induction h with
  | @last id c v hf hlive =>
    intro res
    cases v with
    | ClassInstance a =>
      obtain ⟨inst, hi⟩ := hlive a rfl
      simp only [resolveIds, hf, hi]
    | _ => simp only [resolveIds, hf]
  | step hf hh _ ih =>
    intro res
    rw [resolveIds]
    simp only [hf, hh]
    exact ih _

theorem resolveIds_of_Absent {heap : List ClassInstance} {ids : List String} {c : Closure}
    {missing : String} (h : Absent heap ids c missing) :
    ∀ res : ObjectHolder,
      resolveIds heap ids c res = .Throw (.runtime_error ("Wrong var name: " ++ missing)) := by
  induction h with
  | here hf => intro res; simp only [resolveIds, hf]
  | later hf hh _ ih =>
    intro res
    rw [resolveIds]
    simp only [hf, hh]
    exact ih _

theorem Resolves_or_Absent (heap : List ClassInstance) (ids : List String) :
    ∀ c : Closure, ids ≠ [] → InstancePath heap ids c →
      (∃ v, Resolves heap ids c v) ∨ (∃ missing, Absent heap ids c missing) := by
  induction ids with
  | nil => intro c h; exact absurd rfl h
  | cons id rest ih =>
    intro c _ hp
    cases hf : c.find id with
    | none => exact Or.inr ⟨id, Absent.here hf⟩
    | some v =>
      cases rest with
      | nil =>
        refine Or.inl ⟨v, Resolves.last hf ?_⟩
        intro a hv
        subst hv
        exact hp a hf
      | cons id2 ids =>
        obtain ⟨a, inst, hv, hh, hrest⟩ := hp v hf
        subst hv
        rcases ih inst.closure_ (by simp) hrest with ⟨w, hw⟩ | ⟨m, hm⟩
        · exact Or.inl ⟨w, Resolves.step hf hh hw⟩
        · exact Or.inr ⟨m, Absent.later hf hh hm⟩

/-- Claim C12: for a dotted path `id1.id2...idn` in which every segment but the last
resolves to a class instance, `VariableValue` looks `id1` up in the scope and each later
segment in the fields of the instance found for the segment before it, and returns the value
bound to `idn` there; it raises the runtime error of the undefined variable exactly when
some segment is absent from the closure it is looked up in; and it leaves the state, the
scope and every field closure, as it is. -/
theorem VariableValue_contract (fuel : Nat) (ids : List String) (st : State)
    (hne : ids ≠ []) (hp : InstancePath st.heap ids st.scope) :
    (∀ v : ObjectHolder, Resolves st.heap ids st.scope v →
      Execute (fuel + 1) (.VariableValue ids) st = (.Normal v, st)) ∧
    (∀ missing : String, Absent st.heap ids st.scope missing →
      Execute (fuel + 1) (.VariableValue ids) st =
        (.Throw (.runtime_error ("Wrong var name: " ++ missing)), st)) ∧
    ((∃ what : String,
        (Execute (fuel + 1) (.VariableValue ids) st).1 = .Throw (.runtime_error what)) ↔
      ∃ missing : String, Absent st.heap ids st.scope missing) ∧
    ((∃ v : ObjectHolder, Execute (fuel + 1) (.VariableValue ids) st = (.Normal v, st)) ∨
      ∃ missing : String, Absent st.heap ids st.scope missing) ∧
    (Execute (fuel + 1) (.VariableValue ids) st).2 = st := by
  have hR : ∀ v : ObjectHolder, Resolves st.heap ids st.scope v →
      Execute (fuel + 1) (.VariableValue ids) st = (.Normal v, st) := by
    intro v h
    simp only [Execute, resolveIds_of_Resolves h]
  have hA : ∀ missing : String, Absent st.heap ids st.scope missing →
      Execute (fuel + 1) (.VariableValue ids) st =
        (.Throw (.runtime_error ("Wrong var name: " ++ missing)), st) := by
    intro m h
    simp only [Execute, resolveIds_of_Absent h]
  refine ⟨hR, hA, ⟨?_, ?_⟩, ?_, rfl⟩
  · rintro ⟨what, hw⟩
    rcases Resolves_or_Absent st.heap ids st.scope hne hp with ⟨v, hv⟩ | hm
    · rw [hR v hv] at hw
      cases hw
    · exact hm
  · rintro ⟨m, hm⟩
    exact ⟨_, by rw [hA m hm]⟩
  · rcases Resolves_or_Absent st.heap ids st.scope hne hp with ⟨v, hv⟩ | hm
    · exact Or.inl ⟨v, hR v hv⟩
    · exact Or.inr hm

/-- Witness for C12: the path `p.q.n` resolves to the number 7, and `p.q.m` raises. -/
theorem VariableValue_contract_witness :
    Execute 1 (.VariableValue ["p", "q", "n"]) nestedFields =
      (.Normal (.Number 7), nestedFields) ∧
    Execute 1 (.VariableValue ["p", "q", "m"]) nestedFields =
      (.Throw (.runtime_error "Wrong var name: m"), nestedFields) :=
  ⟨(VariableValue_contract 0 ["p", "q", "n"] nestedFields (by simp)
      (fun v hv => ⟨0, _, (Option.some.inj hv).symm, rfl,
        fun w hw => ⟨1, _, (Option.some.inj hw).symm, rfl,
          fun a ha => by cases ha⟩⟩)).1 (.Number 7)
      (Resolves.step rfl rfl (Resolves.step rfl rfl
        (Resolves.last rfl (fun a ha => by cases ha)))),
   (VariableValue_contract 0 ["p", "q", "m"] nestedFields (by simp)
      (fun v hv => ⟨0, _, (Option.some.inj hv).symm, rfl,
        fun w hw => ⟨1, _, (Option.some.inj hw).symm, rfl,
          fun a ha => by cases ha⟩⟩)).2.1 "m"
      (Absent.later rfl rfl (Absent.later rfl rfl (Absent.here rfl)))⟩

end ast

/-! ## The `Print` statement -/

namespace ast

open runtime examples

theorem PrintObject_primitive (fuel : Nat) (v : ObjectHolder) (text : String) (st : State)
    (h : renderPrimitive v = some text) (hv : nonEmpty v = true) :
    PrintObject (fuel + 1) v st = (.Normal text, st) := by
  cases v with
  | None => exact Bool.noConfusion (show false = true from hv)
  | Bool b =>
    simp only [renderPrimitive, Option.some.injEq] at h
    simp only [PrintObject, h]
  | Number n =>
    simp only [renderPrimitive, Option.some.injEq] at h
    simp only [PrintObject, h]
  | String s =>
    simp only [renderPrimitive, Option.some.injEq] at h
    simp only [PrintObject, h]
  | Class c => simp [renderPrimitive] at h
  | ClassInstance a => simp [renderPrimitive] at h

theorem PrintArgs_step (fuel : Nat) (first : Bool) (e : Statement) (es : List Statement)
    (st st1 : State) (v : ObjectHolder) (text : String)
    (he : Execute (fuel + 1) e st = (.Normal v, st1)) (hr : renderPrimitive v = some text) :
    PrintArgs (Execute (fuel + 1)) (PrintObject (fuel + 1)) first (e :: es) st =
      PrintArgs (Execute (fuel + 1)) (PrintObject (fuel + 1)) false es
        { st1 with output := st1.output ++ (if first then "" else " ") ++ text } := by
  simp only [PrintArgs, he, Res.bind]
  cases hv : nonEmpty v with
  | true =>
    simp only [if_true]
    rw [PrintObject_primitive fuel v text _ hr hv]
    cases first <;> simp [String.append_assoc]
  | false =>
    have hnone : v = .None := by
      cases v <;> first | rfl | exact Bool.noConfusion (show true = false from hv)
    subst hnone
    simp only [renderPrimitive, Option.some.injEq] at hr
    subst hr
    cases first <;> simp [String.append_assoc]

theorem PrintsQuietly_spec {fuel : Nat} {first : Bool} {args : List Statement}
    {st st2 : State} {texts : List String}
    (h : PrintsQuietly (fuel + 1) first args st texts st2) :
    PrintArgs (Execute (fuel + 1)) (PrintObject (fuel + 1)) first args st = (.Normal (), st2) ∧
    st2.output = st.output ++
      (if first = true ∨ texts = [] then "" else " ") ++ joinSpaces texts := by
  induction h with
  | done first st =>
    refine ⟨rfl, ?_⟩
    simp [joinSpaces]
  | @next first e es st st1 st2 v text texts he hq hr _ ih =>
    rw [PrintArgs_step fuel first e es st st1 v text he hr]
    refine ⟨ih.1, ?_⟩
    rw [ih.2]
    simp only [hq]
    cases texts with
    | nil => cases first <;> simp [joinSpaces, String.append_assoc]
    | cons t ts => cases first <;> simp [joinSpaces, String.append_assoc]

end ast

namespace ast

open runtime examples

/-- Claim C18, counterexample. The argument is a method call whose body prints `x` and then
returns 1: evaluating it writes `x` and a newline, so `Print` appends `x`, a newline, `1` and
a newline, which is not the rendering `1` followed by a newline. -/
theorem Print_counterexample :
    Execute 9 (.MethodCall (.VariableValue ["obj"]) "noisy" []) oneNoisy =
      (.Normal (.Number 1), { oneNoisy with output := "x\n" }) ∧
    renderPrimitive (.Number 1) = some "1" ∧
    Execute 10 (.Print [.MethodCall (.VariableValue ["obj"]) "noisy" []]) oneNoisy =
      (.Normal .None, { oneNoisy with output := "x\n1\n" }) ∧
    "x\n1\n" ≠ oneNoisy.output ++ joinSpaces ["1"] ++ "\n" :=
  ⟨rfl, rfl, rfl, by decide⟩

/-- Claim C18, amended. `Print` evaluates its arguments in order; right after evaluating an
argument it appends a single space unless the argument is the first, and then the rendering
of the value (first conjunct, one step of the loop, for a value that is empty, a `Bool`, a
`Number` or a `String`); after the last argument it appends a newline and returns `None`,
so that with no argument it appends just a newline (second conjunct). When the evaluation of
the arguments writes nothing itself, the text appended is exactly the renderings joined by
single spaces, followed by one newline, and the rest of the state is that left by the
evaluation of the arguments (third conjunct). -/
theorem Print_contract (fuel : Nat) (args : List Statement) (st st2 : State)
    (texts : List String) (h : PrintsQuietly (fuel + 1) true args st texts st2) :
    (∀ (first : Bool) (e : Statement) (es : List Statement) (s s1 : State) (v : ObjectHolder)
        (text : String), Execute (fuel + 1) e s = (.Normal v, s1) →
        renderPrimitive v = some text →
        PrintArgs (Execute (fuel + 1)) (PrintObject (fuel + 1)) first (e :: es) s =
          PrintArgs (Execute (fuel + 1)) (PrintObject (fuel + 1)) false es
            { s1 with output := s1.output ++ (if first then "" else " ") ++ text }) ∧
    (∀ s : State, Execute (fuel + 1) (.Print []) s =
        (.Normal .None, { s with output := s.output ++ "\n" })) ∧
    Execute (fuel + 2) (.Print args) st =
      (.Normal .None, { st2 with output := st.output ++ joinSpaces texts ++ "\n" }) := by
  refine ⟨fun first e es s s1 v text he hr => PrintArgs_step fuel first e es s s1 v text he hr,
    fun s => ?_, ?_⟩
  · simp only [Execute, PrintArgs, Res.bind]
  · obtain ⟨h1, h2⟩ := PrintsQuietly_spec h
    simp only [Execute] at h1 ⊢
    rw [h1]
    simp only [Res.bind, h2, if_true, true_or, String.append_empty]

/-- Four constants printed in the empty state: the text written is `10 None a True` and a
newline. -/
theorem Print_contract_witness :
    PrintsQuietly 1 true
      [.Const (.Number 10), .Const .None, .Const (.String "a"), .Const (.Bool true)]
      ⟨[], [], ""⟩ ["10", "None", "a", "True"] ⟨[], [], "10 None a True"⟩ ∧
    Execute 2
      (.Print [.Const (.Number 10), .Const .None, .Const (.String "a"), .Const (.Bool true)])
      ⟨[], [], ""⟩ = (.Normal .None, ⟨[], [], "10 None a True\n"⟩) :=
  have hq : PrintsQuietly 1 true
      [.Const (.Number 10), .Const .None, .Const (.String "a"), .Const (.Bool true)]
      ⟨[], [], ""⟩ ["10", "None", "a", "True"] ⟨[], [], "10 None a True"⟩ :=
    @PrintsQuietly.next 1 true _ _ _ ⟨[], [], ""⟩ _ (.Number 10) _ _ rfl rfl rfl
      (@PrintsQuietly.next 1 false _ _ _ ⟨[], [], "10"⟩ _ .None _ _ rfl rfl rfl
        (@PrintsQuietly.next 1 false _ _ _ ⟨[], [], "10 None"⟩ _ (.String "a") _ _ rfl rfl rfl
          (@PrintsQuietly.next 1 false _ _ _ ⟨[], [], "10 None a"⟩ _ (.Bool true) _ _
            rfl rfl rfl (.done false _))))
  ⟨hq, (Print_contract 0 _ _ _ _ hq).2.2⟩

end ast

/-! ## String literals -/

namespace parse

theorem readStringLoop_quote (q : Char) (r acc : List Char) :
    readStringLoop q (q :: r) acc = .ok (String.mk acc, r) := by
  rw [readStringLoop.eq_def]
  simp only [if_true]

theorem readStringLoop_plain (q c : Char) (r acc : List Char) (h1 : c ≠ q)
    (h2 : c ≠ chBackslash) (h3 : c ≠ chNewline) (h4 : c ≠ chReturn) :
    readStringLoop q (c :: r) acc = readStringLoop q r (acc ++ [c]) := by
  rw [readStringLoop.eq_def]
  simp only [if_neg h1, if_neg h2, h3, h4, or_self, if_false]

theorem readStringLoop_escape (q e d : Char) (r acc : List Char) (hq : chBackslash ≠ q)
    (he : escapeOf e = some d) :
    readStringLoop q (chBackslash :: e :: r) acc = readStringLoop q r (acc ++ [d]) := by
  rw [readStringLoop.eq_def]
  simp only [if_neg hq, if_true]
  unfold escapeOf at he
  split_ifs at he with h1 h2 h3 h4 <;>
    simp only [Option.some.injEq] at he <;> subst he
  · rw [if_pos h1]
  · rw [if_neg h1, if_pos h2]
  · rw [if_neg h1, if_neg h2, if_pos h3]
  · rw [if_neg h1, if_neg h2, if_neg h3, if_pos h4]

theorem readStringLoop_complete (q : Char) (hq : chBackslash ≠ q) {src val : List Char}
    (h : LiteralBody q src val) (rest acc : List Char) :
    readStringLoop q (src ++ q :: rest) acc = .ok (String.mk (acc ++ val), rest) := by
  induction h generalizing acc with
  | nil => simp [readStringLoop_quote]
  | @plain c src val h1 h2 h3 h4 _ ih =>
    rw [List.cons_append, readStringLoop_plain q c _ acc h1 h2 h3 h4, ih]
    simp
  | @escape e d src val he _ ih =>
    rw [List.cons_append, List.cons_append, readStringLoop_escape q e d _ acc hq he, ih]
    simp

theorem readStringLoop_sound (q : Char) :
    ∀ (n : Nat) (cs acc : List Char) (v : String) (rest : List Char), cs.length ≤ n →
      readStringLoop q cs acc = .ok (v, rest) →
      ∃ src val, cs = src ++ q :: rest ∧ LiteralBody q src val ∧ v = String.mk (acc ++ val) := by
  intro n
  induction n with
  | zero =>
    intro cs acc v rest hn h
    cases cs with
    | nil => simp [readStringLoop] at h
    | cons c r => simp at hn
  | succ n ih =>
    intro cs acc v rest hn h
    cases cs with
    | nil => simp [readStringLoop] at h
    | cons ch r =>
      simp only [List.length_cons, Nat.add_le_add_iff_right] at hn
      rw [readStringLoop.eq_def] at h
      simp only at h
      by_cases h1 : ch = q
      · simp only [h1, if_true, Except.ok.injEq, Prod.mk.injEq] at h
        exact ⟨[], [], by simp [h1, h.2], .nil, by simp [h.1]⟩
      · simp only [if_neg h1] at h
        by_cases h2 : ch = chBackslash
        · simp only [h2, if_true] at h
          cases r with
          | nil => simp at h
          | cons sp r1 =>
            simp only at h
            have hlen : r1.length ≤ n := by
              simp only [List.length_cons] at hn; omega
            have key : ∀ d, escapeOf sp = some d →
                readStringLoop q r1 (acc ++ [d]) = .ok (v, rest) →
                ∃ src val, ch :: sp :: r1 = src ++ q :: rest ∧ LiteralBody q src val ∧
                  v = String.mk (acc ++ val) := by
              intro d hd hr
              obtain ⟨src, val, e1, e2, e3⟩ := ih r1 (acc ++ [d]) v rest hlen hr
              exact ⟨chBackslash :: sp :: src, d :: val, by simp [h2, e1], .escape hd e2,
                by simp [e3]⟩
            by_cases a1 : sp = 'n'
            · rw [if_pos a1] at h
              exact key chNewline (by unfold escapeOf; rw [if_pos a1]) h
            · simp only [if_neg a1] at h
              by_cases a2 : sp = 't'
              · rw [if_pos a2] at h
                exact key chTab (by unfold escapeOf; rw [if_neg a1, if_pos a2]) h
              · simp only [if_neg a2] at h
                by_cases a3 : sp = chDQuote
                · rw [if_pos a3] at h
                  exact key chDQuote
                    (by unfold escapeOf; rw [if_neg a1, if_neg a2, if_pos a3]) h
                · simp only [if_neg a3] at h
                  by_cases a4 : sp = chSQuote
                  · rw [if_pos a4] at h
                    exact key chSQuote
                      (by unfold escapeOf; rw [if_neg a1, if_neg a2, if_neg a3, if_pos a4]) h
                  · simp only [if_neg a4] at h
                    exact Except.noConfusion h
        · simp only [if_neg h2] at h
          by_cases h3 : ch = chNewline ∨ ch = chReturn
          · simp only [if_pos h3] at h
            exact Except.noConfusion h
          · simp only [if_neg h3] at h
            obtain ⟨src, val, e1, e2, e3⟩ := ih r (acc ++ [ch]) v rest hn h
            refine ⟨ch :: src, ch :: val, by simp [e1], .plain h1 h2 ?_ ?_ e2, by simp [e3]⟩
            · exact fun e => h3 (Or.inl e)
            · exact fun e => h3 (Or.inr e)

theorem readStringLoop_error (q : Char) :
    ∀ (n : Nat) (cs acc : List Char) (e : LexFailure), cs.length ≤ n →
      readStringLoop q cs acc = .error e → ∃ what, e = .LexerError what := by
  intro n
  induction n with
  | zero =>
    intro cs acc e hn h
    cases cs with
    | nil =>
      rw [readStringLoop.eq_def] at h
      simp only [Except.error.injEq] at h
      exact ⟨_, h.symm⟩
    | cons c r => simp at hn
  | succ n ih =>
    intro cs acc e hn h
    rw [readStringLoop.eq_def] at h
    cases cs with
    | nil =>
      simp only [Except.error.injEq] at h
      exact ⟨_, h.symm⟩
    | cons ch r =>
      simp only [List.length_cons, Nat.add_le_add_iff_right] at hn
      simp only at h
      split_ifs at h with h1 h2 h3
      · cases r with
        | nil =>
          simp only [Except.error.injEq] at h
          exact ⟨_, h.symm⟩
        | cons sp r1 =>
          have hlen : r1.length ≤ n := by
            simp only [List.length_cons] at hn; omega
          simp only at h
          split_ifs at h
          · exact ih _ _ _ hlen h
          · exact ih _ _ _ hlen h
          · exact ih _ _ _ hlen h
          · exact ih _ _ _ hlen h
          · simp only [Except.error.injEq] at h
            exact ⟨_, h.symm⟩
      · simp only [Except.error.injEq] at h
        exact ⟨_, h.symm⟩
      · exact ih _ _ _ hn h

end parse

namespace parse

/-- Claim C20, counterexample. The body `a`, carriage return, `b` has no backslash and no
newline, and the closing quote is reached, but lexing the literal raises an error: the
code also refuses an unescaped carriage return. -/
theorem ReadString_counterexample :
    chBackslash ∉ ['a', chReturn, 'b'] ∧ chNewline ∉ ['a', chReturn, 'b'] ∧
    chDQuote ∉ ['a', chReturn, 'b'] ∧
    ReadString chDQuote ⟨['a', chReturn, 'b', chDQuote], false, false⟩ =
      .error (.LexerError "Unexpected end of line") ∧
    Tokenize (String.mk [chDQuote, 'a', chReturn, 'b', chDQuote]) =
      .error (.LexerError "Unexpected end of line") :=
  ⟨by decide, by decide, by decide, rfl, rfl⟩

/-- Claim C20, amended. Lexing a literal opened by a quote character `q` (double or single)
succeeds exactly when the characters after the opening quote are a body followed by `q`,
where the body is made of the pairs backslash-n, backslash-t, backslash-double-quote,
backslash-single-quote and of characters other than `q`, the backslash, the newline and the
carriage return (`LiteralBody`; the other quote character may appear unescaped). The result
is then one `String` token whose value is the body with each pair replaced by newline, tab,
double quote or single quote and every other character kept, and the stream is left right
after the closing `q`. In every other case a lexical error is raised. -/
theorem ReadString_contract (q : Char) (hq : q = chDQuote ∨ q = chSQuote) (s : IStream) :
    (∀ (t : Token) (s1 : IStream), ReadString q s = .ok (t, s1) ↔
      ∃ src val rest, s.rest = src ++ q :: rest ∧ LiteralBody q src val ∧
        t = Token.String (String.mk val) ∧ s1 = { s with rest := rest }) ∧
    ((¬ ∃ src val rest, s.rest = src ++ q :: rest ∧ LiteralBody q src val) →
      ∃ what, ReadString q s = .error (.LexerError what)) := by
  have hb : chBackslash ≠ q := by
    rcases hq with h | h <;> rw [h] <;> decide
  have hok : ∀ (t : Token) (s1 : IStream), ReadString q s = .ok (t, s1) ↔
      ∃ src val rest, s.rest = src ++ q :: rest ∧ LiteralBody q src val ∧
        t = Token.String (String.mk val) ∧ s1 = { s with rest := rest } := by
    intro t s1
    constructor
    · intro h
      unfold ReadString at h
      cases hr : readStringLoop q s.rest [] with
      | error e => rw [hr] at h; exact Except.noConfusion h
      | ok p =>
        obtain ⟨v, r⟩ := p
        rw [hr] at h
        simp only [Except.ok.injEq, Prod.mk.injEq] at h
        obtain ⟨src, val, e1, e2, e3⟩ := readStringLoop_sound q _ s.rest [] v r (le_refl _) hr
        exact ⟨src, val, r, e1, e2, by rw [← h.1, e3]; simp, h.2.symm⟩
    · rintro ⟨src, val, rest, e1, e2, e3, e4⟩
      unfold ReadString
      rw [e1, readStringLoop_complete q hb e2 rest [], e3, e4]
      simp
  refine ⟨hok, fun hno => ?_⟩
  cases hr : ReadString q s with
  | ok p =>
    obtain ⟨t, s1⟩ := p
    obtain ⟨src, val, rest, e1, e2, _, _⟩ := (hok t s1).1 hr
    exact absurd ⟨src, val, rest, e1, e2⟩ hno
  | error e =>
    unfold ReadString at hr
    cases hl : readStringLoop q s.rest [] with
    | ok p => rw [hl] at hr; exact Except.noConfusion hr
    | error e1 =>
      rw [hl] at hr
      simp only [Except.error.injEq] at hr
      obtain ⟨what, hw⟩ := readStringLoop_error q _ s.rest [] e1 (le_refl _) hl
      exact ⟨what, by rw [← hr, hw]⟩

/-- The six characters double quote, `a`, backslash, `n`, `b`, double quote lex to the single
token `String` with value `a`, newline, `b`. -/
theorem ReadString_contract_witness :
    (chDQuote = chDQuote ∨ chDQuote = chSQuote) ∧
    ReadString chDQuote ⟨['a', chBackslash, 'n', 'b', chDQuote], false, false⟩ =
      .ok (Token.String "a\nb", ⟨[], false, false⟩) ∧
    Tokenize (String.mk [chDQuote, 'a', chBackslash, 'n', 'b', chDQuote]) =
      .ok [Token.String "a\nb", Token.Newline, Token.Eof] :=
  ⟨Or.inl rfl,
    ((ReadString_contract chDQuote (Or.inl rfl)
        ⟨['a', chBackslash, 'n', 'b', chDQuote], false, false⟩).1 _ _).2
      ⟨['a', chBackslash, 'n', 'b'], ['a', chNewline, 'b'], [], rfl,
        .plain (by decide) (by decide) (by decide) (by decide)
          (.escape rfl (.plain (by decide) (by decide) (by decide) (by decide) .nil)),
        rfl, rfl⟩,
    rfl⟩

end parse

/-! ## Blank lines -/

namespace parse

/-! ## What the readers consume -/

theorem countSpaces_length (cs : List Char) : (countSpaces cs).2.1.length ≤ cs.length := by
  induction cs with
  | nil => simp [countSpaces]
  | cons c r ih =>
    by_cases hc : c = ' '
    · simp only [countSpaces, hc, if_true]
      rcases hcs : countSpaces r with ⟨n, r1, e⟩
      rw [hcs] at ih
      simp only [List.length_cons] at ih ⊢
      omega
    · simp [countSpaces, hc]

theorem skipComment_length {cs r : List Char} (h : skipComment cs = some r) :
    r.length < cs.length := by
  induction cs with
  | nil => simp [skipComment] at h
  | cons c t ih =>
    by_cases hc : c = chNewline
    · simp only [skipComment, hc, if_true, Option.some.injEq] at h
      subst h
      simp
    · simp only [skipComment, hc, if_false] at h
      have := ih h
      simp only [List.length_cons]
      omega

theorem ReadComment_length {s : IStream} (hg : s.good = true) :
    (ReadComment s).rest.length ≤ s.rest.length := by
  have hb := (IStream.good_iff s).1 hg
  unfold ReadComment
  split
  · simp
  · rename_i r hr
    have := skipComment_length hr
    simp only [IStream.putback, hb.2, Bool.false_eq_true, if_false, List.length_cons]
    omega

theorem ReadString_length {q : Char} {s s2 : IStream} {t : Token}
    (h : ReadString q s = .ok (t, s2)) : s2.rest.length ≤ s.rest.length := by
  unfold ReadString at h
  split at h
  · simp at h
  · rename_i v r hr
    simp only [Except.ok.injEq, Prod.mk.injEq] at h
    obtain ⟨_, h2⟩ := h
    subst h2
    obtain ⟨src, val, e1, _, _⟩ := readStringLoop_sound q _ s.rest [] v r (le_refl _) hr
    simp only [e1, List.length_append, List.length_cons]
    omega

theorem takeDigits_length (cs : List Char) : (takeDigits cs).2.1.length ≤ cs.length := by
  induction cs with
  | nil => simp [takeDigits]
  | cons c r ih =>
    by_cases hc : c.isDigit = true
    · simp only [takeDigits, hc, if_true]
      rcases hcs : takeDigits r with ⟨n, r1, e⟩
      rw [hcs] at ih
      simp only [List.length_cons] at ih ⊢
      omega
    · simp [takeDigits, hc]

theorem takeIdChars_length (cs : List Char) : (takeIdChars cs).2.1.length ≤ cs.length := by
  induction cs with
  | nil => simp [takeIdChars]
  | cons c r ih =>
    by_cases hc : isIdChar c = true
    · simp only [takeIdChars, hc, if_true]
      rcases hcs : takeIdChars r with ⟨n, r1, e⟩
      rw [hcs] at ih
      simp only [List.length_cons] at ih ⊢
      omega
    · simp [takeIdChars, hc]

theorem ReadNumber_length {s s2 : IStream} {t : Token} (h : ReadNumber s = .ok (t, s2)) :
    s2.rest.length ≤ s.rest.length := by
  have hd := takeDigits_length
    (if decide (s.rest.head? = some '-') = true then s.rest.tail else s.rest)
  have ht : (if decide (s.rest.head? = some '-') = true then s.rest.tail else s.rest).length ≤
      s.rest.length := by
    split
    · simp
    · exact le_refl _
  unfold ReadNumber at h
  simp only at h
  split at h
  · simp at h
  · simp only [Except.ok.injEq, Prod.mk.injEq] at h
    obtain ⟨_, h2⟩ := h
    subst h2
    exact le_trans hd ht

theorem ReadId_length {s s2 : IStream} {t : Token} (h : ReadId s = .ok (t, s2)) :
    s2.rest.length ≤ s.rest.length := by
  have hd := takeIdChars_length s.rest
  unfold ReadId at h
  split at h
  rename_i cs r e heq
  rw [heq] at hd
  split at h
  · simp at h
  · simp only [Except.ok.injEq, Prod.mk.injEq] at h
    obtain ⟨_, h2⟩ := h
    subst h2
    exact hd

theorem IStream.get_length {s s1 : IStream} {x : Option Char} (h : s.get = (x, s1)) :
    s1.rest.length ≤ s.rest.length := by
  unfold IStream.get at h
  split at h
  · split at h
    · rename_i hr
      simp only [Prod.mk.injEq] at h
      rw [← h.2]
    · rename_i c r hr
      simp only [Prod.mk.injEq] at h
      rw [← h.2, hr]
      simp
  · simp only [Prod.mk.injEq] at h
    rw [← h.2]

theorem ReadEq_length {s s2 : IStream} {t : Token} (h : ReadEq s = .ok (t, s2)) :
    s2.rest.length ≤ s.rest.length := by
  unfold ReadEq at h
  split at h
  rename_i ch s1 h1
  split at h
  rename_i x s3 h3
  have hl : s3.rest.length ≤ s.rest.length :=
    le_trans (IStream.get_length h3) (IStream.get_length h1)
  repeat' split at h
  all_goals first
    | (simp at h; done)
    | (simp only [Except.ok.injEq, Prod.mk.injEq] at h
       obtain ⟨_, e2⟩ := h
       subst e2
       exact hl)

end parse

namespace parse

theorem ReadLineLoop_shrinks (fuel : Nat) :
    ∀ (s : IStream) (toks toks1 : List Token) (s1 : IStream),
    s.sane → ReadLineLoop fuel s toks = .ok (toks1, s1) →
    s1.rest.length ≤ s.rest.length ∧ (s1.eofbit = false → s1.rest.length < s.rest.length) := by
  induction fuel with
  | zero => intro s toks toks1 s1 _ h; simp [ReadLineLoop] at h
  | succ n ih =>
    intro s toks toks1 s1 hs h
    have step : ∀ (s2 : IStream) (tk : List Token), s2.sane → s2.rest.length ≤ s.rest.length →
        ReadLineLoop n s2 tk = .ok (toks1, s1) →
        s1.rest.length ≤ s.rest.length ∧
          (s1.eofbit = false → s1.rest.length < s.rest.length) := by
      intro s2 tk hs2 hl h2
      obtain ⟨a, b⟩ := ih s2 tk toks1 s1 hs2 h2
      exact ⟨le_trans a hl, fun he => lt_of_lt_of_le (b he) hl⟩
    rw [ReadLineLoop] at h
    split at h
    · rename_i heof
      simp only [Except.ok.injEq, Prod.mk.injEq] at h
      obtain ⟨_, e2⟩ := h
      subst e2
      refine ⟨le_refl _, fun he => ?_⟩
      simp only [IStream.eof] at heof
      rw [he] at heof
      exact Bool.noConfusion heof
    · rename_i heof
      have hne : s.eofbit = false := by
        simpa [IStream.eof] using heof
      have hg : s.good = true := IStream.good_of_sane hs hne
      have hb := (IStream.good_iff s).1 hg
      split at h
      · rename_i sg hget
        simp only [Except.ok.injEq, Prod.mk.injEq] at h
        obtain ⟨_, e2⟩ := h
        subst e2
        refine ⟨IStream.get_length hget, fun he => ?_⟩
        unfold IStream.get at hget
        rw [if_pos hg] at hget
        split at hget
        · simp only [Prod.mk.injEq, true_and] at hget
          rw [← hget] at he
          exact Bool.noConfusion he
        · simp at hget
      · rename_i ch sg hget
        obtain ⟨_, hg1, hr⟩ := IStream.get_some hget
        have hl1 : sg.rest.length ≤ s.rest.length := by rw [hr]; simp
        have hpb : (sg.putback ch).rest.length ≤ s.rest.length := by
          rw [(IStream.putback_good ch hg1).2, hr]
        split at h
        · simp only [Except.ok.injEq, Prod.mk.injEq] at h
          obtain ⟨_, e2⟩ := h
          subst e2
          exact ⟨hl1, fun _ => by rw [hr]; simp⟩
        · split at h
          · exact step _ _ (IStream.sane_of_good hg1) hl1 h
          · split at h
            · exact step _ _ (ReadComment_sane hg1) (le_trans (ReadComment_length hg1) hl1) h
            · split at h
              · split at h
                · simp at h
                · rename_i t s2 hrd
                  exact step _ _ (ReadString_spec hg1 hrd).1
                    (le_trans (ReadString_length hrd) hl1) h
              · split at h
                · split at h
                  · simp at h
                  · rename_i t s2 hrd
                    exact step _ _ (ReadNumber_spec (IStream.putback_good ch hg1).1 hrd).1
                      (le_trans (ReadNumber_length hrd) hpb) h
                · split at h
                  · split at h
                    · simp at h
                    · rename_i t s2 hrd
                      exact step _ _ (ReadId_spec (IStream.putback_good ch hg1).1 hrd).1
                        (le_trans (ReadId_length hrd) hpb) h
                  · split at h
                    · split at h
                      rename_i p s2 hpk
                      obtain ⟨hps, hpe⟩ := IStream.peek_sane hpk hg1
                      split at h
                      · rename_i hp
                        have hs2 : s2 = sg := hpe (by rw [hp]; simp)
                        subst hs2
                        split at h
                        · simp at h
                        · rename_i t s3 hrd
                          exact step _ _ (ReadEq_spec
                            (IStream.sane_of_good (IStream.putback_good ch hg1).1) hrd).1
                            (le_trans (ReadEq_length hrd) hpb) h
                      · have hpl : s2.rest.length ≤ s.rest.length := by
                          unfold IStream.peek at hpk
                          rw [if_pos hg1] at hpk
                          split at hpk
                          · simp only [Prod.mk.injEq] at hpk
                            rw [← hpk.2]; exact hl1
                          · simp only [Prod.mk.injEq] at hpk
                            rw [← hpk.2]; exact hl1
                        exact step _ _ hps hpl h
                    · exact step _ _ (IStream.sane_of_good hg1) hl1 h

theorem ReadLine_shrinks {s s1 : IStream} {tl : TokenLine} (hg : s.good = true)
    (h : ReadLine s = .ok (tl, s1)) (hemp : tl.IsEmpty = true) :
    s1.good = true ∧ s1.rest.length < s.rest.length := by
  obtain ⟨hs1, _, he1, _⟩ := ReadLine_spec hg h
  have hne : s1.eofbit = false := by
    cases hb : s1.eofbit with
    | false => rfl
    | true => exact absurd (mem_of_getLast? (he1 hb)) (IsEmpty_no_Eof hemp)
  refine ⟨IStream.good_of_sane hs1 hne, ?_⟩
  unfold ReadLine at h
  rw [if_pos hg] at h
  split at h
  · simp at h
  · rename_i d sc hci
    have hsc := (CountIndents_spec hg hci).1
    have hlc : sc.rest.length ≤ s.rest.length := by
      have := countSpaces_length s.rest
      unfold CountIndents at hci
      split at hci
      rename_i n r e heq
      rw [heq] at this
      split at hci
      · simp at hci
      · simp only [Except.ok.injEq, Prod.mk.injEq] at hci
        rw [← hci.2]
        exact this
    split at h
    · simp at h
    · rename_i toks s2 hloop
      simp only [Except.ok.injEq, Prod.mk.injEq] at h
      obtain ⟨_, e2⟩ := h
      subst e2
      exact lt_of_lt_of_le ((ReadLineLoop_shrinks _ _ _ _ _ hsc hloop).2 hne) hlc

theorem pullLine_fuel (n : Nat) : ∀ (s : IStream) (f1 f2 : Nat), s.good = true →
    s.rest.length ≤ n → n + 1 ≤ f1 → n + 1 ≤ f2 → pullLine f1 s = pullLine f2 s := by
  induction n with
  | zero =>
    intro s f1 f2 hg hn h1 h2
    obtain ⟨g1, rfl⟩ : ∃ g, f1 = g + 1 := ⟨f1 - 1, by omega⟩
    obtain ⟨g2, rfl⟩ : ∃ g, f2 = g + 1 := ⟨f2 - 1, by omega⟩
    rw [pullLine, pullLine]
    cases hr : ReadLine s with
    | error e => rfl
    | ok p =>
      obtain ⟨tl, s1⟩ := p
      simp only
      cases hemp : tl.IsEmpty with
      | false => simp
      | true =>
        have := (ReadLine_shrinks hg hr hemp).2
        omega
  | succ n ih =>
    intro s f1 f2 hg hn h1 h2
    obtain ⟨g1, rfl⟩ : ∃ g, f1 = g + 1 := ⟨f1 - 1, by omega⟩
    obtain ⟨g2, rfl⟩ : ∃ g, f2 = g + 1 := ⟨f2 - 1, by omega⟩
    rw [pullLine, pullLine]
    cases hr : ReadLine s with
    | error e => rfl
    | ok p =>
      obtain ⟨tl, s1⟩ := p
      simp only
      cases hemp : tl.IsEmpty with
      | false => simp
      | true =>
        obtain ⟨hg1, hlt⟩ := ReadLine_shrinks hg hr hemp
        simp only [if_true]
        exact ih s1 g1 g2 hg1 (by omega) (by omega) (by omega)

end parse

namespace parse

/-! ## The readers stop at the end of the line

Up to the next newline character, what a reader does is the same whatever follows that
newline. -/

theorem countSpaces_local (q : List Char) :
    ∃ (n : Nat) (q1 : List Char), q1.length ≤ q.length ∧
      ∀ r, countSpaces (q ++ chNewline :: r) = (n, q1 ++ chNewline :: r, false) := by
  induction q with
  | nil =>
    refine ⟨0, [], le_refl _, fun r => ?_⟩
    simp [countSpaces, show chNewline ≠ ' ' by decide]
  | cons c t ih =>
    obtain ⟨n, q1, hl, h⟩ := ih
    by_cases hc : c = ' '
    · refine ⟨n + 1, q1, by simp only [List.length_cons]; omega, fun r => ?_⟩
      rw [List.cons_append, countSpaces, if_pos hc, h r]
    · exact ⟨0, c :: t, le_refl _, fun r => by simp [countSpaces, hc]⟩

theorem takeDigits_local (q : List Char) :
    ∃ (ds q1 : List Char), q1.length ≤ q.length ∧
      ∀ r, takeDigits (q ++ chNewline :: r) = (ds, q1 ++ chNewline :: r, false) := by
  induction q with
  | nil =>
    refine ⟨[], [], le_refl _, fun r => ?_⟩
    simp [takeDigits, show chNewline.isDigit = false by decide]
  | cons c t ih =>
    obtain ⟨ds, q1, hl, h⟩ := ih
    by_cases hc : c.isDigit = true
    · refine ⟨c :: ds, q1, by simp only [List.length_cons]; omega, fun r => ?_⟩
      rw [List.cons_append, takeDigits, if_pos hc, h r]
    · exact ⟨[], c :: t, le_refl _, fun r => by simp [takeDigits, hc]⟩

theorem takeIdChars_local (q : List Char) :
    ∃ (cs q1 : List Char), q1.length ≤ q.length ∧
      ∀ r, takeIdChars (q ++ chNewline :: r) = (cs, q1 ++ chNewline :: r, false) := by
  induction q with
  | nil =>
    refine ⟨[], [], le_refl _, fun r => ?_⟩
    simp [takeIdChars, show isIdChar chNewline = false by decide]
  | cons c t ih =>
    obtain ⟨cs, q1, hl, h⟩ := ih
    by_cases hc : isIdChar c = true
    · refine ⟨c :: cs, q1, by simp only [List.length_cons]; omega, fun r => ?_⟩
      rw [List.cons_append, takeIdChars, if_pos hc, h r]
    · exact ⟨[], c :: t, le_refl _, fun r => by simp [takeIdChars, hc]⟩

theorem ReadComment_local (q : List Char) :
    ∃ q1 : List Char, q1.length ≤ q.length ∧
      ∀ r, ReadComment ⟨q ++ chNewline :: r, false, false⟩ =
        ⟨q1 ++ chNewline :: r, false, false⟩ := by
  induction q with
  | nil =>
    refine ⟨[], le_refl _, fun r => ?_⟩
    simp [ReadComment, skipComment, IStream.putback]
  | cons c t ih =>
    obtain ⟨q1, hl, h⟩ := ih
    by_cases hc : c = chNewline
    · refine ⟨chNewline :: t, by simp, fun r => ?_⟩
      simp [ReadComment, skipComment, hc, IStream.putback]
    · refine ⟨q1, by simp only [List.length_cons]; omega, fun r => ?_⟩
      have := h r
      simp only [ReadComment, List.cons_append, skipComment, hc, if_false] at this ⊢
      exact this

theorem readStringLoop_local (quote : Char) (hq : quote ≠ chNewline) :
    ∀ (n : Nat) (q acc : List Char), q.length ≤ n →
      (∃ e, ∀ r, readStringLoop quote (q ++ chNewline :: r) acc = .error e) ∨
      (∃ (v : String) (q1 : List Char), q1.length ≤ q.length ∧
        ∀ r, readStringLoop quote (q ++ chNewline :: r) acc = .ok (v, q1 ++ chNewline :: r)) := by
  intro n
  induction n with
  | zero =>
    intro q acc hn
    have hq0 : q = [] := List.length_eq_zero.1 (Nat.le_zero.1 hn)
    subst hq0
    left
    refine ⟨.LexerError "Unexpected end of line", fun r => ?_⟩
    rw [List.nil_append, readStringLoop.eq_def]
    simp [Ne.symm hq, show chNewline ≠ chBackslash by decide]
  | succ n ih =>
    intro q acc hn
    have hbs : chNewline ≠ chBackslash := by decide
    cases q with
    | nil =>
      left
      refine ⟨.LexerError "Unexpected end of line", fun r => ?_⟩
      rw [List.nil_append, readStringLoop.eq_def]
      simp [Ne.symm hq, hbs]
    | cons ch t =>
      simp only [List.length_cons, Nat.add_le_add_iff_right] at hn
      by_cases h1 : ch = quote
      · right
        refine ⟨String.mk acc, t, by simp, fun r => ?_⟩
        rw [List.cons_append, h1, readStringLoop_quote]
      · by_cases h2 : ch = chBackslash
        · subst h2
          cases t with
          | nil =>
            left
            refine ⟨.LexerError "Wrong special symbol appeared", fun r => ?_⟩
            rw [readStringLoop.eq_def]
            simp only [List.cons_append, List.nil_append, if_neg h1, if_true]
            rw [if_neg (by decide : ¬ chNewline = 'n'), if_neg (by decide : ¬ chNewline = 't'),
              if_neg (by decide : ¬ chNewline = chDQuote),
              if_neg (by decide : ¬ chNewline = chSQuote)]
          | cons sp t1 =>
            have hlen : t1.length ≤ n := by
              simp only [List.length_cons] at hn; omega
            have lift : ∀ acc1 : List Char,
                (∀ r, readStringLoop quote (chBackslash :: sp :: t1 ++ chNewline :: r) acc =
                  readStringLoop quote (t1 ++ chNewline :: r) acc1) →
                (∃ e, ∀ r, readStringLoop quote (chBackslash :: sp :: t1 ++ chNewline :: r) acc =
                  .error e) ∨
                (∃ (v : String) (q1 : List Char), q1.length ≤ (chBackslash :: sp :: t1).length ∧
                  ∀ r, readStringLoop quote (chBackslash :: sp :: t1 ++ chNewline :: r) acc =
                    .ok (v, q1 ++ chNewline :: r)) := by
              intro acc1 hstep
              rcases ih t1 acc1 hlen with ⟨e, he⟩ | ⟨v, q1, hl, hok⟩
              · exact Or.inl ⟨e, fun r => by rw [hstep r, he r]⟩
              · exact Or.inr ⟨v, q1, by simp only [List.length_cons]; omega,
                  fun r => by rw [hstep r, hok r]⟩
            have hqb : chBackslash ≠ quote := h1
            cases he : escapeOf sp with
            | some d =>
              exact lift (acc ++ [d]) (fun r => by
                rw [List.cons_append, List.cons_append,
                  readStringLoop_escape quote sp d _ acc hqb he])
            | none =>
              left
              refine ⟨.LexerError "Wrong special symbol appeared", fun r => ?_⟩
              unfold escapeOf at he
              split_ifs at he with a1 a2 a3 a4
              rw [readStringLoop.eq_def]
              simp only [List.cons_append, if_neg h1, if_true]
              rw [if_neg a1, if_neg a2, if_neg a3, if_neg a4]
        · by_cases h3 : ch = chNewline ∨ ch = chReturn
          · left
            refine ⟨.LexerError "Unexpected end of line", fun r => ?_⟩
            rw [readStringLoop.eq_def]
            simp only [List.cons_append, if_neg h1, if_neg h2, if_pos h3]
          · rcases ih t (acc ++ [ch]) hn with ⟨e, he⟩ | ⟨v, q1, hl, hok⟩
            · left
              refine ⟨e, fun r => ?_⟩
              rw [List.cons_append, readStringLoop_plain quote ch _ acc h1 h2
                (fun e => h3 (Or.inl e)) (fun e => h3 (Or.inr e)), he r]
            · right
              refine ⟨v, q1, by simp only [List.length_cons]; omega, fun r => ?_⟩
              rw [List.cons_append, readStringLoop_plain quote ch _ acc h1 h2
                (fun e => h3 (Or.inl e)) (fun e => h3 (Or.inr e)), hok r]

end parse

namespace parse

theorem ReadString_local (quote : Char) (hq : quote ≠ chNewline) (q : List Char) :
    (∃ e, ∀ r, ReadString quote ⟨q ++ chNewline :: r, false, false⟩ = .error e) ∨
    (∃ (t : Token) (q1 : List Char), q1.length ≤ q.length ∧
      ∀ r, ReadString quote ⟨q ++ chNewline :: r, false, false⟩ =
        .ok (t, ⟨q1 ++ chNewline :: r, false, false⟩)) := by
  rcases readStringLoop_local quote hq _ q [] (le_refl _) with ⟨e, he⟩ | ⟨v, q1, hl, hok⟩
  · exact Or.inl ⟨e, fun r => by simp only [ReadString, he r]⟩
  · exact Or.inr ⟨Token.String v, q1, hl, fun r => by simp only [ReadString, hok r]⟩

theorem ReadNumber_local (c : Char) (hc : c.isDigit = true) (q : List Char) :
    (∃ e, ∀ r, ReadNumber ⟨c :: (q ++ chNewline :: r), false, false⟩ = .error e) ∨
    (∃ (t : Token) (q1 : List Char), q1.length ≤ q.length ∧
      ∀ r, ReadNumber ⟨c :: (q ++ chNewline :: r), false, false⟩ =
        .ok (t, ⟨q1 ++ chNewline :: r, false, false⟩)) := by
  have hm : c ≠ '-' := by
    rintro rfl
    exact absurd hc (by decide)
  obtain ⟨ds, q1, hl, h⟩ := takeDigits_local q
  have hstep : ∀ r, ReadNumber ⟨c :: (q ++ chNewline :: r), false, false⟩ =
      match stoi false (c :: ds) with
      | none => .error (.LexerError "Number parsing error")
      | some v => .ok (Token.Number v, ⟨q1 ++ chNewline :: r, false, false⟩) := by
    intro r
    simp only [ReadNumber, List.head?_cons, Option.some.injEq, hm, decide_False,
      Bool.false_eq_true, if_false, takeDigits, hc, if_true, h r, Bool.or_self]
  cases hs : stoi false (c :: ds) with
  | none => exact Or.inl ⟨_, fun r => by rw [hstep r, hs]⟩
  | some v => exact Or.inr ⟨Token.Number v, q1, hl, fun r => by rw [hstep r, hs]⟩

theorem ReadId_local (c : Char) (hc : isIdChar c = true) (q : List Char) :
    ∃ (t : Token) (q1 : List Char), q1.length ≤ q.length ∧
      ∀ r, ReadId ⟨c :: (q ++ chNewline :: r), false, false⟩ =
        .ok (t, ⟨q1 ++ chNewline :: r, false, false⟩) := by
  obtain ⟨cs, q1, hl, h⟩ := takeIdChars_local q
  refine ⟨keywordOrId (String.mk (c :: cs)), q1, hl, fun r => ?_⟩
  simp only [ReadId, takeIdChars, hc, if_true, h r, Bool.or_self]
  simp

theorem ReadEq_local (c d : Char) (q : List Char) :
    (∃ e, ∀ r, ReadEq ⟨c :: d :: (q ++ chNewline :: r), false, false⟩ = .error e) ∨
    (∃ t : Token, ∀ r, ReadEq ⟨c :: d :: (q ++ chNewline :: r), false, false⟩ =
        .ok (t, ⟨q ++ chNewline :: r, false, false⟩)) := by
  have hstep : ∀ r, ReadEq ⟨c :: d :: (q ++ chNewline :: r), false, false⟩ =
      if c = '=' then .ok (Token.Eq, ⟨q ++ chNewline :: r, false, false⟩)
      else if c = '!' then .ok (Token.NotEq, ⟨q ++ chNewline :: r, false, false⟩)
      else if c = '<' then .ok (Token.LessOrEq, ⟨q ++ chNewline :: r, false, false⟩)
      else if c = '>' then .ok (Token.GreaterOrEq, ⟨q ++ chNewline :: r, false, false⟩)
      else .error (.LexerError "Unknown equivalence parsing error occured") := by
    intro r
    simp [ReadEq, IStream.get, IStream.good]
  by_cases h1 : c = '='
  · exact Or.inr ⟨Token.Eq, fun r => by rw [hstep r, if_pos h1]⟩
  · by_cases h2 : c = '!'
    · exact Or.inr ⟨Token.NotEq, fun r => by rw [hstep r, if_neg h1, if_pos h2]⟩
    · by_cases h3 : c = '<'
      · exact Or.inr ⟨Token.LessOrEq, fun r => by
          rw [hstep r, if_neg h1, if_neg h2, if_pos h3]⟩
      · by_cases h4 : c = '>'
        · exact Or.inr ⟨Token.GreaterOrEq, fun r => by
            rw [hstep r, if_neg h1, if_neg h2, if_neg h3, if_pos h4]⟩
        · exact Or.inl ⟨_, fun r => by
            rw [hstep r, if_neg h1, if_neg h2, if_neg h3, if_neg h4]⟩

/-- One iteration of the loop of `ReadLine` on a good stream with two characters or more. -/
theorem ReadLineLoop_cons (fuel : Nat) (ch : Char) (rest : List Char) (toks : List Token)
    (hr : rest ≠ []) :
    ReadLineLoop (fuel + 1) ⟨ch :: rest, false, false⟩ toks =
      if ch = chNewline then .ok (toks ++ [Token.Newline], ⟨rest, false, false⟩)
      else if ch = ' ' then ReadLineLoop fuel ⟨rest, false, false⟩ toks
      else if ch = '#' then ReadLineLoop fuel (ReadComment ⟨rest, false, false⟩) toks
      else if ch = chDQuote ∨ ch = chSQuote then
        match ReadString ch ⟨rest, false, false⟩ with
        | .error e => .error e
        | .ok (t, s2) => ReadLineLoop fuel s2 (toks ++ [t])
      else if ch.isDigit then
        match ReadNumber ⟨ch :: rest, false, false⟩ with
        | .error e => .error e
        | .ok (t, s2) => ReadLineLoop fuel s2 (toks ++ [t])
      else if ch.isAlpha ∨ ch = '_' then
        match ReadId ⟨ch :: rest, false, false⟩ with
        | .error e => .error e
        | .ok (t, s2) => ReadLineLoop fuel s2 (toks ++ [t])
      else if ch = '=' ∨ ch = '!' ∨ ch = '<' ∨ ch = '>' then
        if rest.head? = some '=' then
          match ReadEq ⟨ch :: rest, false, false⟩ with
          | .error e => .error e
          | .ok (t, s3) => ReadLineLoop fuel s3 (toks ++ [t])
        else ReadLineLoop fuel ⟨rest, false, false⟩ (toks ++ [Token.Char ch])
      else ReadLineLoop fuel ⟨rest, false, false⟩ (toks ++ [Token.Char ch]) := by
  rw [ReadLineLoop]
  simp only [IStream.eof, IStream.get, IStream.good, Bool.not_false, Bool.and_self, if_true,
    Bool.false_eq_true, if_false, IStream.putback, IStream.peek]
  cases rest with
  | nil => exact absurd rfl hr
  | cons c t => rfl

end parse

namespace parse

theorem ReadLineLoop_local : ∀ (n : Nat) (q : List Char), q.length ≤ n →
    (∃ e, ∀ (r : List Char) (fuel : Nat) (toks : List Token), q.length + 1 ≤ fuel →
      ReadLineLoop fuel ⟨q ++ chNewline :: r, false, false⟩ toks = .error e) ∨
    (∃ (ts : List Token) (q1 : List Char),
      (q1 = [] ∨ ∃ q2, q1 = q2 ++ [chNewline] ∧ q2.length < q.length) ∧
      ∀ (r : List Char) (fuel : Nat) (toks : List Token), q.length + 1 ≤ fuel →
        ReadLineLoop fuel ⟨q ++ chNewline :: r, false, false⟩ toks =
          .ok (toks ++ ts, ⟨q1 ++ r, false, false⟩)) := by
  intro n
  induction n with
  | zero =>
    intro q hn
    have hq0 : q = [] := List.length_eq_zero.1 (Nat.le_zero.1 hn)
    subst hq0
    right
    refine ⟨[Token.Newline], [], Or.inl rfl, fun r fuel toks hf => ?_⟩
    obtain ⟨f, rfl⟩ : ∃ f, fuel = f + 1 := ⟨fuel - 1, by simp at hf; omega⟩
    simp [ReadLineLoop, IStream.eof, IStream.get, IStream.good]
  | succ n ih =>
    intro q hn
    cases q with
    | nil =>
      right
      refine ⟨[Token.Newline], [], Or.inl rfl, fun r fuel toks hf => ?_⟩
      obtain ⟨f, rfl⟩ : ∃ f, fuel = f + 1 := ⟨fuel - 1, by simp at hf; omega⟩
      simp [ReadLineLoop, IStream.eof, IStream.get, IStream.good]
    | cons c t =>
      simp only [List.length_cons, Nat.add_le_add_iff_right] at hn
      have hne : ∀ r : List Char, t ++ chNewline :: r ≠ [] := fun r => by simp
      have lift : ∀ (q0 : List Char) (tk : List Token), q0.length ≤ t.length →
          (∀ (r : List Char) (f : Nat) (toks : List Token),
            ReadLineLoop (f + 1) ⟨c :: (t ++ chNewline :: r), false, false⟩ toks =
              ReadLineLoop f ⟨q0 ++ chNewline :: r, false, false⟩ (toks ++ tk)) →
          (∃ e, ∀ (r : List Char) (fuel : Nat) (toks : List Token),
            (c :: t).length + 1 ≤ fuel →
            ReadLineLoop fuel ⟨c :: t ++ chNewline :: r, false, false⟩ toks = .error e) ∨
          (∃ (ts : List Token) (q1 : List Char),
            (q1 = [] ∨ ∃ q2, q1 = q2 ++ [chNewline] ∧ q2.length < (c :: t).length) ∧
            ∀ (r : List Char) (fuel : Nat) (toks : List Token), (c :: t).length + 1 ≤ fuel →
              ReadLineLoop fuel ⟨c :: t ++ chNewline :: r, false, false⟩ toks =
                .ok (toks ++ ts, ⟨q1 ++ r, false, false⟩)) := by
        intro q0 tk hl hstep
        rcases ih q0 (le_trans hl hn) with ⟨e, he⟩ | ⟨ts, q1, hrem, hok⟩
        · left
          refine ⟨e, fun r fuel toks hf => ?_⟩
          simp only [List.length_cons] at hf
          obtain ⟨f, rfl⟩ : ∃ f, fuel = f + 1 := ⟨fuel - 1, by omega⟩
          rw [List.cons_append, hstep r f toks, he r f _ (by omega)]
        · right
          refine ⟨tk ++ ts, q1, ?_, fun r fuel toks hf => ?_⟩
          · rcases hrem with h | ⟨q2, h, hlt⟩
            · exact Or.inl h
            · exact Or.inr ⟨q2, h, by simp only [List.length_cons]; omega⟩
          · simp only [List.length_cons] at hf
            obtain ⟨f, rfl⟩ : ∃ f, fuel = f + 1 := ⟨fuel - 1, by omega⟩
            rw [List.cons_append, hstep r f toks, hok r f _ (by omega), List.append_assoc]
      by_cases h1 : c = chNewline
      · right
        refine ⟨[Token.Newline], t ++ [chNewline], Or.inr ⟨t, rfl, by simp⟩,
          fun r fuel toks hf => ?_⟩
        obtain ⟨f, rfl⟩ : ∃ f, fuel = f + 1 := ⟨fuel - 1, by simp at hf; omega⟩
        rw [List.cons_append, ReadLineLoop_cons f c _ toks (hne r), if_pos h1]
        simp
      by_cases h2 : c = ' '
      · refine lift t [] (le_refl _) (fun r f toks => ?_)
        rw [ReadLineLoop_cons f c _ toks (hne r), if_neg h1, if_pos h2, List.append_nil]
      by_cases h3 : c = '#'
      · obtain ⟨q1, hl, h⟩ := ReadComment_local t
        refine lift q1 [] hl (fun r f toks => ?_)
        rw [ReadLineLoop_cons f c _ toks (hne r), if_neg h1, if_neg h2, if_pos h3, h r,
          List.append_nil]
      by_cases h4 : c = chDQuote ∨ c = chSQuote
      · rcases ReadString_local c h1 t with ⟨e, he⟩ | ⟨tok, q1, hl, hok⟩
        · left
          refine ⟨e, fun r fuel toks hf => ?_⟩
          obtain ⟨f, rfl⟩ : ∃ f, fuel = f + 1 := ⟨fuel - 1, by simp at hf; omega⟩
          rw [List.cons_append, ReadLineLoop_cons f c _ toks (hne r), if_neg h1, if_neg h2,
            if_neg h3, if_pos h4, he r]
        · refine lift q1 [tok] hl (fun r f toks => ?_)
          rw [ReadLineLoop_cons f c _ toks (hne r), if_neg h1, if_neg h2, if_neg h3, if_pos h4,
            hok r]
      by_cases h5 : c.isDigit = true
      · rcases ReadNumber_local c h5 t with ⟨e, he⟩ | ⟨tok, q1, hl, hok⟩
        · left
          refine ⟨e, fun r fuel toks hf => ?_⟩
          obtain ⟨f, rfl⟩ : ∃ f, fuel = f + 1 := ⟨fuel - 1, by simp at hf; omega⟩
          rw [List.cons_append, ReadLineLoop_cons f c _ toks (hne r), if_neg h1, if_neg h2,
            if_neg h3, if_neg h4, if_pos h5, he r]
        · refine lift q1 [tok] hl (fun r f toks => ?_)
          rw [ReadLineLoop_cons f c _ toks (hne r), if_neg h1, if_neg h2, if_neg h3, if_neg h4,
            if_pos h5, hok r]
      by_cases h6 : c.isAlpha = true ∨ c = '_'
      · have hid : isIdChar c = true := by
          unfold isIdChar
          rcases h6 with h | h
          · simp [h]
          · simp [h]
        obtain ⟨tok, q1, hl, hok⟩ := ReadId_local c hid t
        refine lift q1 [tok] hl (fun r f toks => ?_)
        rw [ReadLineLoop_cons f c _ toks (hne r), if_neg h1, if_neg h2, if_neg h3, if_neg h4,
          if_neg h5, if_pos h6, hok r]
      by_cases h7 : c = '=' ∨ c = '!' ∨ c = '<' ∨ c = '>'
      · cases t with
        | nil =>
          refine lift [] [Token.Char c] (le_refl _) (fun r f toks => ?_)
          rw [ReadLineLoop_cons f c _ toks (hne r), if_neg h1, if_neg h2, if_neg h3, if_neg h4,
            if_neg h5, if_neg h6, if_pos h7, List.nil_append, List.head?_cons,
            if_neg (by simp only [Option.some.injEq]; decide)]
        | cons d t1 =>
          by_cases h8 : d = '='
          · rcases ReadEq_local c d t1 with ⟨e, he⟩ | ⟨tok, hok⟩
            · left
              refine ⟨e, fun r fuel toks hf => ?_⟩
              obtain ⟨f, rfl⟩ : ∃ f, fuel = f + 1 := ⟨fuel - 1, by simp at hf; omega⟩
              rw [List.cons_append, ReadLineLoop_cons f c _ toks (hne r), if_neg h1, if_neg h2,
                if_neg h3, if_neg h4, if_neg h5, if_neg h6, if_pos h7, List.cons_append,
                List.head?_cons, if_pos (by rw [h8]), he r]
            · refine lift t1 [tok] (by simp) (fun r f toks => ?_)
              rw [ReadLineLoop_cons f c _ toks (hne r), if_neg h1, if_neg h2, if_neg h3,
                if_neg h4, if_neg h5, if_neg h6, if_pos h7, List.cons_append, List.head?_cons,
                if_pos (by rw [h8]), hok r]
          · refine lift (d :: t1) [Token.Char c] (le_refl _) (fun r f toks => ?_)
            rw [ReadLineLoop_cons f c _ toks (hne r), if_neg h1, if_neg h2, if_neg h3,
              if_neg h4, if_neg h5, if_neg h6, if_pos h7, List.cons_append, List.head?_cons,
              if_neg (by simp only [Option.some.injEq]; exact h8)]
      · refine lift t [Token.Char c] (le_refl _) (fun r f toks => ?_)
        rw [ReadLineLoop_cons f c _ toks (hne r), if_neg h1, if_neg h2, if_neg h3, if_neg h4,
          if_neg h5, if_neg h6, if_neg h7]

end parse

namespace parse

theorem ReadLine_local (q : List Char) :
    (∃ e, ∀ r, ReadLine ⟨q ++ chNewline :: r, false, false⟩ = .error e) ∨
    (∃ (tl : TokenLine) (q1 : List Char),
      (q1 = [] ∨ ∃ q2, q1 = q2 ++ [chNewline] ∧ q2.length < q.length) ∧
      ∀ r, ReadLine ⟨q ++ chNewline :: r, false, false⟩ =
        .ok (tl, ⟨q1 ++ r, false, false⟩)) := by
  obtain ⟨n, q0, hl0, hc⟩ := countSpaces_local q
  have hci : ∀ r, CountIndents ⟨q ++ chNewline :: r, false, false⟩ =
      if n % 2 ≠ 0 then .error (.LexerError "Wrong indents number")
      else .ok (n / 2, ⟨q0 ++ chNewline :: r, false, false⟩) := by
    intro r
    simp only [CountIndents, hc r, Bool.or_self]
  by_cases hodd : n % 2 ≠ 0
  · left
    refine ⟨.LexerError "Wrong indents number", fun r => ?_⟩
    simp only [ReadLine, IStream.good, Bool.not_false, Bool.and_self, if_true, hci r,
      if_pos hodd]
  · rcases ReadLineLoop_local _ q0 (le_refl _) with ⟨e, he⟩ | ⟨ts, q1, hrem, hok⟩
    · left
      refine ⟨e, fun r => ?_⟩
      simp only [ReadLine, IStream.good, Bool.not_false, Bool.and_self, if_true, hci r,
        if_neg hodd]
      rw [he r _ [] (by simp)]
    · right
      refine ⟨⟨n / 2, ts⟩, q1, ?_, fun r => ?_⟩
      · rcases hrem with h | ⟨q2, h, hlt⟩
        · exact Or.inl h
        · exact Or.inr ⟨q2, h, lt_of_lt_of_le hlt hl0⟩
      · simp only [ReadLine, IStream.good, Bool.not_false, Bool.and_self, if_true, hci r,
          if_neg hodd]
        rw [hok r _ [] (by simp)]
        simp [finishLine, IStream.eof]

theorem countSpaces_dropWhile (b r : List Char) :
    countSpaces (b ++ chNewline :: r) =
      (leadingSpaces b, b.dropWhile (fun c => c = ' ') ++ chNewline :: r, false) := by
  induction b with
  | nil => simp [countSpaces, leadingSpaces, show chNewline ≠ ' ' by decide]
  | cons c t ih =>
    by_cases hc : c = ' '
    · rw [List.cons_append, countSpaces, if_pos hc, ih]
      simp [leadingSpaces, hc]
    · simp [countSpaces, leadingSpaces, hc]

theorem skipComment_line (q r : List Char) (h : q.all (fun x => x ≠ chNewline) = true) :
    skipComment (q ++ chNewline :: r) = some r := by
  induction q with
  | nil => simp [skipComment]
  | cons c t ih =>
    simp only [List.all_cons, Bool.and_eq_true, decide_eq_true_eq] at h
    rw [List.cons_append, skipComment, if_neg h.1]
    exact ih h.2

/-- A blank line ended by a newline is read as a line with the single token `Newline`. -/
theorem ReadLine_blank (b : List Char) (hb : isBlankLine b = true) (r : List Char) :
    ReadLine ⟨b ++ chNewline :: r, false, false⟩ =
      .ok (⟨leadingSpaces b / 2, [Token.Newline]⟩, ⟨r, false, false⟩) := by
  unfold isBlankLine at hb
  simp only [Bool.and_eq_true, decide_eq_true_eq] at hb
  obtain ⟨heven, hrest⟩ := hb
  have hci : CountIndents ⟨b ++ chNewline :: r, false, false⟩ =
      .ok (leadingSpaces b / 2,
        ⟨b.dropWhile (fun c => c = ' ') ++ chNewline :: r, false, false⟩) := by
    simp only [CountIndents, countSpaces_dropWhile, Bool.or_self]
    rw [if_neg (by omega)]
  simp only [ReadLine, IStream.good, Bool.not_false, Bool.and_self, if_true, hci]
  cases hd : b.dropWhile (fun c => c = ' ') with
  | nil =>
    simp [ReadLineLoop, IStream.eof, IStream.get, IStream.good, finishLine]
  | cons c t =>
    rw [hd] at hrest
    simp only [Bool.and_eq_true, decide_eq_true_eq] at hrest
    obtain ⟨hc, hall⟩ := hrest
    subst hc
    have hcm : ReadComment ⟨t ++ chNewline :: r, false, false⟩ =
        ⟨chNewline :: r, false, false⟩ := by
      simp [ReadComment, skipComment_line t r hall, IStream.putback]
    simp only [List.cons_append, List.length_cons]
    rw [ReadLineLoop_cons _ '#' _ [] (by simp), if_neg (by decide), if_neg (by decide),
      if_pos rfl, hcm]
    simp only [List.length_append, List.length_cons]
    rw [show t.length + (r.length + 1) + 1 = (t.length + r.length + 1) + 1 by omega]
    simp [ReadLineLoop, IStream.eof, IStream.get, IStream.good, finishLine]

end parse

namespace parse

theorem pullLine_inserted (b post : List Char) (hb : isBlankLine b = true) :
    ∀ (n : Nat) (p : List Char), p.length ≤ n → WholeLines p → ∀ (fA fB : Nat),
    (p ++ b ++ chNewline :: post).length + 1 ≤ fA → (p ++ post).length + 1 ≤ fB →
    (∃ e, pullLine fA ⟨p ++ b ++ chNewline :: post, false, false⟩ = .error e ∧
      pullLine fB ⟨p ++ post, false, false⟩ = .error e) ∨
    (∃ (tl : TokenLine) (sA sB : IStream),
      pullLine fA ⟨p ++ b ++ chNewline :: post, false, false⟩ = .ok (tl, sA) ∧
      pullLine fB ⟨p ++ post, false, false⟩ = .ok (tl, sB) ∧ Inserted b post sA sB) := by
  have base : ∀ (fA fB : Nat), (b ++ chNewline :: post).length + 1 ≤ fA →
      post.length + 1 ≤ fB →
      (∃ e, pullLine fA ⟨b ++ chNewline :: post, false, false⟩ = .error e ∧
        pullLine fB ⟨post, false, false⟩ = .error e) ∨
      (∃ (tl : TokenLine) (sA sB : IStream),
        pullLine fA ⟨b ++ chNewline :: post, false, false⟩ = .ok (tl, sA) ∧
        pullLine fB ⟨post, false, false⟩ = .ok (tl, sB) ∧ Inserted b post sA sB) := by
    intro fA fB hA hB
    simp only [List.length_append, List.length_cons] at hA
    obtain ⟨gA, rfl⟩ : ∃ g, fA = g + 1 := ⟨fA - 1, by omega⟩
    have h1 : pullLine (gA + 1) ⟨b ++ chNewline :: post, false, false⟩ =
        pullLine fB ⟨post, false, false⟩ := by
      rw [pullLine, ReadLine_blank b hb post]
      simp only [TokenLine.IsEmpty, List.isEmpty_cons, List.all_cons, decide_True, List.all_nil,
        Bool.and_self, Bool.or_true, if_true]
      exact pullLine_fuel post.length _ gA fB rfl (le_refl _) (by omega) hB
    rw [h1]
    cases hr : pullLine fB ⟨post, false, false⟩ with
    | error e => exact Or.inl ⟨e, rfl, rfl⟩
    | ok x =>
      obtain ⟨tl, s⟩ := x
      exact Or.inr ⟨tl, s, s, rfl, rfl, Or.inl rfl⟩
  intro n
  induction n with
  | zero =>
    intro p hn hw fA fB hA hB
    have hp0 : p = [] := List.length_eq_zero.1 (Nat.le_zero.1 hn)
    subst hp0
    simp only [List.nil_append] at hA hB ⊢
    exact base fA fB hA hB
  | succ n ih =>
    intro p hn hw fA fB hA hB
    rcases hw with hp0 | ⟨p0, hp⟩
    · subst hp0
      simp only [List.nil_append] at hA hB ⊢
      exact base fA fB hA hB
    · subst hp
      simp only [List.length_append, List.length_cons, List.length_nil] at hn hA hB
      obtain ⟨gA, rfl⟩ : ∃ g, fA = g + 1 := ⟨fA - 1, by omega⟩
      obtain ⟨gB, rfl⟩ : ∃ g, fB = g + 1 := ⟨fB - 1, by omega⟩
      have eA : p0 ++ [chNewline] ++ b ++ chNewline :: post =
          p0 ++ chNewline :: (b ++ chNewline :: post) := by simp
      have eB : p0 ++ [chNewline] ++ post = p0 ++ chNewline :: post := by simp
      rw [eA, eB, pullLine, pullLine]
      rcases ReadLine_local p0 with ⟨e, he⟩ | ⟨tl, q1, hrem, hok⟩
      · rw [he, he]
        exact Or.inl ⟨e, rfl, rfl⟩
      · rw [hok, hok]
        simp only
        have hq1 : q1.length ≤ p0.length ∧ WholeLines q1 := by
          rcases hrem with h | ⟨q2, h, hlt⟩
          · subst h
            exact ⟨Nat.zero_le _, Or.inl rfl⟩
          · subst h
            refine ⟨?_, Or.inr ⟨q2, rfl⟩⟩
            simp only [List.length_append, List.length_cons, List.length_nil]
            omega
        cases hemp : tl.IsEmpty with
        | true =>
          simp only [if_true]
          have := ih q1 (by omega) hq1.2 gA gB
            (by simp only [List.length_append, List.length_cons]; omega)
            (by simp only [List.length_append]; omega)
          simpa only [List.append_assoc] using this
        | false =>
          simp only [Bool.false_eq_true, if_false]
          exact Or.inr ⟨tl, _, _, rfl, rfl,
            Or.inr ⟨q1, hq1.2, by simp only [List.append_assoc], rfl⟩⟩

end parse

namespace parse

theorem NextToken_inserted (b post : List Char) (hb : isBlankLine b = true) (LA LB : Lexer)
    (h : LexSim b post LA LB) :
    (∃ e, NextToken LA = .error e ∧ NextToken LB = .error e) ∨
    (∃ (t : Token) (LA1 LB1 : Lexer), NextToken LA = .ok (t, LA1) ∧
      NextToken LB = .ok (t, LB1) ∧ LexSim b post LA1 LB1) := by
  obtain ⟨ht, hp, hi, hin⟩ := h
  cases LA with
  | mk sA iA pA tA =>
  cases LB with
  | mk sB iB pB tB =>
  simp only at ht hp hi hin
  subst ht; subst hp; subst hi
  rcases hin with heq | ⟨p, hw, hA, hB⟩
  · subst heq
    cases hn : NextToken ⟨sA, iA, pA, tA⟩ with
    | error e => exact Or.inl ⟨e, rfl, rfl⟩
    | ok x =>
      obtain ⟨t, L1⟩ := x
      exact Or.inr ⟨t, L1, L1, rfl, rfl, rfl, rfl, rfl, Or.inl rfl⟩
  · subst hA; subst hB
    unfold NextToken
    simp only
    by_cases c1 : pA + 1 < (tA.length : Int)
    · rw [if_pos c1, if_pos c1]
      cases tokenAt tA (pA + 1) with
      | error e => exact Or.inl ⟨e, rfl, rfl⟩
      | ok t => exact Or.inr ⟨t, _, _, rfl, rfl, rfl, rfl, rfl, Or.inr ⟨p, hw, rfl, rfl⟩⟩
    · rw [if_neg c1, if_neg c1]
      by_cases c2 : tA ≠ [] ∧ tA.getLast? = some Token.Eof
      · rw [if_pos c2, if_pos c2]
        exact Or.inr ⟨_, _, _, rfl, rfl, rfl, rfl, rfl, Or.inr ⟨p, hw, rfl, rfl⟩⟩
      · rw [if_neg c2, if_neg c2]
        rcases pullLine_inserted b post hb _ p (le_refl _) hw _ _ (le_refl _) (le_refl _) with
          ⟨e, hAe, hBe⟩ | ⟨tl, sA1, sB1, hA1, hB1, hI⟩
        · rw [hAe, hBe]
          exact Or.inl ⟨e, rfl, rfl⟩
        · rw [hA1, hB1]
          simp only [(UpdateIndent_spec _ _).1, (UpdateIndent_spec _ _).2.2.2]
          cases tokenAt (tA ++ indentTokens iA tl.line_indent ++ tl.tokens) (pA + 1) with
          | error e => exact Or.inl ⟨e, rfl, rfl⟩
          | ok t =>
            refine Or.inr ⟨t, _, _, rfl, rfl, rfl, rfl, ?_, ?_⟩
            · simp only [(UpdateIndent_spec _ _).2.1]
            · simp only [(UpdateIndent_spec _ _).2.2.1]
              exact hI

theorem drain_inserted (b post : List Char) (hb : isBlankLine b = true) :
    ∀ (n : Nat) (LA LB : Lexer), LexSim b post LA LB → drain n LA = drain n LB := by
  intro n
  induction n with
  | zero => intro LA LB _; rfl
  | succ n ih =>
    intro LA LB h
    rw [drain, drain]
    simp only [CurrentToken, h.1, h.2.1]
    cases tokenAt LB.tokens LB.current_pos with
    | error e => rfl
    | ok t =>
      simp only
      by_cases ht : t = Token.Eof
      · rw [if_pos ht, if_pos ht]
      · rw [if_neg ht, if_neg ht]
        rcases NextToken_inserted b post hb LA LB h with
          ⟨e, hAe, hBe⟩ | ⟨t1, LA1, LB1, hA1, hB1, hs⟩
        · rw [hAe, hBe]
        · rw [hA1, hB1]
          exact ih LA1 LB1 hs

theorem drain_mono (n : Nat) : ∀ (L : Lexer) (res : Except LexFailure (List Token)) (m : Nat),
    drain n L = res → res ≠ .error .Diverges → n ≤ m → drain m L = res := by
  induction n with
  | zero =>
    intro L res m h hne _
    exact absurd h.symm hne
  | succ n ih =>
    intro L res m h hne hm
    obtain ⟨k, rfl⟩ : ∃ k, m = k + 1 := ⟨m - 1, by omega⟩
    rw [drain] at h ⊢
    cases hc : CurrentToken L with
    | error e => rw [hc] at h; exact h
    | ok t =>
      rw [hc] at h
      simp only at h ⊢
      by_cases ht : t = Token.Eof
      · rw [if_pos ht] at h ⊢; exact h
      · rw [if_neg ht] at h ⊢
        cases hn : NextToken L with
        | error e => rw [hn] at h; exact h
        | ok x =>
          obtain ⟨t1, L1⟩ := x
          rw [hn] at h
          exact ih L1 res k h hne (by omega)

theorem TokenizeFuel_inserted (pre b post : List Char) (hp : WholeLines pre)
    (hb : isBlankLine b = true) (n : Nat) :
    TokenizeFuel n (String.mk (pre ++ b ++ chNewline :: post)) =
      TokenizeFuel n (String.mk (pre ++ post)) := by
  unfold TokenizeFuel Lexer.create
  have hs : LexSim b post ⟨IStream.ofChars (pre ++ b ++ chNewline :: post), 0, -1, []⟩
      ⟨IStream.ofChars (pre ++ post), 0, -1, []⟩ :=
    ⟨rfl, rfl, rfl, Or.inr ⟨pre, hp, rfl, rfl⟩⟩
  rcases NextToken_inserted b post hb _ _ hs with ⟨e, hAe, hBe⟩ | ⟨t1, LA1, LB1, hA1, hB1, hs1⟩
  · simp only [hAe, hBe]
  · simp only [hA1, hB1]
    exact drain_inserted b post hb n LA1 LB1 hs1

theorem TokenizeFuel_mono (input : String) (n m : Nat) (res : Except LexFailure (List Token))
    (h : TokenizeFuel n input = res) (hne : res ≠ .error .Diverges) (hm : n ≤ m) :
    TokenizeFuel m input = res := by
  unfold TokenizeFuel at h ⊢
  cases hc : Lexer.create (IStream.ofChars input.data) with
  | error e => rw [hc] at h; exact h
  | ok L =>
    rw [hc] at h
    exact drain_mono n L res m h hne hm

end parse

namespace parse

theorem countSpaces_all (b : List Char) :
    countSpaces b = (leadingSpaces b, b.dropWhile (fun c => c = ' '),
      decide (b.dropWhile (fun c => c = ' ') = [])) := by
  induction b with
  | nil => simp [countSpaces, leadingSpaces]
  | cons c t ih =>
    by_cases hc : c = ' '
    · rw [countSpaces, if_pos hc, ih]
      simp [leadingSpaces, hc]
    · simp [countSpaces, leadingSpaces, hc]

theorem skipComment_none (q : List Char) (h : q.all (fun x => x ≠ chNewline) = true) :
    skipComment q = none := by
  induction q with
  | nil => rfl
  | cons c t ih =>
    simp only [List.all_cons, Bool.and_eq_true, decide_eq_true_eq] at h
    rw [skipComment, if_neg h.1]
    exact ih h.2

/-- A blank line ended by the end of the input is read as a line with the single token
`Eof`, which is not an empty line. -/
theorem ReadLine_blank_eof (b : List Char) (hb : isBlankLine b = true) :
    ∃ s1, ReadLine ⟨b, false, false⟩ = .ok (⟨leadingSpaces b / 2, [Token.Eof]⟩, s1) := by
  unfold isBlankLine at hb
  simp only [Bool.and_eq_true, decide_eq_true_eq] at hb
  obtain ⟨heven, hrest⟩ := hb
  have hci : CountIndents ⟨b, false, false⟩ =
      .ok (leadingSpaces b / 2, ⟨b.dropWhile (fun c => c = ' '),
        decide (b.dropWhile (fun c => c = ' ') = []), false⟩) := by
    simp only [CountIndents, countSpaces_all, Bool.false_or]
    rw [if_neg (by omega)]
  simp only [ReadLine, IStream.good, Bool.not_false, Bool.and_self, if_true, hci]
  cases hd : b.dropWhile (fun c => c = ' ') with
  | nil =>
    exact ⟨⟨[], true, false⟩, by simp [ReadLineLoop, IStream.eof, finishLine]⟩
  | cons c t =>
    rw [hd] at hrest
    simp only [Bool.and_eq_true, decide_eq_true_eq] at hrest
    obtain ⟨hc, hall⟩ := hrest
    subst hc
    have hcm : ReadComment ⟨t, false, false⟩ = ⟨[], true, true⟩ := by
      simp [ReadComment, skipComment_none t hall]
    have hstep : ReadLineLoop (t.length + 1 + 1) ⟨'#' :: t, false, false⟩ [] =
        ReadLineLoop (t.length + 1) (ReadComment ⟨t, false, false⟩) [] := by
      rw [ReadLineLoop]
      simp [IStream.eof, IStream.get, IStream.good, show ('#' : Char) ≠ chNewline by decide]
    have hend : ReadLineLoop (t.length + 1) ⟨[], true, true⟩ [] =
        .ok ([], ⟨[], true, true⟩) := by
      simp [ReadLineLoop, IStream.eof]
    refine ⟨⟨[], true, true⟩, ?_⟩
    simp only [List.length_cons, reduceCtorEq, decide_False]
    rw [hstep, hcm, hend]
    simp [IStream.eof, finishLine]

end parse

namespace parse

/-- Claim C19, with its failing input. A line that contains only spaces and/or a comment,
with an even number of leading spaces, and that is ended by a newline is discarded entirely,
wherever it occurs, as the claim says: it is read as a line with the single token `Newline`
(first conjunct), the loop of `NextToken` goes on with the next line without looking at its
depth (second conjunct), and lexing an input with such a line added after whole lines yields
the same token stream as lexing it without the line, whatever the number of calls of
`NextToken` (third conjunct) and for the complete stream (fourth conjunct). The claim asks
the same of such a line ended by the end of the input, and there the code fails it (fifth
conjunct): the input `x`, newline, lexes to `Id`, `Newline`, `Eof`, and so it does with the
line of two spaces added and ended by a newline; with that line added and ended by the end
of the input, or with a comment on it, the token stream is `Id`, `Newline`, `Indent`, `Eof`:
the depth of the blank line has been recorded, and the `Indent` is closed by no `Dedent`. -/
theorem blank_line_discarded (pre b post : List Char) (hp : WholeLines pre)
    (hb : isBlankLine b = true) :
    (∀ r, ReadLine ⟨b ++ chNewline :: r, false, false⟩ =
      .ok (⟨leadingSpaces b / 2, [Token.Newline]⟩, ⟨r, false, false⟩)) ∧
    (∀ (f : Nat) (r : List Char), pullLine (f + 1) ⟨b ++ chNewline :: r, false, false⟩ =
      pullLine f ⟨r, false, false⟩) ∧
    (∀ n, TokenizeFuel n (String.mk (pre ++ b ++ chNewline :: post)) =
      TokenizeFuel n (String.mk (pre ++ post))) ∧
    (∀ res, Tokenize (String.mk (pre ++ post)) = res → res ≠ .error .Diverges →
      Tokenize (String.mk (pre ++ b ++ chNewline :: post)) = res) ∧
    (isBlankLine [' ', ' '] = true ∧ isBlankLine [' ', ' ', '#', 'c'] = true ∧
      Tokenize "x\n" = .ok [Token.Id "x", Token.Newline, Token.Eof] ∧
      Tokenize "x\n  \n" = .ok [Token.Id "x", Token.Newline, Token.Eof] ∧
      Tokenize "x\n  " = .ok [Token.Id "x", Token.Newline, Token.Indent, Token.Eof] ∧
      Tokenize "x\n  #c" = .ok [Token.Id "x", Token.Newline, Token.Indent, Token.Eof]) := by
  refine ⟨ReadLine_blank b hb, fun f r => ?_, TokenizeFuel_inserted pre b post hp hb,
    fun res h hne => ?_, ⟨rfl, rfl, rfl, rfl, rfl, rfl⟩⟩
  · rw [pullLine, ReadLine_blank b hb r]
    rfl
  · have h1 : TokenizeFuel (2 * (String.mk (pre ++ post)).length + 4)
        (String.mk (pre ++ post)) = res := h
    have h2 := TokenizeFuel_mono _ _
      (2 * (String.mk (pre ++ b ++ chNewline :: post)).length + 4) res h1 hne
      (by simp only [String.length_mk, List.length_append, List.length_cons]; omega)
    rw [← TokenizeFuel_inserted pre b post hp hb] at h2
    exact h2

/-- Witness for C19: the comment line of depth one added between the lines `x` and `y` of
depth zero: the token stream is that of the two lines. -/
theorem blank_line_discarded_witness :
    WholeLines ['x', chNewline] ∧ isBlankLine [' ', ' ', '#', 'c'] = true ∧
    Tokenize (String.mk (['x', chNewline] ++ ['y', chNewline])) =
      .ok [Token.Id "x", Token.Newline, Token.Id "y", Token.Newline, Token.Eof] ∧
    Tokenize (String.mk (['x', chNewline] ++ [' ', ' ', '#', 'c'] ++
        chNewline :: ['y', chNewline])) =
      .ok [Token.Id "x", Token.Newline, Token.Id "y", Token.Newline, Token.Eof] :=
  ⟨Or.inr ⟨['x'], rfl⟩, rfl, rfl,
    (blank_line_discarded ['x', chNewline] [' ', ' ', '#', 'c'] ['y', chNewline]
      (Or.inr ⟨['x'], rfl⟩) rfl).2.2.2.1 _ rfl (fun h => Except.noConfusion h)⟩

end parse

namespace parse

/-! ## The tokens of a line -/

theorem ite_own {c : Prop} [Decidable c] {a b : Token} (ha : isOwnToken a = true)
    (hb : isOwnToken b = true) : isOwnToken (if c then a else b) = true := by
  by_cases hc : c
  · rw [if_pos hc]; exact ha
  · rw [if_neg hc]; exact hb

theorem keywordOrId_own (id : String) : isOwnToken (keywordOrId id) = true := by
  unfold keywordOrId
  repeat' apply ite_own
  all_goals rfl

theorem ReadString_own {q : Char} {s s2 : IStream} {t : Token}
    (h : ReadString q s = .ok (t, s2)) : isOwnToken t = true := by
  unfold ReadString at h
  split at h
  · simp at h
  · simp only [Except.ok.injEq, Prod.mk.injEq] at h
    rw [← h.1]
    rfl

theorem stoi_nonneg {ds : List Char} {v : Int} (h : stoi false ds = some v) :
    v = (digitsValue ds : Int) ∧ digitsValue ds ≤ 2147483647 ∧ ds ≠ [] := by
  simp only [stoi, Bool.false_eq_true, if_false] at h
  split_ifs at h with h1 h2
  simp only [Option.some.injEq] at h
  exact ⟨h.symm, h2, h1⟩

theorem ReadNumber_own {s s2 : IStream} {t : Token} (hm : s.rest.head? ≠ some '-')
    (h : ReadNumber s = .ok (t, s2)) : isOwnToken t = true := by
  unfold ReadNumber at h
  simp only [hm, decide_False, Bool.false_eq_true, if_false] at h
  split at h
  · simp at h
  · rename_i v hv
    simp only [Except.ok.injEq, Prod.mk.injEq] at h
    rw [← h.1, (stoi_nonneg hv).1]
    simp [isOwnToken]

theorem ReadId_own {s s2 : IStream} {t : Token} (h : ReadId s = .ok (t, s2)) :
    isOwnToken t = true := by
  unfold ReadId at h
  split at h
  split at h
  · simp at h
  · simp only [Except.ok.injEq, Prod.mk.injEq] at h
    rw [← h.1]
    exact keywordOrId_own _

theorem ReadEq_own {s s2 : IStream} {t : Token} (h : ReadEq s = .ok (t, s2)) :
    isOwnToken t = true := by
  unfold ReadEq at h
  split at h
  split at h
  repeat' split at h
  all_goals first
    | (simp at h; done)
    | (simp only [Except.ok.injEq, Prod.mk.injEq] at h
       rw [← h.1]
       rfl)

theorem ReadLineLoop_own (fuel : Nat) :
    ∀ (s : IStream) (toks toks1 : List Token) (s1 : IStream),
    s.sane → ReadLineLoop fuel s toks = .ok (toks1, s1) →
    ∃ own : List Token, (∀ t ∈ own, isOwnToken t = true) ∧
      ((toks1 = toks ++ own ∧ s1.eofbit = true) ∨
       (toks1 = toks ++ own ++ [Token.Newline] ∧ s1.good = true)) := by
  induction fuel with
  | zero => intro s toks toks1 s1 _ h; simp [ReadLineLoop] at h
  | succ n ih =>
    intro s toks toks1 s1 hs h
    have step : ∀ (s2 : IStream) (t : Token), s2.sane → isOwnToken t = true →
        ReadLineLoop n s2 (toks ++ [t]) = .ok (toks1, s1) →
        ∃ own : List Token, (∀ t ∈ own, isOwnToken t = true) ∧
          ((toks1 = toks ++ own ∧ s1.eofbit = true) ∨
           (toks1 = toks ++ own ++ [Token.Newline] ∧ s1.good = true)) := by
      intro s2 t hs2 ht h2
      obtain ⟨own, ho, hr⟩ := ih s2 _ toks1 s1 hs2 h2
      refine ⟨t :: own, ?_, ?_⟩
      · intro x hx
        rcases List.mem_cons.1 hx with e | e
        · rw [e]; exact ht
        · exact ho x e
      · rcases hr with ⟨a, b⟩ | ⟨a, b⟩
        · exact Or.inl ⟨by rw [a]; simp, b⟩
        · exact Or.inr ⟨by rw [a]; simp, b⟩
    rw [ReadLineLoop] at h
    split at h
    · rename_i heof
      simp only [Except.ok.injEq, Prod.mk.injEq] at h
      obtain ⟨e1, e2⟩ := h
      subst e1; subst e2
      exact ⟨[], by simp, Or.inl ⟨by simp, by simpa [IStream.eof] using heof⟩⟩
    · rename_i heof
      have hne : s.eofbit = false := by
        simpa [IStream.eof] using heof
      have hg : s.good = true := IStream.good_of_sane hs hne
      split at h
      · rename_i sg hget
        simp only [Except.ok.injEq, Prod.mk.injEq] at h
        obtain ⟨e1, e2⟩ := h
        subst e1; subst e2
        refine ⟨[], by simp, Or.inl ⟨by simp, ?_⟩⟩
        unfold IStream.get at hget
        rw [if_pos hg] at hget
        split at hget
        · simp only [Prod.mk.injEq, true_and] at hget
          rw [← hget]
        · simp at hget
      · rename_i ch sg hget
        obtain ⟨_, hg1, hr⟩ := IStream.get_some hget
        split at h
        · simp only [Except.ok.injEq, Prod.mk.injEq] at h
          obtain ⟨e1, e2⟩ := h
          subst e1; subst e2
          exact ⟨[], by simp, Or.inr ⟨by simp, hg1⟩⟩
        · split at h
          · exact ih _ _ _ _ (IStream.sane_of_good hg1) h
          · split at h
            · exact ih _ _ _ _ (ReadComment_sane hg1) h
            · split at h
              · split at h
                · simp at h
                · rename_i t s2 hrd
                  exact step _ _ (ReadString_spec hg1 hrd).1 (ReadString_own hrd) h
              · split at h
                · rename_i hdig
                  split at h
                  · simp at h
                  · rename_i t s2 hrd
                    have hm : (sg.putback ch).rest.head? ≠ some '-' := by
                      rw [(IStream.putback_good ch hg1).2]
                      simp only [List.head?_cons, ne_eq, Option.some.injEq]
                      rintro rfl
                      exact absurd hdig (by decide)
                    exact step _ _ (ReadNumber_spec (IStream.putback_good ch hg1).1 hrd).1
                      (ReadNumber_own hm hrd) h
                · split at h
                  · split at h
                    · simp at h
                    · rename_i t s2 hrd
                      exact step _ _ (ReadId_spec (IStream.putback_good ch hg1).1 hrd).1
                        (ReadId_own hrd) h
                  · split at h
                    · split at h
                      rename_i p s2 hpk
                      obtain ⟨hps, hpe⟩ := IStream.peek_sane hpk hg1
                      split at h
                      · rename_i hp
                        have hs2 : s2 = sg := hpe (by rw [hp]; simp)
                        subst hs2
                        split at h
                        · simp at h
                        · rename_i t s3 hrd
                          exact step _ _ (ReadEq_spec
                            (IStream.sane_of_good (IStream.putback_good ch hg1).1) hrd).1
                            (ReadEq_own hrd) h
                      · exact step _ (Token.Char ch) hps rfl h
                    · exact step _ (Token.Char ch) (IStream.sane_of_good hg1) rfl h

end parse

namespace parse

theorem own_ne_Newline {own : List Token} (ho : ∀ t ∈ own, isOwnToken t = true) :
    ∀ t ∈ own, t ≠ Token.Newline ∧ t ≠ Token.Eof ∧ t ≠ Token.Indent ∧ t ≠ Token.Dedent := by
  intro t ht
  have := ho t ht
  refine ⟨?_, ?_, ?_, ?_⟩ <;> (rintro rfl; exact Bool.noConfusion this)

theorem ReadLine_own {s s1 : IStream} {tl : TokenLine} (hg : s.good = true)
    (h : ReadLine s = .ok (tl, s1)) :
    ∃ own : List Token, (∀ t ∈ own, isOwnToken t = true) ∧
      tl.tokens = lineShape own s1.eofbit := by
  unfold ReadLine at h
  rw [if_pos hg] at h
  split at h
  · simp at h
  · rename_i d sc hci
    obtain ⟨hsc, _⟩ := CountIndents_spec hg hci
    split at h
    · simp at h
    · rename_i toks s2 hloop
      obtain ⟨own, ho, hr⟩ := ReadLineLoop_own _ _ _ _ _ hsc hloop
      simp only [Except.ok.injEq, Prod.mk.injEq] at h
      obtain ⟨e1, e2⟩ := h
      subst e1; subst e2
      refine ⟨own, ho, ?_⟩
      simp only [List.nil_append] at hr
      rcases hr with ⟨a, b⟩ | ⟨a, b⟩
      · subst a
        have hlast : toks.getLast? ≠ some Token.Newline := by
          intro hl
          exact (own_ne_Newline ho _ (mem_of_getLast? hl)).1 rfl
        simp only [finishLine, IStream.eof, b, if_true, lineShape, ne_eq]
        by_cases he : toks = []
        · simp [he]
        · simp [he, hlast]
      · subst a
        have hb := (IStream.good_iff s2).1 b
        simp only [finishLine, IStream.eof, hb.1, Bool.false_eq_true, if_false, lineShape]

theorem pullLine_own (fuel : Nat) : ∀ (s s1 : IStream) (tl : TokenLine), s.good = true →
    pullLine fuel s = .ok (tl, s1) →
    tl.IsEmpty = false ∧ ∃ own : List Token, (∀ t ∈ own, isOwnToken t = true) ∧
      tl.tokens = lineShape own s1.eofbit := by
  induction fuel with
  | zero => intro s s1 tl _ h; simp [pullLine] at h
  | succ n ih =>
    intro s s1 tl hg h
    rw [pullLine] at h
    split at h
    · simp at h
    · rename_i tl0 s0 hrl
      split at h
      · rename_i hemp
        exact ih _ _ _ (ReadLine_shrinks hg hrl hemp).1 h
      · rename_i hemp
        simp only [Except.ok.injEq, Prod.mk.injEq] at h
        obtain ⟨e1, e2⟩ := h
        subst e1; subst e2
        exact ⟨by simpa using hemp, ReadLine_own hg hrl⟩

/-- What the shape of a line tells about its tokens. -/
theorem lineShape_facts {own : List Token} {e : Bool} {lt : List Token}
    (ho : ∀ t ∈ own, isOwnToken t = true) (hl : lt = lineShape own e) :
    lt ≠ [] ∧ Token.Eof ∉ lt.dropLast ∧ (e = false → Token.Eof ∉ lt) ∧
    (e = true → lt.getLast? = some Token.Eof) ∧
    (∀ k, (lt.take k).count Token.Indent = 0 ∧ (lt.take k).count Token.Dedent = 0) ∧
    (∀ v, Token.Number v ∈ lt → 0 ≤ v) := by
  have hown := own_ne_Newline ho
  have hE : Token.Eof ∉ own := fun hm => (hown _ hm).2.1 rfl
  have hI : Token.Indent ∉ own := fun hm => (hown _ hm).2.2.1 rfl
  have hD : Token.Dedent ∉ own := fun hm => (hown _ hm).2.2.2 rfl
  have hshape : ∃ tail, lt = own ++ tail ∧ tail ≠ [] ∧ Token.Eof ∉ tail.dropLast ∧
      (e = false → Token.Eof ∉ tail) ∧ (e = true → tail.getLast? = some Token.Eof) ∧
      Token.Indent ∉ tail ∧ Token.Dedent ∉ tail ∧ (∀ v, Token.Number v ∉ tail) := by
    subst hl
    cases e with
    | false => exact ⟨[Token.Newline], by simp [lineShape], by simp, by simp, by simp, by simp,
        by simp, by simp, by simp⟩
    | true =>
      by_cases h0 : own = []
      · exact ⟨[Token.Eof], by simp [lineShape, h0], by simp, by simp, by simp, by simp,
          by simp, by simp, by simp⟩
      · exact ⟨[Token.Newline, Token.Eof], by simp [lineShape, h0], by simp, by simp, by simp,
          by simp, by simp, by simp, by simp⟩
  obtain ⟨tail, ht, htne, htE, htf, htt, htI, htD, htN⟩ := hshape
  subst ht
  refine ⟨by simp [htne], ?_, ?_, ?_, ?_, ?_⟩
  · rw [List.dropLast_append_of_ne_nil _ htne]
    simp only [List.mem_append, not_or]
    exact ⟨hE, htE⟩
  · intro he
    simp only [List.mem_append, not_or]
    exact ⟨hE, htf he⟩
  · intro he
    rw [List.getLast?_append_of_ne_nil _ htne]
    exact htt he
  · intro k
    have hIn : Token.Indent ∉ own ++ tail := by
      simp only [List.mem_append, not_or]; exact ⟨hI, htI⟩
    have hDn : Token.Dedent ∉ own ++ tail := by
      simp only [List.mem_append, not_or]; exact ⟨hD, htD⟩
    exact ⟨List.count_eq_zero.2 (fun hm => hIn (List.mem_of_mem_take hm)),
      List.count_eq_zero.2 (fun hm => hDn (List.mem_of_mem_take hm))⟩
  · intro v hv
    rcases List.mem_append.1 hv with hm | hm
    · have := ho _ hm
      simpa [isOwnToken] using this
    · exact absurd hm (htN v)

end parse

namespace parse

theorem indentTokens_counts (p d : Nat) :
    (indentTokens p d).count Token.Indent + p = (indentTokens p d).count Token.Dedent + d ∧
    ∀ j, ((indentTokens p d).take j).count Token.Dedent ≤
      ((indentTokens p d).take j).count Token.Indent + p := by
  unfold indentTokens
  by_cases h1 : d > p
  · rw [if_pos h1]
    refine ⟨?_, fun j => ?_⟩
    · rw [List.count_replicate_self, List.count_replicate]
      simp only [reduceCtorEq, beq_iff_eq, if_false]
      omega
    · rw [List.take_replicate, List.count_replicate]
      simp
  · rw [if_neg h1]
    by_cases h2 : d < p
    · rw [if_pos h2]
      refine ⟨?_, fun j => ?_⟩
      · rw [List.count_replicate_self, List.count_replicate]
        simp only [reduceCtorEq, beq_iff_eq, if_false]
        omega
      · rw [List.take_replicate, List.count_replicate_self]
        have := Nat.min_le_right j (p - d)
        omega
    · rw [if_neg h2]
      refine ⟨?_, fun j => ?_⟩
      · simp only [List.count_nil]
        omega
      · simp

theorem buffer_counts (a lt : List Token) (p d : Nat)
    (hc : a.count Token.Indent = a.count Token.Dedent + p)
    (hp : ∀ k, (a.take k).count Token.Dedent ≤ (a.take k).count Token.Indent)
    (hl : ∀ k, (lt.take k).count Token.Indent = 0 ∧ (lt.take k).count Token.Dedent = 0) :
    (a ++ indentTokens p d ++ lt).count Token.Indent =
      (a ++ indentTokens p d ++ lt).count Token.Dedent + d ∧
    ∀ k, ((a ++ indentTokens p d ++ lt).take k).count Token.Dedent ≤
      ((a ++ indentTokens p d ++ lt).take k).count Token.Indent := by
  obtain ⟨h1, h2⟩ := indentTokens_counts p d
  have hl0 := hl lt.length
  simp only [List.take_length] at hl0
  refine ⟨?_, fun k => ?_⟩
  · simp only [List.count_append, hl0.1, hl0.2]
    omega
  · simp only [List.take_append_eq_append_take, List.count_append, List.length_append]
    have ha := hp k
    have hb := h2 (k - a.length)
    have hc1 := hl (k - (a.length + (indentTokens p d).length))
    by_cases hk : k ≤ a.length
    · have e1 : k - a.length = 0 := by omega
      have e2 : k - (a.length + (indentTokens p d).length) = 0 := by omega
      simp only [e1, e2, List.take_zero, List.count_nil]
      omega
    · have e : a.take k = a := List.take_of_length_le (by omega)
      rw [e]
      omega

theorem tokenAt_append_head (a b : List Token) (t : Token) (i : Int)
    (hi : i = (a.length : Int)) (hb : b.head? = some t) : tokenAt (a ++ b) i = .ok t := by
  cases b with
  | nil => simp at hb
  | cons x r =>
    simp only [List.head?_cons, Option.some.injEq] at hb
    subst hb
    subst hi
    unfold tokenAt
    have h0 : ¬ ((a.length : Int) < 0) := by omega
    rw [if_neg h0, Int.toNat_natCast, List.get?_eq_getElem?,
      List.getElem?_append_right (le_refl _)]
    simp

theorem tokenAt_last (a : List Token) (t : Token) (i : Int)
    (hi : i + 1 = (a.length : Int)) (hl : a.getLast? = some t) : tokenAt a i = .ok t := by
  obtain ⟨front, rfl⟩ : ∃ front, a = front ++ [t] := by
    rcases List.eq_nil_or_concat a with h | ⟨f, x, h⟩
    · subst h; simp at hl
    · subst h
      simp only [List.concat_eq_append, List.getLast?_append_of_ne_nil _ (List.cons_ne_nil x []),
        List.getLast?_singleton, Option.some.injEq] at hl
      subst hl
      exact ⟨f, by simp⟩
  simp only [List.length_append, List.length_singleton, Nat.cast_add, Nat.cast_one] at hi
  exact tokenAt_append_head front [t] t i (by omega) rfl

end parse

namespace parse

theorem mem_indentTokens {p d : Nat} {t : Token} (h : t ∈ indentTokens p d) :
    t = Token.Indent ∨ t = Token.Dedent := by
  unfold indentTokens at h
  split at h
  · exact Or.inl (List.eq_of_mem_replicate h)
  · split at h
    · exact Or.inr (List.eq_of_mem_replicate h)
    · simp at h

theorem WellFormed_started {L : Lexer} (h : L.WellFormed) : L.Started :=
  ⟨Or.inr ⟨h.1, h.2.1⟩, h.2.2⟩

/-- One call of `NextToken` from a lexer that satisfies the invariants: the new state
satisfies them, and the token returned is the one under the cursor. -/
theorem NextToken_started {s0 : IStream} {L L1 : Lexer} {t : Token} (hI : LexInv s0 L)
    (hW : L.Started) (h : NextToken L = .ok (t, L1)) :
    L1.WellFormed ∧ CurrentToken L1 = .ok t := by
  obtain ⟨lines, _, _, _, hsane, he1, he2⟩ := hI
  obtain ⟨hpos, hE, hcnt, hpre, hnum⟩ := hW
  unfold NextToken at h
  split at h
  · rename_i c1
    split at h
    · simp at h
    · rename_i t0 hat
      simp only [Except.ok.injEq, Prod.mk.injEq] at h
      obtain ⟨e1, e2⟩ := h
      subst e1; subst e2
      refine ⟨⟨?_, c1, hE, hcnt, hpre, hnum⟩, hat⟩
      show 0 ≤ L.current_pos + 1
      rcases hpos with ⟨a, _⟩ | ⟨a, _⟩ <;> omega
  · rename_i c1
    split at h
    · rename_i c2
      simp only [Except.ok.injEq, Prod.mk.injEq] at h
      obtain ⟨e1, e2⟩ := h
      subst e1; subst e2
      rcases hpos with ⟨_, a⟩ | ⟨a, b⟩
      · exact absurd a c2.1
      · exact ⟨⟨a, b, hE, hcnt, hpre, hnum⟩, tokenAt_last _ _ _ (by omega) c2.2⟩
    · rename_i c2
      have hne : L.input.eofbit = false := by
        cases hb : L.input.eofbit with
        | false => rfl
        | true =>
          exfalso
          apply c2
          have := he1 hb
          refine ⟨?_, this⟩
          intro hnil
          rw [hnil] at this
          simp at this
      have hg := IStream.good_of_sane hsane hne
      have hlen : L.current_pos + 1 = (L.tokens.length : Int) := by
        rcases hpos with ⟨a, b⟩ | ⟨a, b⟩
        · rw [a, b]; rfl
        · omega
      split at h
      · simp at h
      · rename_i tl s1 hpull
        obtain ⟨_, own, ho, hshape⟩ := pullLine_own _ _ _ _ hg hpull
        obtain ⟨f1, f2, f3, _, f5, f6⟩ := lineShape_facts ho hshape
        obtain ⟨u1, u2, _, u4⟩ := UpdateIndent_spec { L with input := s1 } tl.line_indent
        simp only at u1 u2 u4
        simp only at h
        split at h
        · simp at h
        · rename_i t0 hat
          simp only [Except.ok.injEq, Prod.mk.injEq] at h
          obtain ⟨e1, e2⟩ := h
          subst e1; subst e2
          obtain ⟨b1, b2⟩ := buffer_counts L.tokens tl.tokens L.current_indent tl.line_indent
            hcnt hpre f5
          refine ⟨⟨?_, ?_, ?_, ?_, ?_, ?_⟩, hat⟩
          · show 0 ≤ (UpdateIndent _ _).current_pos + 1
            rw [u4]; omega
          · show (UpdateIndent _ _).current_pos + 1 < (((UpdateIndent _ _).tokens ++ _).length : Int)
            rw [u4, u1, hlen]
            have : 0 < tl.tokens.length := List.length_pos.2 f1
            simp only [List.length_append, Nat.cast_add]
            omega
          · show Token.Eof ∉ ((UpdateIndent _ _).tokens ++ tl.tokens).dropLast
            rw [u1, List.dropLast_append_of_ne_nil _ f1]
            simp only [List.mem_append, not_or]
            exact ⟨⟨he2 hne, indentTokens_no_Eof _ _⟩, f2⟩
          · show ((UpdateIndent _ _).tokens ++ tl.tokens).count Token.Indent =
              ((UpdateIndent _ _).tokens ++ tl.tokens).count Token.Dedent +
                (UpdateIndent _ _).current_indent
            rw [u1, u2]
            exact b1
          · intro k
            show (((UpdateIndent _ _).tokens ++ tl.tokens).take k).count Token.Dedent ≤
              (((UpdateIndent _ _).tokens ++ tl.tokens).take k).count Token.Indent
            rw [u1]
            exact b2 k
          · intro v hv
            have hv1 : Token.Number v ∈ (UpdateIndent _ _).tokens ++ tl.tokens := hv
            rw [u1] at hv1
            rcases List.mem_append.1 hv1 with hm | hm
            · rcases List.mem_append.1 hm with hm1 | hm1
              · exact hnum v hm1
              · rcases mem_indentTokens hm1 with e | e <;> cases e
            · exact f6 v hm

theorem Started_init (s : IStream) : Lexer.Started ⟨s, 0, -1, []⟩ :=
  ⟨Or.inl ⟨rfl, rfl⟩, by simp, by simp, by simp, by simp⟩

theorem Reachable_wf {cs : List Char} {L : Lexer} (h : Reachable cs L) : L.WellFormed := by
  induction h with
  | create hc =>
    unfold Lexer.create at hc
    split at hc
    · simp at hc
    · rename_i t L0 hn
      simp only [Except.ok.injEq] at hc
      subst hc
      exact (NextToken_started (LexInv_init cs) (Started_init _) hn).1
  | next hR hn ih =>
    exact (NextToken_started (Reachable_inv hR) (WellFormed_started ih) hn).1

end parse

namespace parse

/-! ## Numbers and identifiers -/

theorem takeDigits_eq (cs : List Char) :
    takeDigits cs = (cs.takeWhile Char.isDigit, cs.dropWhile Char.isDigit,
      decide (cs.dropWhile Char.isDigit = [])) := by
  induction cs with
  | nil => rfl
  | cons c r ih =>
    by_cases hc : c.isDigit = true
    · rw [takeDigits, if_pos hc, ih]
      simp [List.takeWhile_cons, List.dropWhile_cons, hc]
    · rw [takeDigits, if_neg hc]
      simp [List.takeWhile_cons, List.dropWhile_cons, hc]

theorem digit_not_special {c : Char} (hc : c.isDigit = true) :
    c ≠ chNewline ∧ c ≠ ' ' ∧ c ≠ '#' ∧ ¬ (c = chDQuote ∨ c = chSQuote) ∧ c ≠ '-' := by
  refine ⟨?_, ?_, ?_, ?_, ?_⟩
  · rintro rfl; exact absurd hc (by decide)
  · rintro rfl; exact absurd hc (by decide)
  · rintro rfl; exact absurd hc (by decide)
  · rintro (rfl | rfl) <;> exact absurd hc (by decide)
  · rintro rfl; exact absurd hc (by decide)

theorem ReadNumber_digit (c : Char) (rest : List Char) (hc : c.isDigit = true) :
    ReadNumber ⟨c :: rest, false, false⟩ =
      if digitsValue ((c :: rest).takeWhile Char.isDigit) ≤ 2147483647 then
        .ok (Token.Number (digitsValue ((c :: rest).takeWhile Char.isDigit)),
          ⟨(c :: rest).dropWhile Char.isDigit,
            decide ((c :: rest).dropWhile Char.isDigit = []), false⟩)
      else .error (.LexerError "Number parsing error") := by
  have hm := (digit_not_special hc).2.2.2.2
  have hne : (c :: rest).takeWhile Char.isDigit ≠ [] := by
    simp [List.takeWhile_cons, hc]
  by_cases hv : digitsValue ((c :: rest).takeWhile Char.isDigit) ≤ 2147483647
  · simp only [ReadNumber, List.head?_cons, Option.some.injEq, hm, decide_False,
      Bool.false_eq_true, if_false, takeDigits_eq, stoi, if_neg hne, Bool.false_or, if_pos hv]
  · simp only [ReadNumber, List.head?_cons, Option.some.injEq, hm, decide_False,
      Bool.false_eq_true, if_false, takeDigits_eq, stoi, if_neg hne, Bool.false_or, if_neg hv]

theorem ReadLineLoop_digit (fuel : Nat) (c : Char) (rest : List Char) (toks : List Token)
    (hc : c.isDigit = true) :
    ReadLineLoop (fuel + 1) ⟨c :: rest, false, false⟩ toks =
      if digitsValue ((c :: rest).takeWhile Char.isDigit) ≤ 2147483647 then
        ReadLineLoop fuel ⟨(c :: rest).dropWhile Char.isDigit,
            decide ((c :: rest).dropWhile Char.isDigit = []), false⟩
          (toks ++ [Token.Number (digitsValue ((c :: rest).takeWhile Char.isDigit))])
      else .error (.LexerError "Number parsing error") := by
  obtain ⟨h1, h2, h3, h4, _⟩ := digit_not_special hc
  rw [ReadLineLoop]
  simp only [IStream.eof, Bool.false_eq_true, if_false, IStream.get, IStream.good,
    Bool.not_false, Bool.and_self, if_true, IStream.putback]
  rw [if_neg h1, if_neg h2, if_neg h3, if_neg h4, if_pos hc, ReadNumber_digit c rest hc]
  by_cases hv : digitsValue ((c :: rest).takeWhile Char.isDigit) ≤ 2147483647
  · simp only [if_pos hv]
  · simp only [if_neg hv]

theorem ReadLineLoop_minus (fuel : Nat) (rest : List Char) (toks : List Token) :
    ReadLineLoop (fuel + 1) ⟨'-' :: rest, false, false⟩ toks =
      ReadLineLoop fuel ⟨rest, false, false⟩ (toks ++ [Token.Char '-']) := by
  rw [ReadLineLoop]
  simp only [IStream.eof, Bool.false_eq_true, if_false, IStream.get, IStream.good,
    Bool.not_false, Bool.and_self, if_true]
  rw [if_neg (by decide), if_neg (by decide), if_neg (by decide), if_neg (by decide),
    if_neg (by decide), if_neg (by decide), if_neg (by decide)]

/-- Claim C21: when the scanner meets a decimal digit at a token start, the maximal run of
digits that begins there is emitted as one `Number` token that holds the decimal value of
the run when that value is at most 2147483647, and lexing fails with a lexical error when it
is larger (first conjunct). A minus sign is emitted as the token `Char('-')` of its own
(second conjunct), so that every `Number` token of a lexer state and of a complete token
stream is non-negative (third and fourth conjuncts); `-5` lexes to `Char('-')`,
`Number(5)`. -/
theorem digits_lex_to_Number (input : String) :
    (∀ (fuel : Nat) (c : Char) (rest : List Char) (toks : List Token), c.isDigit = true →
      ReadLineLoop (fuel + 1) ⟨c :: rest, false, false⟩ toks =
        if digitsValue ((c :: rest).takeWhile Char.isDigit) ≤ 2147483647 then
          ReadLineLoop fuel ⟨(c :: rest).dropWhile Char.isDigit,
              decide ((c :: rest).dropWhile Char.isDigit = []), false⟩
            (toks ++ [Token.Number (digitsValue ((c :: rest).takeWhile Char.isDigit))])
        else .error (.LexerError "Number parsing error")) ∧
    (∀ (fuel : Nat) (rest : List Char) (toks : List Token),
      ReadLineLoop (fuel + 1) ⟨'-' :: rest, false, false⟩ toks =
        ReadLineLoop fuel ⟨rest, false, false⟩ (toks ++ [Token.Char '-'])) ∧
    (∀ L : Lexer, Reachable input.data L → ∀ v, Token.Number v ∈ L.tokens → 0 ≤ v) ∧
    (∀ toks : List Token, Tokenize input = .ok toks →
      ∀ v, Token.Number v ∈ toks → 0 ≤ v) ∧
    Tokenize "-5" = .ok [Token.Char '-', Token.Number 5, Token.Newline, Token.Eof] ∧
    Tokenize "007 2147483647" =
      .ok [Token.Number 7, Token.Number 2147483647, Token.Newline, Token.Eof] ∧
    Tokenize "2147483648" = .error (.LexerError "Number parsing error") := by
  refine ⟨ReadLineLoop_digit, ReadLineLoop_minus,
    fun L hR => (Reachable_wf hR).2.2.2.2.2, fun toks h => ?_, rfl, rfl, rfl⟩
  unfold Tokenize at h
  split at h
  · simp at h
  · rename_i L hc
    obtain ⟨L1, hR, ht, _⟩ := drain_reachable _ _ _ _ (Reachable.create hc) h
    rw [ht]
    exact (Reachable_wf hR).2.2.2.2.2

end parse

namespace parse

theorem takeIdChars_eq (cs : List Char) :
    takeIdChars cs = (cs.takeWhile isIdChar, cs.dropWhile isIdChar,
      decide (cs.dropWhile isIdChar = [])) := by
  induction cs with
  | nil => rfl
  | cons c r ih =>
    by_cases hc : isIdChar c = true
    · rw [takeIdChars, if_pos hc, ih]
      simp [List.takeWhile_cons, List.dropWhile_cons, hc]
    · rw [takeIdChars, if_neg hc]
      simp [List.takeWhile_cons, List.dropWhile_cons, hc]

theorem alpha_not_digit {c : Char} (hc : c.isAlpha = true) : c.isDigit = false := by
  simp only [Char.isAlpha, Char.isUpper, Char.isLower, Bool.or_eq_true, Bool.and_eq_true,
    decide_eq_true_eq] at hc
  simp only [Char.isDigit, Bool.and_eq_false_imp, decide_eq_true_eq, decide_eq_false_iff_not]
  intro h1 h2
  have e65 : (65 : UInt32).toNat = 65 := rfl
  have e90 : (90 : UInt32).toNat = 90 := rfl
  have e97 : (97 : UInt32).toNat = 97 := rfl
  have e122 : (122 : UInt32).toNat = 122 := rfl
  have e57 : (57 : UInt32).toNat = 57 := rfl
  have k2 : c.val.toNat ≤ (57 : UInt32).toNat := h2
  rcases hc with ⟨a, _⟩ | ⟨a, _⟩
  · have k1 : (65 : UInt32).toNat ≤ c.val.toNat := a
    omega
  · have k1 : (97 : UInt32).toNat ≤ c.val.toNat := a
    omega

end parse

namespace parse

theorem ident_not_special {c : Char} (hc : c.isAlpha = true ∨ c = '_') :
    c ≠ chNewline ∧ c ≠ ' ' ∧ c ≠ '#' ∧ ¬ (c = chDQuote ∨ c = chSQuote) ∧
      c.isDigit = false ∧ isIdChar c = true := by
  rcases hc with hc | hc
  · refine ⟨?_, ?_, ?_, ?_, alpha_not_digit hc, by simp [isIdChar, hc]⟩
    · rintro rfl; exact absurd hc (by decide)
    · rintro rfl; exact absurd hc (by decide)
    · rintro rfl; exact absurd hc (by decide)
    · rintro (rfl | rfl) <;> exact absurd hc (by decide)
  · subst hc
    exact ⟨by decide, by decide, by decide, by decide, by decide, by decide⟩

theorem ReadLineLoop_ident (fuel : Nat) (c : Char) (rest : List Char) (toks : List Token)
    (hc : c.isAlpha = true ∨ c = '_') :
    ReadLineLoop (fuel + 1) ⟨c :: rest, false, false⟩ toks =
      ReadLineLoop fuel ⟨(c :: rest).dropWhile isIdChar,
          decide ((c :: rest).dropWhile isIdChar = []),
          decide ((c :: rest).dropWhile isIdChar = [])⟩
        (toks ++ [keywordOrId (String.mk ((c :: rest).takeWhile isIdChar))]) := by
  obtain ⟨h1, h2, h3, h4, h5, h6⟩ := ident_not_special hc
  have hne : (c :: rest).takeWhile isIdChar ≠ [] := by
    simp [List.takeWhile_cons, h6]
  rw [ReadLineLoop]
  simp only [IStream.eof, Bool.false_eq_true, if_false, IStream.get, IStream.good,
    Bool.not_false, Bool.and_self, if_true, IStream.putback]
  rw [if_neg h1, if_neg h2, if_neg h3, if_neg h4, if_neg (by rw [h5]; exact Bool.false_ne_true),
    if_pos hc]
  simp only [ReadId, takeIdChars_eq, if_neg hne, Bool.false_or]

theorem keywordOrId_eq_lexemeToken (s : String) : keywordOrId s = lexemeToken s := by
  unfold keywordOrId lexemeToken keywordTable
  by_cases h1 : s = "class"
  · subst h1; rfl
  by_cases h2 : s = "return"
  · subst h2; rfl
  by_cases h3 : s = "if"
  · subst h3; rfl
  by_cases h4 : s = "else"
  · subst h4; rfl
  by_cases h5 : s = "def"
  · subst h5; rfl
  by_cases h6 : s = "print"
  · subst h6; rfl
  by_cases h7 : s = "and"
  · subst h7; rfl
  by_cases h8 : s = "or"
  · subst h8; rfl
  by_cases h9 : s = "not"
  · subst h9; rfl
  by_cases h10 : s = "None"
  · subst h10; rfl
  by_cases h11 : s = "True"
  · subst h11; rfl
  by_cases h12 : s = "False"
  · subst h12; rfl
  have b : ∀ k : String, ¬ s = k → (s == k) = false := fun k hk => beq_eq_false_iff_ne.2 hk
  simp only [List.lookup, b _ h1, b _ h2, b _ h3, b _ h4, b _ h5, b _ h6, b _ h7, b _ h8,
    b _ h9, b _ h10, b _ h11, b _ h12, if_neg h1, if_neg h2, if_neg h3, if_neg h4, if_neg h5,
    if_neg h6, if_neg h7, if_neg h8, if_neg h9, if_neg h10, if_neg h11, if_neg h12]

end parse

namespace parse

/-- Claim C22: an identifier lexeme is the maximal run of letters, digits and underscores
that starts at a letter or underscore, and the lexer emits one token for it (first
conjunct). The token is the one the keyword table gives (second conjunct): the marker token
`Class`, `Return`, `If`, `Else`, `Def`, `Print`, `And`, `Or`, `Not`, `None`, `True` or
`False` when the lexeme is exactly `class`, `return`, `if`, `else`, `def`, `print`, `and`,
`or`, `not`, `None`, `True` or `False`, and `Id` of the lexeme otherwise. The match is on
the whole lexeme and case-sensitive: `classes`, `print_`, `_if` and `none` lex to `Id`. -/
theorem keyword_table :
    (∀ (fuel : Nat) (c : Char) (rest : List Char) (toks : List Token),
      (c.isAlpha = true ∨ c = '_') →
      ReadLineLoop (fuel + 1) ⟨c :: rest, false, false⟩ toks =
        ReadLineLoop fuel ⟨(c :: rest).dropWhile isIdChar,
            decide ((c :: rest).dropWhile isIdChar = []),
            decide ((c :: rest).dropWhile isIdChar = [])⟩
          (toks ++ [keywordOrId (String.mk ((c :: rest).takeWhile isIdChar))])) ∧
    (∀ s : String, keywordOrId s = lexemeToken s) ∧
    (keywordOrId "class" = Token.Class ∧ keywordOrId "return" = Token.Return ∧
      keywordOrId "if" = Token.If ∧ keywordOrId "else" = Token.Else ∧
      keywordOrId "def" = Token.Def ∧ keywordOrId "print" = Token.Print ∧
      keywordOrId "and" = Token.And ∧ keywordOrId "or" = Token.Or ∧
      keywordOrId "not" = Token.Not ∧ keywordOrId "None" = Token.None ∧
      keywordOrId "True" = Token.True ∧ keywordOrId "False" = Token.False) ∧
    (∀ s : String,
      s ∉ ["class", "return", "if", "else", "def", "print", "and", "or", "not", "None",
        "True", "False"] → keywordOrId s = Token.Id s) ∧
    Tokenize "class return if else def print and or not None True False" =
      .ok [Token.Class, Token.Return, Token.If, Token.Else, Token.Def, Token.Print,
        Token.And, Token.Or, Token.Not, Token.None, Token.True, Token.False,
        Token.Newline, Token.Eof] ∧
    Tokenize "classes print_ _if none" =
      .ok [Token.Id "classes", Token.Id "print_", Token.Id "_if", Token.Id "none",
        Token.Newline, Token.Eof] := by
  refine ⟨ReadLineLoop_ident, keywordOrId_eq_lexemeToken,
    ⟨rfl, rfl, rfl, rfl, rfl, rfl, rfl, rfl, rfl, rfl, rfl, rfl⟩, fun s hs => ?_, rfl, rfl⟩
  simp only [List.mem_cons, List.mem_singleton, List.not_mem_nil, or_false, not_or] at hs
  obtain ⟨h1, h2, h3, h4, h5, h6, h7, h8, h9, h10, h11, h12⟩ := hs
  unfold keywordOrId
  simp only [if_neg h1, if_neg h2, if_neg h3, if_neg h4, if_neg h5, if_neg h6, if_neg h7,
    if_neg h8, if_neg h9, if_neg h10, if_neg h11, if_neg h12]

end parse

namespace parse

/-! ## The cursor and the end of the token stream -/

theorem Eof_only_last {toks : List Token} (h : Token.Eof ∉ toks.dropLast) :
    toks.count Token.Eof ≤ 1 ∧ (Token.Eof ∈ toks → toks.getLast? = some Token.Eof) := by
  rcases List.eq_nil_or_concat toks with h0 | ⟨f, x, h0⟩
  · subst h0; simp
  · subst h0
    simp only [List.concat_eq_append, List.dropLast_concat] at h
    refine ⟨?_, fun hm => ?_⟩
    · rw [List.concat_eq_append, List.count_append, List.count_eq_zero.2 h]
      by_cases hx : x = Token.Eof
      · simp [hx]
      · simp [List.count_singleton, hx]
    · simp only [List.concat_eq_append, List.mem_append, List.mem_singleton] at hm
      rcases hm with hm | hm
      · exact absurd hm h
      · simp [← hm]

theorem Eof_at_last {L : Lexer} (hW : L.WellFormed) (hc : CurrentToken L = .ok Token.Eof) :
    L.current_pos + 1 = (L.tokens.length : Int) ∧ L.tokens.getLast? = some Token.Eof := by
  obtain ⟨h0, h1, hE, _⟩ := hW
  have hm : Token.Eof ∈ L.tokens := tokenAt_mem hc
  have hlast := (Eof_only_last hE).2 hm
  refine ⟨?_, hlast⟩
  unfold CurrentToken tokenAt at hc
  rw [if_neg (by omega)] at hc
  split at hc
  · rename_i t hget
    simp only [Except.ok.injEq] at hc
    subst hc
    by_contra hne
    apply hE
    have hlt : L.current_pos.toNat < L.tokens.length - 1 := by omega
    rw [List.dropLast_eq_take]
    rw [List.get?_eq_getElem?] at hget
    have : (List.take (L.tokens.length - 1) L.tokens)[L.current_pos.toNat]? = some Token.Eof := by
      rw [List.getElem?_take_of_lt hlt]
      exact hget
    exact List.get?_mem (by rw [List.get?_eq_getElem?]; exact this)
  · simp at hc

theorem NextToken_at_Eof {L : Lexer} (hW : L.WellFormed) (hc : CurrentToken L = .ok Token.Eof) :
    NextToken L = .ok (Token.Eof, L) := by
  obtain ⟨hpos, hlast⟩ := Eof_at_last hW hc
  have hne : L.tokens ≠ [] := by
    intro h
    rw [h] at hlast
    simp at hlast
  unfold NextToken
  rw [if_neg (by omega), if_pos ⟨hne, hlast⟩]

theorem advance_at_Eof {L : Lexer} (h : NextToken L = .ok (Token.Eof, L)) (n : Nat) :
    advance n L = .ok L := by
  induction n with
  | zero => rfl
  | succ n ih => rw [advance, h]; exact ih

/-- Claim C25: in every reachable lexer state the cursor indexes a token of the buffer, and
the buffer holds at most one `Eof`, which is then its last token (first conjunct). The
token `NextToken` returns is the one under the cursor of the new state (second conjunct).
Once `NextToken` has returned `Eof`, the cursor is on that last token, `CurrentToken` is
`Eof`, and a further call of `NextToken` returns `Eof` and leaves the lexer as it is: the
buffer, the cursor and the recorded depth do not change any more, whatever the number of
further calls (third conjunct). -/
theorem cursor_stays_at_Eof (input : String) :
    (∀ L : Lexer, Reachable input.data L →
      0 ≤ L.current_pos ∧ L.current_pos < (L.tokens.length : Int) ∧
      (∃ t, CurrentToken L = .ok t) ∧ L.tokens.count Token.Eof ≤ 1 ∧
      (Token.Eof ∈ L.tokens → L.tokens.getLast? = some Token.Eof)) ∧
    (∀ (L L1 : Lexer) (t : Token), Reachable input.data L → NextToken L = .ok (t, L1) →
      CurrentToken L1 = .ok t) ∧
    (∀ L L1 : Lexer, Reachable input.data L → NextToken L = .ok (Token.Eof, L1) →
      CurrentToken L1 = .ok Token.Eof ∧ L1.current_pos + 1 = (L1.tokens.length : Int) ∧
      NextToken L1 = .ok (Token.Eof, L1) ∧ ∀ n, advance n L1 = .ok L1) := by
  refine ⟨fun L hR => ?_, fun L L1 t hR h => ?_, fun L L1 hR h => ?_⟩
  · have hW := Reachable_wf hR
    obtain ⟨h0, h1, hE, _⟩ := hW
    refine ⟨h0, h1, ?_, (Eof_only_last hE).1, (Eof_only_last hE).2⟩
    unfold CurrentToken tokenAt
    rw [if_neg (by omega)]
    have hlt : L.current_pos.toNat < L.tokens.length := by omega
    rw [List.get?_eq_getElem?, List.getElem?_eq_getElem hlt]
    exact ⟨_, rfl⟩
  · exact (NextToken_started (Reachable_inv hR) (WellFormed_started (Reachable_wf hR)) h).2
  · obtain ⟨hW1, hc⟩ :=
      NextToken_started (Reachable_inv hR) (WellFormed_started (Reachable_wf hR)) h
    have hfix := NextToken_at_Eof hW1 hc
    exact ⟨hc, (Eof_at_last hW1 hc).1, hfix, advance_at_Eof hfix⟩

end parse

namespace parse

/-! ## Termination of the lexer -/

theorem ReadNumber_length_lt {s s2 : IStream} {t : Token} (h : ReadNumber s = .ok (t, s2)) :
    s2.rest.length < s.rest.length := by
  have ht : (if decide (s.rest.head? = some '-') = true then s.rest.tail else s.rest).length ≤
      s.rest.length := by
    split
    · simp
    · exact le_refl _
  have hsum := congrArg List.length (List.takeWhile_append_dropWhile Char.isDigit
    (if decide (s.rest.head? = some '-') = true then s.rest.tail else s.rest))
  rw [List.length_append] at hsum
  unfold ReadNumber at h
  simp only [takeDigits_eq] at h
  split at h
  · simp at h
  · rename_i v hv
    simp only [Except.ok.injEq, Prod.mk.injEq] at h
    obtain ⟨_, h2⟩ := h
    subst h2
    have hne : List.takeWhile Char.isDigit
        (if decide (s.rest.head? = some '-') = true then s.rest.tail else s.rest) ≠ [] := by
      intro h0
      rw [h0] at hv
      simp [stoi] at hv
    have := List.length_pos.2 hne
    simp only
    omega

theorem ReadNumber_error {s : IStream} {e : LexFailure} (h : ReadNumber s = .error e) :
    ∃ w, e = .LexerError w := by
  unfold ReadNumber at h
  simp only at h
  split at h
  · simp only [Except.error.injEq] at h
    exact ⟨_, h.symm⟩
  · simp at h

theorem ReadId_length_lt {s s2 : IStream} {t : Token} (h : ReadId s = .ok (t, s2)) :
    s2.rest.length < s.rest.length := by
  have hsum := congrArg List.length (List.takeWhile_append_dropWhile isIdChar s.rest)
  rw [List.length_append] at hsum
  unfold ReadId at h
  simp only [takeIdChars_eq] at h
  split at h
  · simp at h
  · rename_i hne
    simp only [Except.ok.injEq, Prod.mk.injEq] at h
    obtain ⟨_, h2⟩ := h
    subst h2
    have := List.length_pos.2 hne
    simp only
    omega

theorem ReadId_error {s : IStream} {e : LexFailure} (h : ReadId s = .error e) :
    ∃ w, e = .LexerError w := by
  unfold ReadId at h
  split at h
  split at h
  · simp only [Except.error.injEq] at h
    exact ⟨_, h.symm⟩
  · simp at h

theorem ReadEq_length_lt {s s2 : IStream} {t : Token} (hg : s.good = true)
    (hne : s.rest ≠ []) (h : ReadEq s = .ok (t, s2)) : s2.rest.length < s.rest.length := by
  unfold ReadEq at h
  split at h
  rename_i ch s1 h1
  split at h
  rename_i x s3 h3
  have hl1 : s1.rest.length < s.rest.length := by
    unfold IStream.get at h1
    rw [if_pos hg] at h1
    split at h1
    · rename_i hr; exact absurd hr hne
    · rename_i c r hr
      simp only [Prod.mk.injEq] at h1
      rw [← h1.2, hr]
      simp
  have hl : s3.rest.length < s.rest.length := lt_of_le_of_lt (IStream.get_length h3) hl1
  repeat' split at h
  all_goals first
    | (simp at h; done)
    | (simp only [Except.ok.injEq, Prod.mk.injEq] at h
       obtain ⟨_, e2⟩ := h
       subst e2
       exact hl)

theorem ReadEq_error {s : IStream} {e : LexFailure} (h : ReadEq s = .error e) :
    ∃ w, e = .LexerError w := by
  unfold ReadEq at h
  split at h
  split at h
  repeat' split at h
  all_goals first
    | (simp at h; done)
    | (simp only [Except.error.injEq] at h
       exact ⟨_, h.symm⟩)

theorem ReadString_error {q : Char} {s : IStream} {e : LexFailure}
    (h : ReadString q s = .error e) : ∃ w, e = .LexerError w := by
  unfold ReadString at h
  split at h
  · rename_i e1 hl
    simp only [Except.error.injEq] at h
    subst h
    exact readStringLoop_error q _ s.rest [] e1 (le_refl _) hl
  · simp at h

theorem CountIndents_error {s : IStream} {e : LexFailure} (h : CountIndents s = .error e) :
    ∃ w, e = .LexerError w := by
  unfold CountIndents at h
  split at h
  split at h
  · simp only [Except.error.injEq] at h
    exact ⟨_, h.symm⟩
  · simp at h

end parse

namespace parse

theorem ReadLineLoop_error (fuel : Nat) :
    ∀ (s : IStream) (toks : List Token) (e : LexFailure),
    s.sane → s.rest.length < fuel → ReadLineLoop fuel s toks = .error e →
    ∃ w, e = .LexerError w := by
  induction fuel with
  | zero => intro s toks e _ hf _; exact absurd hf (Nat.not_lt_zero _)
  | succ n ih =>
    intro s toks e hs hf h
    rw [ReadLineLoop] at h
    split at h
    · simp at h
    · rename_i heof
      have hne : s.eofbit = false := by
        simpa [IStream.eof] using heof
      split at h
      · simp at h
      · rename_i ch sg hget
        obtain ⟨_, hg1, hr⟩ := IStream.get_some hget
        have hl1 : sg.rest.length < n := by
          rw [hr] at hf
          simp only [List.length_cons] at hf
          omega
        have hpg := IStream.putback_good ch hg1
        have hpl : (sg.putback ch).rest.length = sg.rest.length + 1 := by
          rw [hpg.2]; simp
        split at h
        · simp at h
        · split at h
          · exact ih _ _ _ (IStream.sane_of_good hg1) hl1 h
          · split at h
            · exact ih _ _ _ (ReadComment_sane hg1)
                (lt_of_le_of_lt (ReadComment_length hg1) hl1) h
            · split at h
              · split at h
                · rename_i e1 hrd
                  simp only [Except.error.injEq] at h
                  subst h
                  exact ReadString_error hrd
                · rename_i t s2 hrd
                  exact ih _ _ _ (ReadString_spec hg1 hrd).1
                    (lt_of_le_of_lt (ReadString_length hrd) hl1) h
              · split at h
                · split at h
                  · rename_i e1 hrd
                    simp only [Except.error.injEq] at h
                    subst h
                    exact ReadNumber_error hrd
                  · rename_i t s2 hrd
                    have := ReadNumber_length_lt hrd
                    exact ih _ _ _ (ReadNumber_spec hpg.1 hrd).1 (by omega) h
                · split at h
                  · split at h
                    · rename_i e1 hrd
                      simp only [Except.error.injEq] at h
                      subst h
                      exact ReadId_error hrd
                    · rename_i t s2 hrd
                      have := ReadId_length_lt hrd
                      exact ih _ _ _ (ReadId_spec hpg.1 hrd).1 (by omega) h
                  · split at h
                    · split at h
                      rename_i p s2 hpk
                      obtain ⟨hps, hpe⟩ := IStream.peek_sane hpk hg1
                      split at h
                      · rename_i hp
                        have hs2 : s2 = sg := hpe (by rw [hp]; simp)
                        subst hs2
                        split at h
                        · rename_i e1 hrd
                          simp only [Except.error.injEq] at h
                          subst h
                          exact ReadEq_error hrd
                        · rename_i t s3 hrd
                          have := ReadEq_length_lt hpg.1 (by rw [hpg.2]; simp) hrd
                          exact ih _ _ _ (ReadEq_spec (IStream.sane_of_good hpg.1) hrd).1
                            (by omega) h
                      · have hpl2 : s2.rest.length = sg.rest.length := by
                          unfold IStream.peek at hpk
                          rw [if_pos hg1] at hpk
                          split at hpk
                          · simp only [Prod.mk.injEq] at hpk
                            rw [← hpk.2]
                          · simp only [Prod.mk.injEq] at hpk
                            rw [← hpk.2]
                        exact ih _ _ _ hps (by omega) h
                    · exact ih _ _ _ (IStream.sane_of_good hg1) hl1 h

theorem ReadLine_error {s : IStream} {e : LexFailure}
    (h : ReadLine s = .error e) : ∃ w, e = .LexerError w := by
  unfold ReadLine at h
  split at h
  · rename_i hg
    split at h
    · rename_i e1 hci
      simp only [Except.error.injEq] at h
      subst h
      exact CountIndents_error hci
    · rename_i d sc hci
      split at h
      · rename_i e1 hloop
        simp only [Except.error.injEq] at h
        subst h
        exact ReadLineLoop_error _ _ _ _ (CountIndents_spec hg hci).1 (Nat.lt_succ_self _) hloop
      · simp at h
  · simp at h

theorem pullLine_error (fuel : Nat) : ∀ (s : IStream) (e : LexFailure), s.good = true →
    s.rest.length < fuel → pullLine fuel s = .error e → ∃ w, e = .LexerError w := by
  induction fuel with
  | zero => intro s e _ hf _; exact absurd hf (Nat.not_lt_zero _)
  | succ n ih =>
    intro s e hg hf h
    rw [pullLine] at h
    split at h
    · rename_i e1 hrl
      simp only [Except.error.injEq] at h
      subst h
      exact ReadLine_error hrl
    · rename_i tl s1 hrl
      split at h
      · rename_i hemp
        obtain ⟨hg1, hlt⟩ := ReadLine_shrinks hg hrl hemp
        exact ih _ _ hg1 (by omega) h
      · simp at h

theorem NextToken_error {s0 : IStream} {L : Lexer} {e : LexFailure} (hI : LexInv s0 L)
    (hW : L.Started) (h : NextToken L = .error e) : ∃ w, e = .LexerError w := by
  obtain ⟨lines, _, _, _, hsane, he1, _⟩ := hI
  obtain ⟨hpos, _⟩ := hW
  unfold NextToken at h
  split at h
  · rename_i c1
    split at h
    · rename_i e1 hat
      exfalso
      unfold tokenAt at hat
      have h0 : ¬ (L.current_pos + 1 < 0) := by
        rcases hpos with ⟨a, _⟩ | ⟨a, _⟩ <;> omega
      rw [if_neg h0] at hat
      have hlt : (L.current_pos + 1).toNat < L.tokens.length := by omega
      rw [List.get?_eq_getElem?, List.getElem?_eq_getElem hlt] at hat
      simp at hat
    · simp at h
  · rename_i c1
    split at h
    · simp at h
    · rename_i c2
      have hne : L.input.eofbit = false := by
        cases hb : L.input.eofbit with
        | false => rfl
        | true =>
          exfalso
          apply c2
          have := he1 hb
          refine ⟨?_, this⟩
          intro hnil
          rw [hnil] at this
          simp at this
      have hg := IStream.good_of_sane hsane hne
      have hlen : L.current_pos + 1 = (L.tokens.length : Int) := by
        rcases hpos with ⟨a, b⟩ | ⟨a, b⟩
        · rw [a, b]; rfl
        · omega
      split at h
      · rename_i e1 hpull
        simp only [Except.error.injEq] at h
        subst h
        exact pullLine_error _ _ _ hg (Nat.lt_succ_self _) hpull
      · rename_i tl s1 hpull
        exfalso
        obtain ⟨_, own, ho, hshape⟩ := pullLine_own _ _ _ _ hg hpull
        obtain ⟨f1, _⟩ := lineShape_facts ho hshape
        obtain ⟨u1, _, _, u4⟩ := UpdateIndent_spec { L with input := s1 } tl.line_indent
        simp only at u1 u4
        simp only at h
        obtain ⟨x, r, hx⟩ : ∃ x r, tl.tokens = x :: r := by
          cases htl : tl.tokens with
          | nil => exact absurd htl f1
          | cons x r => exact ⟨x, r, rfl⟩
        obtain ⟨y, hy⟩ : ∃ y, (indentTokens L.current_indent tl.line_indent ++ tl.tokens).head? =
            some y := by
          cases hind : indentTokens L.current_indent tl.line_indent with
          | nil => exact ⟨x, by simp [hx]⟩
          | cons a b => exact ⟨a, by simp⟩
        have hok := tokenAt_append_head L.tokens
          (indentTokens L.current_indent tl.line_indent ++ tl.tokens) y
          (L.current_pos + 1) hlen hy
        rw [u1, u4, List.append_assoc, hok] at h
        simp at h

end parse

namespace parse

theorem ReadLine_at_end {s s1 : IStream} {tl : TokenLine} (hs : s.sane)
    (h : ReadLine s = .ok (tl, s1)) (he : s1.eofbit = true) :
    Token.Eof ∈ tl.tokens ∧ tl.IsEmpty = false := by
  have hm : Token.Eof ∈ tl.tokens := by
    by_cases hg : s.good = true
    · exact mem_of_getLast? ((ReadLine_spec hg h).2.2.1 he)
    · have hb : s.eofbit = true := by
        cases hb : s.eofbit with
        | true => rfl
        | false => exact absurd (IStream.good_of_sane hs hb) hg
      unfold ReadLine at h
      rw [if_neg hg] at h
      simp only [Except.ok.injEq, Prod.mk.injEq] at h
      rw [← h.1]
      simp [finishLine, IStream.eof, hb]
  refine ⟨hm, ?_⟩
  cases hemp : tl.IsEmpty with
  | false => rfl
  | true => exact absurd hm (IsEmpty_no_Eof hemp)

/-- Claim C28: the construction of a lexer and every call of `NextToken` terminate on every
finite input, with a lexer state and a token or with a lexical error (first and second
conjuncts; the loops of the model never run out of the fuel they are given). The loop that
skips blank lines consumes at least one character of the input per line it skips (third
conjunct), and a line read at the end of the input holds `Eof` and is therefore not skipped
(fourth conjunct). More fuel does not change what the loop over the lines returns (fifth
conjunct). -/
theorem NextToken_terminates (input : String) :
    ((∃ L, Lexer.create (IStream.ofChars input.data) = .ok L) ∨
      (∃ w, Lexer.create (IStream.ofChars input.data) = .error (.LexerError w))) ∧
    (∀ L : Lexer, Reachable input.data L →
      (∃ t L1, NextToken L = .ok (t, L1)) ∨ (∃ w, NextToken L = .error (.LexerError w))) ∧
    (∀ (s s1 : IStream) (tl : TokenLine), s.good = true → ReadLine s = .ok (tl, s1) →
      tl.IsEmpty = true → s1.rest.length < s.rest.length ∧ s1.good = true) ∧
    (∀ (s s1 : IStream) (tl : TokenLine), s.sane → ReadLine s = .ok (tl, s1) →
      s1.eofbit = true → Token.Eof ∈ tl.tokens ∧ tl.IsEmpty = false) ∧
    (∀ (s : IStream) (fuel : Nat), s.good = true → s.rest.length + 1 ≤ fuel →
      pullLine fuel s = pullLine (s.rest.length + 1) s ∧
      pullLine fuel s ≠ .error .Diverges) := by
  refine ⟨?_, fun L hR => ?_, fun s s1 tl hg h hemp => ?_, fun s s1 tl hs h he => ?_,
    fun s fuel hg hf => ?_⟩
  · unfold Lexer.create
    cases hn : NextToken ⟨IStream.ofChars input.data, 0, -1, []⟩ with
    | error e =>
      obtain ⟨w, hw⟩ := NextToken_error (LexInv_init input.data) (Started_init _) hn
      exact Or.inr ⟨w, by rw [hw]⟩
    | ok x =>
      obtain ⟨t, L⟩ := x
      exact Or.inl ⟨L, rfl⟩
  · cases hn : NextToken L with
    | error e =>
      obtain ⟨w, hw⟩ := NextToken_error (Reachable_inv hR) (WellFormed_started (Reachable_wf hR)) hn
      exact Or.inr ⟨w, by rw [hw]⟩
    | ok x =>
      obtain ⟨t, L1⟩ := x
      exact Or.inl ⟨t, L1, rfl⟩
  · obtain ⟨a, b⟩ := ReadLine_shrinks hg h hemp
    exact ⟨b, a⟩
  · exact ReadLine_at_end hs h he
  · refine ⟨pullLine_fuel s.rest.length s fuel _ hg (le_refl _) hf (le_refl _), fun hd => ?_⟩
    obtain ⟨w, hw⟩ := pullLine_error fuel s _ hg (by omega) hd
    cases hw

end parse

namespace parse

/-! ## Indentation levels are balanced -/

theorem ReadLine_nil : ReadLine ⟨[], false, false⟩ =
    .ok (⟨0, [Token.Eof]⟩, ⟨[], true, false⟩) := by
  simp [ReadLine, IStream.good, CountIndents, countSpaces, ReadLineLoop, IStream.eof, finishLine]

theorem pullLine_whole : ∀ (n : Nat) (q : List Char), q.length ≤ n → WholeLines q →
    ∀ (fuel : Nat) (tl : TokenLine) (s1 : IStream),
    pullLine fuel ⟨q, false, false⟩ = .ok (tl, s1) →
    (∃ q1, s1 = ⟨q1, false, false⟩ ∧ WholeLines q1) ∨
      (s1.eofbit = true ∧ tl.line_indent = 0) := by
  intro n
  induction n with
  | zero =>
    intro q hn _ fuel tl s1 h
    have hq0 : q = [] := List.length_eq_zero.1 (Nat.le_zero.1 hn)
    subst hq0
    cases fuel with
    | zero => simp [pullLine] at h
    | succ f =>
      rw [pullLine, ReadLine_nil] at h
      simp only [TokenLine.IsEmpty, List.isEmpty_cons, List.all_cons, reduceCtorEq,
        decide_False, List.all_nil, Bool.and_true, Bool.or_self, Bool.false_eq_true, if_false,
        Except.ok.injEq, Prod.mk.injEq] at h
      obtain ⟨e1, e2⟩ := h
      subst e1; subst e2
      exact Or.inr ⟨rfl, rfl⟩
  | succ n ih =>
    intro q hn hw fuel tl s1 h
    rcases hw with hq0 | ⟨q0, hq⟩
    · subst hq0
      cases fuel with
      | zero => simp [pullLine] at h
      | succ f =>
        rw [pullLine, ReadLine_nil] at h
        simp only [TokenLine.IsEmpty, List.isEmpty_cons, List.all_cons, reduceCtorEq,
          decide_False, List.all_nil, Bool.and_true, Bool.or_self, Bool.false_eq_true, if_false,
          Except.ok.injEq, Prod.mk.injEq] at h
        obtain ⟨e1, e2⟩ := h
        subst e1; subst e2
        exact Or.inr ⟨rfl, rfl⟩
    · subst hq
      simp only [List.length_append, List.length_singleton] at hn
      cases fuel with
      | zero => simp [pullLine] at h
      | succ f =>
        rw [pullLine] at h
        rcases ReadLine_local q0 with ⟨e, he⟩ | ⟨tl0, q1, hrem, hok⟩
        · rw [he []] at h
          simp at h
        · rw [hok []] at h
          simp only [List.append_nil] at h
          have hq1 : q1.length ≤ n ∧ WholeLines q1 := by
            rcases hrem with h0 | ⟨q2, h0, hlt⟩
            · subst h0
              exact ⟨Nat.zero_le _, Or.inl rfl⟩
            · subst h0
              refine ⟨?_, Or.inr ⟨q2, rfl⟩⟩
              simp only [List.length_append, List.length_singleton]
              omega
          split at h
          · exact ih q1 hq1.1 hq1.2 f tl s1 h
          · simp only [Except.ok.injEq, Prod.mk.injEq] at h
            obtain ⟨_, e2⟩ := h
            subst e2
            exact Or.inl ⟨q1, rfl, hq1.2⟩

/-- For an input made of whole lines: the lexer is at the start of a line, or it has met the
end of the input and the recorded depth is zero. -/
theorem NextToken_whole {s0 : IStream} {L L1 : Lexer} {t : Token} (hI : LexInv s0 L)
    (hJ : (∃ q, L.input = ⟨q, false, false⟩ ∧ WholeLines q) ∨
      (L.input.eofbit = true ∧ L.current_indent = 0))
    (h : NextToken L = .ok (t, L1)) :
    (∃ q, L1.input = ⟨q, false, false⟩ ∧ WholeLines q) ∨
      (L1.input.eofbit = true ∧ L1.current_indent = 0) := by
  obtain ⟨lines, _, _, _, _, he1, _⟩ := hI
  unfold NextToken at h
  split at h
  · split at h
    · simp at h
    · simp only [Except.ok.injEq, Prod.mk.injEq] at h
      obtain ⟨_, e2⟩ := h
      subst e2
      exact hJ
  · split at h
    · simp only [Except.ok.injEq, Prod.mk.injEq] at h
      obtain ⟨_, e2⟩ := h
      subst e2
      exact hJ
    · rename_i c2
      split at h
      · simp at h
      · rename_i tl s1 hpull
        obtain ⟨_, u2, u3, _⟩ := UpdateIndent_spec { L with input := s1 } tl.line_indent
        simp only at u2 u3
        simp only at h
        split at h
        · simp at h
        · simp only [Except.ok.injEq, Prod.mk.injEq] at h
          obtain ⟨_, e2⟩ := h
          subst e2
          show (∃ q, (UpdateIndent _ _).input = _ ∧ _) ∨
            ((UpdateIndent _ _).input.eofbit = true ∧ (UpdateIndent _ _).current_indent = 0)
          rw [u2, u3]
          rcases hJ with ⟨q, hq, hw⟩ | ⟨he, _⟩
          · rw [hq] at hpull
            exact pullLine_whole _ q (le_refl _) hw _ tl s1 hpull
          · exfalso
            apply c2
            have := he1 he
            refine ⟨?_, this⟩
            intro hnil
            rw [hnil] at this
            simp at this

theorem Reachable_whole {cs : List Char} {L : Lexer} (hw : WholeLines cs)
    (h : Reachable cs L) :
    (∃ q, L.input = ⟨q, false, false⟩ ∧ WholeLines q) ∨
      (L.input.eofbit = true ∧ L.current_indent = 0) := by
  induction h with
  | create hc =>
    unfold Lexer.create at hc
    split at hc
    · simp at hc
    · rename_i t L0 hn
      simp only [Except.ok.injEq] at hc
      subst hc
      exact NextToken_whole (LexInv_init cs) (Or.inl ⟨cs, rfl, hw⟩) hn
  | next hR hn ih => exact NextToken_whole (Reachable_inv hR) ih hn

/-- Claim C26: in every reachable lexer state the number of `Indent` tokens of the buffer is
the number of its `Dedent` tokens plus the recorded depth, so that their difference is the
recorded depth and is not negative, and no prefix of the buffer holds more `Dedent` than
`Indent` tokens (first conjunct). For every successfully lexed input that ends with a
newline character the complete token stream holds as many `Dedent` as `Indent` tokens
(second conjunct), as for the two lines `a` and `b` of depths zero and one; without the
last newline character the level stays open. -/
theorem indent_balance (input : String) :
    (∀ L : Lexer, Reachable input.data L →
      L.tokens.count Token.Indent = L.tokens.count Token.Dedent + L.current_indent ∧
      ((L.tokens.count Token.Indent : Int) - L.tokens.count Token.Dedent = L.current_indent) ∧
      ∀ k, (L.tokens.take k).count Token.Dedent ≤ (L.tokens.take k).count Token.Indent) ∧
    (input.data.getLast? = some chNewline → ∀ toks : List Token, Tokenize input = .ok toks →
      toks.count Token.Dedent = toks.count Token.Indent) ∧
    Tokenize "a\n  b\n" = .ok [Token.Id "a", Token.Newline, Token.Indent, Token.Id "b",
      Token.Newline, Token.Dedent, Token.Eof] ∧
    Tokenize "a\n  b" = .ok [Token.Id "a", Token.Newline, Token.Indent, Token.Id "b",
      Token.Newline, Token.Eof] := by
  refine ⟨fun L hR => ?_, fun hnl toks h => ?_, rfl, rfl⟩
  · obtain ⟨_, _, _, hc, hp, _⟩ := Reachable_wf hR
    exact ⟨hc, by rw [hc]; push_cast; ring, hp⟩
  · have hw : WholeLines input.data := by
      rcases List.eq_nil_or_concat input.data with h0 | ⟨f, x, h0⟩
      · rw [h0] at hnl; simp at hnl
      · rw [h0] at hnl ⊢
        simp only [List.concat_eq_append, List.getLast?_append_of_ne_nil _ (List.cons_ne_nil x []),
          List.getLast?_singleton, Option.some.injEq] at hnl
        subst hnl
        exact Or.inr ⟨f, by simp⟩
    unfold Tokenize at h
    split at h
    · simp at h
    · rename_i L hc
      obtain ⟨L1, hR, ht, hE⟩ := drain_reachable _ _ _ _ (Reachable.create hc) h
      obtain ⟨_, _, _, _, _, _, he2⟩ := Reachable_inv hR
      have hcnt := (Reachable_wf hR).2.2.2.1
      rcases Reachable_whole hw hR with ⟨q, hq, _⟩ | ⟨_, hd⟩
      · exact absurd hE (he2 (by rw [hq]))
      · rw [ht, hcnt, hd]
        rfl

end parse

namespace parse

/-! ## Odd indentation -/

theorem ReadLine_odd {s : IStream} (hg : s.good = true) (ho : leadingSpaces s.rest % 2 = 1) :
    ReadLine s = .error (.LexerError "Wrong indents number") := by
  have hc := (countSpaces_spec s.rest).1
  unfold ReadLine
  rw [if_pos hg]
  unfold CountIndents
  rcases hcs : countSpaces s.rest with ⟨n, r, e⟩
  rw [hcs] at hc
  simp only at hc
  simp only
  rw [if_pos (by rw [hc]; omega)]

theorem pullLine_before_odd (line : List Char) (ho : leadingSpaces line % 2 = 1) :
    ∀ (n : Nat) (q : List Char), q.length ≤ n → WholeLines q →
    ∀ (fuel : Nat) (tl : TokenLine) (s1 : IStream),
    pullLine fuel ⟨q ++ line, false, false⟩ = .ok (tl, s1) →
    ∃ q1, WholeLines q1 ∧ s1 = ⟨q1 ++ line, false, false⟩ := by
  have base : ∀ (fuel : Nat) (tl : TokenLine) (s1 : IStream),
      pullLine fuel ⟨line, false, false⟩ = .ok (tl, s1) →
      ∃ q1, WholeLines q1 ∧ s1 = ⟨q1 ++ line, false, false⟩ := by
    intro fuel tl s1 h
    cases fuel with
    | zero => simp [pullLine] at h
    | succ f =>
      rw [pullLine, @ReadLine_odd ⟨line, false, false⟩ rfl ho] at h
      simp at h
  intro n
  induction n with
  | zero =>
    intro q hn _ fuel tl s1 h
    have hq0 : q = [] := List.length_eq_zero.1 (Nat.le_zero.1 hn)
    subst hq0
    exact base fuel tl s1 h
  | succ n ih =>
    intro q hn hw fuel tl s1 h
    rcases hw with hq0 | ⟨q0, hq⟩
    · subst hq0
      exact base fuel tl s1 h
    · subst hq
      simp only [List.length_append, List.length_singleton] at hn
      cases fuel with
      | zero => simp [pullLine] at h
      | succ f =>
        have eA : q0 ++ [chNewline] ++ line = q0 ++ chNewline :: line := by simp
        rw [eA, pullLine] at h
        rcases ReadLine_local q0 with ⟨e, he⟩ | ⟨tl0, q1, hrem, hok⟩
        · rw [he line] at h
          simp at h
        · rw [hok line] at h
          simp only at h
          have hq1 : q1.length ≤ n ∧ WholeLines q1 := by
            rcases hrem with h0 | ⟨q2, h0, hlt⟩
            · subst h0
              exact ⟨Nat.zero_le _, Or.inl rfl⟩
            · subst h0
              refine ⟨?_, Or.inr ⟨q2, rfl⟩⟩
              simp only [List.length_append, List.length_singleton]
              omega
          split at h
          · exact ih q1 hq1.1 hq1.2 f tl s1 h
          · simp only [Except.ok.injEq, Prod.mk.injEq] at h
            obtain ⟨_, e2⟩ := h
            subst e2
            exact ⟨q1, hq1.2, rfl⟩

theorem NextToken_before_odd (line : List Char) (ho : leadingSpaces line % 2 = 1)
    {L L1 : Lexer} {t : Token}
    (hJ : ∃ q, WholeLines q ∧ L.input = ⟨q ++ line, false, false⟩)
    (h : NextToken L = .ok (t, L1)) :
    ∃ q, WholeLines q ∧ L1.input = ⟨q ++ line, false, false⟩ := by
  unfold NextToken at h
  split at h
  · split at h
    · simp at h
    · simp only [Except.ok.injEq, Prod.mk.injEq] at h
      obtain ⟨_, e2⟩ := h
      subst e2
      exact hJ
  · split at h
    · simp only [Except.ok.injEq, Prod.mk.injEq] at h
      obtain ⟨_, e2⟩ := h
      subst e2
      exact hJ
    · split at h
      · simp at h
      · rename_i tl s1 hpull
        obtain ⟨_, _, u3, _⟩ := UpdateIndent_spec { L with input := s1 } tl.line_indent
        simp only at u3
        simp only at h
        split at h
        · simp at h
        · simp only [Except.ok.injEq, Prod.mk.injEq] at h
          obtain ⟨_, e2⟩ := h
          subst e2
          show ∃ q, WholeLines q ∧ (UpdateIndent _ _).input = _
          rw [u3]
          obtain ⟨q, hw, hq⟩ := hJ
          rw [hq] at hpull
          exact pullLine_before_odd line ho _ q (le_refl _) hw _ tl s1 hpull

theorem Reachable_before_odd (pre line : List Char) (hw : WholeLines pre)
    (ho : leadingSpaces line % 2 = 1) {L : Lexer} (h : Reachable (pre ++ line) L) :
    ∃ q, WholeLines q ∧ L.input = ⟨q ++ line, false, false⟩ := by
  induction h with
  | create hc =>
    unfold Lexer.create at hc
    split at hc
    · simp at hc
    · rename_i t L0 hn
      simp only [Except.ok.injEq] at hc
      subst hc
      exact NextToken_before_odd line ho ⟨pre, hw, rfl⟩ hn
  | next hR hn ih => exact NextToken_before_odd line ho ih hn

/-- Claim C24: for every line the lexer reads, blank and comment-only lines included, an odd
number of leading spaces makes the reading of the line fail with a lexical error (first
conjunct), and so the loop over the lines and the call of `NextToken` that needs the line
(second and third conjuncts); an even number `2 * d` of leading spaces gives the line the
depth `d` (fourth conjunct). After the failure no token of that line or of a later line is
produced: when the text `line` that follows the whole lines `pre` starts with an odd number
of spaces, every state the lexer reaches still has `line` to read, and the input has no
token stream (fifth conjunct). -/
theorem odd_indent_fails :
    (∀ s : IStream, s.good = true → leadingSpaces s.rest % 2 = 1 →
      ReadLine s = .error (.LexerError "Wrong indents number")) ∧
    (∀ (s : IStream) (fuel : Nat), s.good = true → leadingSpaces s.rest % 2 = 1 →
      pullLine (fuel + 1) s = .error (.LexerError "Wrong indents number")) ∧
    (∀ L : Lexer, L.input.good = true → leadingSpaces L.input.rest % 2 = 1 →
      ¬ (L.current_pos + 1 < (L.tokens.length : Int)) →
      ¬ (L.tokens ≠ [] ∧ L.tokens.getLast? = some Token.Eof) →
      NextToken L = .error (.LexerError "Wrong indents number")) ∧
    (∀ (s s1 : IStream) (tl : TokenLine), s.good = true → ReadLine s = .ok (tl, s1) →
      leadingSpaces s.rest = 2 * tl.line_indent) ∧
    (∀ pre line : List Char, WholeLines pre → leadingSpaces line % 2 = 1 →
      (∀ L : Lexer, Reachable (pre ++ line) L →
        ∃ q, WholeLines q ∧ L.input = ⟨q ++ line, false, false⟩) ∧
      ∀ toks : List Token, Tokenize (String.mk (pre ++ line)) ≠ .ok toks) ∧
    Tokenize "a\n \nb" = .error (.LexerError "Wrong indents number") ∧
    Tokenize "a\n   # c\nb" = .error (.LexerError "Wrong indents number") := by
  refine ⟨fun s hg ho => ReadLine_odd hg ho, fun s fuel hg ho => ?_, fun L hg ho c1 c2 => ?_,
    fun s s1 tl hg h => (ReadLine_spec hg h).2.1, fun pre line hw ho => ⟨fun L hR => ?_,
      fun toks h => ?_⟩, rfl, rfl⟩
  · rw [pullLine, ReadLine_odd hg ho]
  · unfold NextToken
    rw [if_neg c1, if_neg c2, pullLine, ReadLine_odd hg ho]
  · exact Reachable_before_odd pre line hw ho hR
  · unfold Tokenize at h
    split at h
    · simp at h
    · rename_i L hc
      obtain ⟨L1, hR, _, hE⟩ := drain_reachable _ _ _ _ (Reachable.create hc) h
      obtain ⟨q, _, hq⟩ := Reachable_before_odd pre line hw ho hR
      obtain ⟨_, _, _, _, _, _, he2⟩ := Reachable_inv hR
      exact absurd hE (he2 (by rw [hq]))

end parse

namespace parse

/-! ## The last line of the input -/

theorem countSpaces_suffix (cs : List Char) : (countSpaces cs).2.1 <:+ cs := by
  induction cs with
  | nil => simp [countSpaces]
  | cons c r ih =>
    by_cases hc : c = ' '
    · simp only [countSpaces, hc, if_true]
      rcases hcs : countSpaces r with ⟨n, r1, e⟩
      rw [hcs] at ih
      exact List.IsSuffix.trans ih (List.suffix_cons _ _)
    · simp [countSpaces, hc]

theorem skipComment_suffix {cs r : List Char} (h : skipComment cs = some r) :
    chNewline :: r <:+ cs := by
  induction cs with
  | nil => simp [skipComment] at h
  | cons c t ih =>
    by_cases hc : c = chNewline
    · simp only [skipComment, hc, if_true, Option.some.injEq] at h
      subst h
      rw [hc]
    · simp only [skipComment, hc, if_false] at h
      exact List.IsSuffix.trans (ih h) (List.suffix_cons _ _)

theorem ReadComment_suffix {s : IStream} (hg : s.good = true) :
    (ReadComment s).rest <:+ s.rest := by
  have hb := (IStream.good_iff s).1 hg
  unfold ReadComment
  split
  · exact List.nil_suffix
  · rename_i r hr
    simp only [IStream.putback, hb.2, Bool.false_eq_true, if_false]
    exact skipComment_suffix hr

theorem ReadString_suffix {q : Char} {s s2 : IStream} {t : Token}
    (h : ReadString q s = .ok (t, s2)) : s2.rest <:+ s.rest := by
  unfold ReadString at h
  split at h
  · simp at h
  · rename_i v r hr
    simp only [Except.ok.injEq, Prod.mk.injEq] at h
    obtain ⟨_, h2⟩ := h
    subst h2
    obtain ⟨src, val, e1, _, _⟩ := readStringLoop_sound q _ s.rest [] v r (le_refl _) hr
    exact ⟨src ++ [q], by rw [e1]; simp⟩

theorem ReadNumber_suffix {s s2 : IStream} {t : Token} (h : ReadNumber s = .ok (t, s2)) :
    s2.rest <:+ s.rest := by
  have ht : (if decide (s.rest.head? = some '-') = true then s.rest.tail else s.rest) <:+
      s.rest := by
    split
    · exact List.tail_suffix _
    · exact List.suffix_refl _
  unfold ReadNumber at h
  simp only [takeDigits_eq] at h
  split at h
  · simp at h
  · simp only [Except.ok.injEq, Prod.mk.injEq] at h
    obtain ⟨_, h2⟩ := h
    subst h2
    exact List.IsSuffix.trans (List.dropWhile_suffix _) ht

theorem ReadId_suffix {s s2 : IStream} {t : Token} (h : ReadId s = .ok (t, s2)) :
    s2.rest <:+ s.rest := by
  unfold ReadId at h
  simp only [takeIdChars_eq] at h
  split at h
  · simp at h
  · simp only [Except.ok.injEq, Prod.mk.injEq] at h
    obtain ⟨_, h2⟩ := h
    subst h2
    exact List.dropWhile_suffix _

theorem IStream.get_suffix {s s1 : IStream} {x : Option Char} (h : s.get = (x, s1)) :
    s1.rest <:+ s.rest := by
  unfold IStream.get at h
  split at h
  · split at h
    · simp only [Prod.mk.injEq] at h
      rw [← h.2]
    · rename_i c r hr
      simp only [Prod.mk.injEq] at h
      rw [← h.2, hr]
      exact List.suffix_cons _ _
  · simp only [Prod.mk.injEq] at h
    rw [← h.2]

theorem ReadEq_suffix {s s2 : IStream} {t : Token} (h : ReadEq s = .ok (t, s2)) :
    s2.rest <:+ s.rest := by
  unfold ReadEq at h
  split at h
  rename_i ch s1 h1
  split at h
  rename_i x s3 h3
  have hl : s3.rest <:+ s.rest :=
    List.IsSuffix.trans (IStream.get_suffix h3) (IStream.get_suffix h1)
  repeat' split at h
  all_goals first
    | (simp at h; done)
    | (simp only [Except.ok.injEq, Prod.mk.injEq] at h
       obtain ⟨_, e2⟩ := h
       subst e2
       exact hl)

theorem ReadLineLoop_newline_exit (fuel : Nat) :
    ∀ (s : IStream) (toks toks1 : List Token) (s1 : IStream),
    s.sane → ReadLineLoop fuel s toks = .ok (toks1, s1) →
    s1.eofbit = true ∨ ∃ before, s.rest = before ++ chNewline :: s1.rest := by
  induction fuel with
  | zero => intro s toks toks1 s1 _ h; simp [ReadLineLoop] at h
  | succ n ih =>
    intro s toks toks1 s1 hs h
    have step : ∀ (s2 : IStream) (tk : List Token), s2.sane → s2.rest <:+ s.rest →
        ReadLineLoop n s2 tk = .ok (toks1, s1) →
        s1.eofbit = true ∨ ∃ before, s.rest = before ++ chNewline :: s1.rest := by
      intro s2 tk hs2 hl h2
      rcases ih s2 tk toks1 s1 hs2 h2 with a | ⟨b, hb⟩
      · exact Or.inl a
      · obtain ⟨p, hp⟩ := hl
        exact Or.inr ⟨p ++ b, by rw [← hp, hb]; simp⟩
    rw [ReadLineLoop] at h
    split at h
    · rename_i heof
      simp only [Except.ok.injEq, Prod.mk.injEq] at h
      obtain ⟨_, e2⟩ := h
      subst e2
      exact Or.inl (by simpa [IStream.eof] using heof)
    · rename_i heof
      have hne : s.eofbit = false := by
        simpa [IStream.eof] using heof
      have hg : s.good = true := IStream.good_of_sane hs hne
      split at h
      · rename_i sg hget
        simp only [Except.ok.injEq, Prod.mk.injEq] at h
        obtain ⟨_, e2⟩ := h
        subst e2
        left
        unfold IStream.get at hget
        rw [if_pos hg] at hget
        split at hget
        · simp only [Prod.mk.injEq, true_and] at hget
          rw [← hget]
        · simp at hget
      · rename_i ch sg hget
        obtain ⟨_, hg1, hr⟩ := IStream.get_some hget
        have hl1 : sg.rest <:+ s.rest := by rw [hr]; exact List.suffix_cons _ _
        have hpb : (sg.putback ch).rest <:+ s.rest := by
          rw [(IStream.putback_good ch hg1).2, hr]
        split at h
        · rename_i hnl
          simp only [Except.ok.injEq, Prod.mk.injEq] at h
          obtain ⟨_, e2⟩ := h
          subst e2
          exact Or.inr ⟨[], by rw [hr, hnl]; rfl⟩
        · split at h
          · exact step _ _ (IStream.sane_of_good hg1) hl1 h
          · split at h
            · exact step _ _ (ReadComment_sane hg1)
                (List.IsSuffix.trans (ReadComment_suffix hg1) hl1) h
            · split at h
              · split at h
                · simp at h
                · rename_i t s2 hrd
                  exact step _ _ (ReadString_spec hg1 hrd).1
                    (List.IsSuffix.trans (ReadString_suffix hrd) hl1) h
              · split at h
                · split at h
                  · simp at h
                  · rename_i t s2 hrd
                    exact step _ _ (ReadNumber_spec (IStream.putback_good ch hg1).1 hrd).1
                      (List.IsSuffix.trans (ReadNumber_suffix hrd) hpb) h
                · split at h
                  · split at h
                    · simp at h
                    · rename_i t s2 hrd
                      exact step _ _ (ReadId_spec (IStream.putback_good ch hg1).1 hrd).1
                        (List.IsSuffix.trans (ReadId_suffix hrd) hpb) h
                  · split at h
                    · split at h
                      rename_i p s2 hpk
                      obtain ⟨hps, hpe⟩ := IStream.peek_sane hpk hg1
                      split at h
                      · rename_i hp
                        have hs2 : s2 = sg := hpe (by rw [hp]; simp)
                        subst hs2
                        split at h
                        · simp at h
                        · rename_i t s3 hrd
                          exact step _ _ (ReadEq_spec
                            (IStream.sane_of_good (IStream.putback_good ch hg1).1) hrd).1
                            (List.IsSuffix.trans (ReadEq_suffix hrd) hpb) h
                      · have hpl : s2.rest <:+ s.rest := by
                          unfold IStream.peek at hpk
                          rw [if_pos hg1] at hpk
                          split at hpk
                          · simp only [Prod.mk.injEq] at hpk
                            rw [← hpk.2]; exact hl1
                          · simp only [Prod.mk.injEq] at hpk
                            rw [← hpk.2]; exact hl1
                        exact step _ _ hps hpl h
                    · exact step _ _ (IStream.sane_of_good hg1) hl1 h

theorem ReadLine_newline_exit {s s1 : IStream} {tl : TokenLine} (hg : s.good = true)
    (h : ReadLine s = .ok (tl, s1)) :
    s1.eofbit = true ∨ ∃ before, s.rest = before ++ chNewline :: s1.rest := by
  unfold ReadLine at h
  rw [if_pos hg] at h
  split at h
  · simp at h
  · rename_i d sc hci
    have hsc := (CountIndents_spec hg hci).1
    have hlc : sc.rest <:+ s.rest := by
      have := countSpaces_suffix s.rest
      unfold CountIndents at hci
      split at hci
      rename_i n r e heq
      rw [heq] at this
      split at hci
      · simp at hci
      · simp only [Except.ok.injEq, Prod.mk.injEq] at hci
        rw [← hci.2]
        exact this
    split at h
    · simp at h
    · rename_i toks s2 hloop
      simp only [Except.ok.injEq, Prod.mk.injEq] at h
      obtain ⟨_, e2⟩ := h
      subst e2
      rcases ReadLineLoop_newline_exit _ _ _ _ _ hsc hloop with a | ⟨b, hb⟩
      · exact Or.inl a
      · obtain ⟨p, hp⟩ := hlc
        exact Or.inr ⟨p ++ b, by rw [← hp, hb]; simp⟩

end parse

namespace parse

theorem ReadLine_last_eof {body : List Char} (hb : chNewline ∉ body) {tl : TokenLine}
    {s1 : IStream} (h : ReadLine ⟨body, false, false⟩ = .ok (tl, s1)) :
    s1.eofbit = true := by
  rcases @ReadLine_newline_exit ⟨body, false, false⟩ _ _ rfl h with a | ⟨b, hb1⟩
  · exact a
  · exfalso
    apply hb
    simp only at hb1
    rw [hb1]
    simp

theorem ReadLine_last_newline {body : List Char} (hb : chNewline ∉ body) {tl : TokenLine}
    {s1 : IStream} (h : ReadLine ⟨body ++ [chNewline], false, false⟩ = .ok (tl, s1)) :
    s1 = ⟨[], false, false⟩ := by
  rcases ReadLine_local body with ⟨e, he⟩ | ⟨tl0, q1, hrem, hok⟩
  · rw [he []] at h
    simp at h
  · rw [hok []] at h
    simp only [List.append_nil, Except.ok.injEq, Prod.mk.injEq] at h
    obtain ⟨_, e2⟩ := h
    subst e2
    rcases hrem with h0 | ⟨q2, h0, _⟩
    · rw [h0]
    · exfalso
      have hx := hok []
      simp only [List.append_nil] at hx
      rcases @ReadLine_newline_exit ⟨body ++ [chNewline], false, false⟩ _ _ rfl hx with
        a | ⟨b, hb1⟩
      · simp at a
      · simp only at hb1
        rw [h0] at hb1
        have e : body ++ [chNewline] = (b ++ chNewline :: q2) ++ [chNewline] := by
          rw [hb1]; simp
        have e2 := List.append_cancel_right e
        apply hb
        rw [e2]
        simp

/-- The loop over the lines, started before the text `last` after whole lines: it stops at a
line before `last`, or it returns what it returns when started at `last`. -/
theorem pullLine_upto (last : List Char) :
    ∀ (n : Nat) (q : List Char), q.length ≤ n → WholeLines q →
    ∀ (fuel : Nat) (tl : TokenLine) (s1 : IStream),
    pullLine fuel ⟨q ++ last, false, false⟩ = .ok (tl, s1) →
    (∃ q1, WholeLines q1 ∧ s1 = ⟨q1 ++ last, false, false⟩) ∨
      (∃ f, pullLine f ⟨last, false, false⟩ = .ok (tl, s1)) := by
  intro n
  induction n with
  | zero =>
    intro q hn _ fuel tl s1 h
    have hq0 : q = [] := List.length_eq_zero.1 (Nat.le_zero.1 hn)
    subst hq0
    exact Or.inr ⟨fuel, h⟩
  | succ n ih =>
    intro q hn hw fuel tl s1 h
    rcases hw with hq0 | ⟨q0, hq⟩
    · subst hq0
      exact Or.inr ⟨fuel, h⟩
    · subst hq
      simp only [List.length_append, List.length_singleton] at hn
      cases fuel with
      | zero => simp [pullLine] at h
      | succ f =>
        have eA : q0 ++ [chNewline] ++ last = q0 ++ chNewline :: last := by simp
        rw [eA, pullLine] at h
        rcases ReadLine_local q0 with ⟨e, he⟩ | ⟨tl0, q1, hrem, hok⟩
        · rw [he last] at h
          simp at h
        · rw [hok last] at h
          simp only at h
          have hq1 : q1.length ≤ n ∧ WholeLines q1 := by
            rcases hrem with h0 | ⟨q2, h0, hlt⟩
            · subst h0
              exact ⟨Nat.zero_le _, Or.inl rfl⟩
            · subst h0
              refine ⟨?_, Or.inr ⟨q2, rfl⟩⟩
              simp only [List.length_append, List.length_singleton]
              omega
          split at h
          · exact ih q1 hq1.1 hq1.2 f tl s1 h
          · simp only [Except.ok.injEq, Prod.mk.injEq] at h
            obtain ⟨_, e2⟩ := h
            subst e2
            exact Or.inl ⟨q1, hq1.2, rfl⟩

/-- What a call of `NextToken` that pulls a line does to the lexer. -/
theorem NextToken_cases {L L1 : Lexer} {t : Token} (h : NextToken L = .ok (t, L1)) :
    (L1.input = L.input ∧ L1.tokens = L.tokens ∧ L1.current_indent = L.current_indent) ∨
    (¬ (L.tokens ≠ [] ∧ L.tokens.getLast? = some Token.Eof) ∧
      ∃ (tl : TokenLine) (s1 : IStream),
        pullLine (L.input.rest.length + 1) L.input = .ok (tl, s1) ∧ L1.input = s1 ∧
        L1.tokens = L.tokens ++ indentTokens L.current_indent tl.line_indent ++ tl.tokens ∧
        L1.current_indent = tl.line_indent) := by
  unfold NextToken at h
  split at h
  · split at h
    · simp at h
    · simp only [Except.ok.injEq, Prod.mk.injEq] at h
      obtain ⟨_, e2⟩ := h
      subst e2
      exact Or.inl ⟨rfl, rfl, rfl⟩
  · split at h
    · simp only [Except.ok.injEq, Prod.mk.injEq] at h
      obtain ⟨_, e2⟩ := h
      subst e2
      exact Or.inl ⟨rfl, rfl, rfl⟩
    · rename_i c2
      split at h
      · simp at h
      · rename_i tl s1 hpull
        obtain ⟨u1, u2, u3, _⟩ := UpdateIndent_spec { L with input := s1 } tl.line_indent
        simp only at u1 u2 u3
        simp only at h
        split at h
        · simp at h
        · simp only [Except.ok.injEq, Prod.mk.injEq] at h
          obtain ⟨_, e2⟩ := h
          subst e2
          refine Or.inr ⟨c2, tl, s1, hpull, u3, ?_, u2⟩
          show (UpdateIndent _ _).tokens ++ tl.tokens = _
          rw [u1]

end parse

namespace parse

theorem pullLine_last_eof {body : List Char} (hb : chNewline ∉ body) {fuel : Nat}
    {tl : TokenLine} {s1 : IStream}
    (h : pullLine fuel ⟨body, false, false⟩ = .ok (tl, s1)) :
    ReadLine ⟨body, false, false⟩ = .ok (tl, s1) ∧ s1.eofbit = true := by
  cases fuel with
  | zero => simp [pullLine] at h
  | succ f =>
    rw [pullLine] at h
    cases hr : ReadLine ⟨body, false, false⟩ with
    | error e => rw [hr] at h; simp at h
    | ok x =>
      obtain ⟨tl0, s0⟩ := x
      rw [hr] at h
      have he := ReadLine_last_eof hb hr
      have hsane : IStream.sane ⟨body, false, false⟩ := IStream.sane_of_good rfl
      have hne := (ReadLine_at_end hsane hr he).2
      simp only [hne, Bool.false_eq_true, if_false, Except.ok.injEq, Prod.mk.injEq] at h
      obtain ⟨e1, e2⟩ := h
      subst e1; subst e2
      exact ⟨rfl, he⟩

/-- The states of a lexer whose input ends with the line `body`, ended by the end of the
input: the line is still to be read, or it has been read and its tokens end the buffer. -/
theorem NextToken_last_eof {s0 : IStream} {body : List Char} (hb : chNewline ∉ body)
    {L L1 : Lexer} {t : Token} (hI : LexInv s0 L)
    (hJ : (∃ q, WholeLines q ∧ L.input = ⟨q ++ body, false, false⟩) ∨
      (∃ (front : List Token) (tl : TokenLine) (s1 : IStream),
        ReadLine ⟨body, false, false⟩ = .ok (tl, s1) ∧ L.input.eofbit = true ∧
        L.tokens = front ++ tl.tokens))
    (h : NextToken L = .ok (t, L1)) :
    (∃ q, WholeLines q ∧ L1.input = ⟨q ++ body, false, false⟩) ∨
      (∃ (front : List Token) (tl : TokenLine) (s1 : IStream),
        ReadLine ⟨body, false, false⟩ = .ok (tl, s1) ∧ L1.input.eofbit = true ∧
        L1.tokens = front ++ tl.tokens) := by
  obtain ⟨lines, _, _, _, _, he1, _⟩ := hI
  rcases NextToken_cases h with ⟨a, b, _⟩ | ⟨c2, tl, s1, hpull, a, b, _⟩
  · rw [a, b]; exact hJ
  · rcases hJ with ⟨q, hw, hq⟩ | ⟨front, tl0, s2, _, he, _⟩
    · rw [hq] at hpull
      rcases pullLine_upto body _ q (le_refl _) hw _ tl s1 hpull with ⟨q1, hw1, hs1⟩ | ⟨f, hf⟩
      · exact Or.inl ⟨q1, hw1, by rw [a, hs1]⟩
      · obtain ⟨hr, hes⟩ := pullLine_last_eof hb hf
        exact Or.inr ⟨_, tl, s1, hr, by rw [a]; exact hes, b⟩
    · exfalso
      apply c2
      have := he1 he
      refine ⟨?_, this⟩
      intro hnil
      rw [hnil] at this
      simp at this

theorem Reachable_last_eof {pre body : List Char} (hw : WholeLines pre)
    (hb : chNewline ∉ body) {L : Lexer} (h : Reachable (pre ++ body) L) :
    (∃ q, WholeLines q ∧ L.input = ⟨q ++ body, false, false⟩) ∨
      (∃ (front : List Token) (tl : TokenLine) (s1 : IStream),
        ReadLine ⟨body, false, false⟩ = .ok (tl, s1) ∧ L.input.eofbit = true ∧
        L.tokens = front ++ tl.tokens) := by
  induction h with
  | create hc =>
    unfold Lexer.create at hc
    split at hc
    · simp at hc
    · rename_i t L0 hn
      simp only [Except.ok.injEq] at hc
      subst hc
      exact NextToken_last_eof hb (LexInv_init _) (Or.inl ⟨pre, hw, rfl⟩) hn
  | next hR hn ih => exact NextToken_last_eof hb (Reachable_inv hR) ih hn

end parse

namespace parse

theorem pullLine_nil {fuel : Nat} {tl : TokenLine} {s1 : IStream}
    (h : pullLine fuel ⟨[], false, false⟩ = .ok (tl, s1)) :
    tl = ⟨0, [Token.Eof]⟩ ∧ s1 = ⟨[], true, false⟩ := by
  cases fuel with
  | zero => simp [pullLine] at h
  | succ f =>
    rw [pullLine, ReadLine_nil] at h
    simp only [TokenLine.IsEmpty, List.isEmpty_cons, List.all_cons, reduceCtorEq,
      decide_False, List.all_nil, Bool.and_true, Bool.or_self, Bool.false_eq_true, if_false,
      Except.ok.injEq, Prod.mk.injEq] at h
    exact ⟨h.1.symm, h.2.symm⟩

theorem pullLine_last_newline {body : List Char} (hb : chNewline ∉ body) {fuel : Nat}
    {tl : TokenLine} {s1 : IStream}
    (h : pullLine fuel ⟨body ++ [chNewline], false, false⟩ = .ok (tl, s1)) :
    (ReadLine ⟨body ++ [chNewline], false, false⟩ = .ok (tl, ⟨[], false, false⟩) ∧
      tl.IsEmpty = false ∧ s1 = ⟨[], false, false⟩) ∨
    (∃ tl0, ReadLine ⟨body ++ [chNewline], false, false⟩ = .ok (tl0, ⟨[], false, false⟩) ∧
      tl0.IsEmpty = true ∧ tl = ⟨0, [Token.Eof]⟩ ∧ s1 = ⟨[], true, false⟩) := by
  cases fuel with
  | zero => simp [pullLine] at h
  | succ f =>
    rw [pullLine] at h
    cases hr : ReadLine ⟨body ++ [chNewline], false, false⟩ with
    | error e => rw [hr] at h; simp at h
    | ok x =>
      obtain ⟨tl0, s0⟩ := x
      rw [hr] at h
      have hs0 := ReadLine_last_newline hb hr
      subst hs0
      simp only at h
      cases hemp : tl0.IsEmpty with
      | true =>
        rw [hemp] at h
        simp only [if_true] at h
        obtain ⟨a, b⟩ := pullLine_nil h
        exact Or.inr ⟨tl0, rfl, hemp, a, b⟩
      | false =>
        rw [hemp] at h
        simp only [Bool.false_eq_true, if_false, Except.ok.injEq, Prod.mk.injEq] at h
        obtain ⟨e1, e2⟩ := h
        subst e1; subst e2
        exact Or.inl ⟨rfl, hemp, rfl⟩

theorem NextToken_last_newline {s0 : IStream} {body : List Char} (hb : chNewline ∉ body)
    {L L1 : Lexer} {t : Token} (hI : LexInv s0 L)
    (hJ : LastLinePhase (body ++ [chNewline]) L) (h : NextToken L = .ok (t, L1)) :
    LastLinePhase (body ++ [chNewline]) L1 := by
  obtain ⟨lines, _, _, _, _, he1, _⟩ := hI
  have noPull : L.input.eofbit = true →
      ¬ ¬ (L.tokens ≠ [] ∧ L.tokens.getLast? = some Token.Eof) := by
    intro he c2
    apply c2
    have := he1 he
    refine ⟨?_, this⟩
    intro hnil
    rw [hnil] at this
    simp at this
  rcases NextToken_cases h with ⟨a, b, c⟩ | ⟨c2, tl, s1, hpull, a, b, c⟩
  · unfold LastLinePhase at hJ ⊢
    rw [a, b, c]; exact hJ
  · unfold LastLinePhase at hJ ⊢
    rcases hJ with ⟨q, hw, hq⟩ | ⟨front, tl0, hr, hne, hin, htok, hind⟩ |
      ⟨front, tl0, _, _, he, _⟩ | ⟨tl0, _, _, he⟩
    · rw [hq] at hpull
      rcases pullLine_upto (body ++ [chNewline]) _ q (le_refl _) hw _ tl s1 hpull with
        ⟨q1, hw1, hs1⟩ | ⟨f, hf⟩
      · exact Or.inl ⟨q1, hw1, by rw [a, hs1]⟩
      · rcases pullLine_last_newline hb hf with ⟨hr, hne, hs1⟩ | ⟨tl0, hr, hemp, _, hs1⟩
        · exact Or.inr (Or.inl ⟨_, tl, hr, hne, by rw [a, hs1], b, c⟩)
        · exact Or.inr (Or.inr (Or.inr ⟨tl0, hr, hemp, by rw [a, hs1]⟩))
    · rw [hin] at hpull
      obtain ⟨e1, e2⟩ := pullLine_nil hpull
      subst e1; subst e2
      refine Or.inr (Or.inr (Or.inl ⟨front, tl0, hr, hne, by rw [a], ?_⟩))
      rw [b, htok, hind]
    · exact absurd c2 (noPull he)
    · exact absurd c2 (noPull he)

theorem Reachable_last_newline {pre body : List Char} (hw : WholeLines pre)
    (hb : chNewline ∉ body) {L : Lexer} (h : Reachable (pre ++ (body ++ [chNewline])) L) :
    LastLinePhase (body ++ [chNewline]) L := by
  induction h with
  | create hc =>
    unfold Lexer.create at hc
    split at hc
    · simp at hc
    · rename_i t L0 hn
      simp only [Except.ok.injEq] at hc
      subst hc
      exact NextToken_last_newline hb (LexInv_init _) (Or.inl ⟨pre, hw, rfl⟩) hn
  | next hR hn ih => exact NextToken_last_newline hb (Reachable_inv hR) ih hn

end parse

namespace parse

theorem indentTokens_zero (d : Nat) : indentTokens d 0 = List.replicate d Token.Dedent := by
  unfold indentTokens
  rw [if_neg (Nat.not_lt_zero d)]
  by_cases hd : 0 < d
  · rw [if_pos hd, Nat.sub_zero]
  · rw [if_neg hd]
    have : d = 0 := by omega
    subst this
    rfl

theorem IsEmpty_own {d : Nat} {own : List Token} (ho : ∀ t ∈ own, isOwnToken t = true)
    (h : TokenLine.IsEmpty ⟨d, own ++ [Token.Newline]⟩ = true) : own = [] := by
  cases own with
  | nil => rfl
  | cons x r =>
    exfalso
    have hx := (own_ne_Newline ho x (List.mem_cons_self _ _)).1
    simp [TokenLine.IsEmpty, hx] at h

/-- Claim C23, counterexample. The last line `x` of depth one, ended by a newline character:
the token stream ends with `Newline`, `Dedent`, `Eof`, and not with the tokens of the line
followed by `Newline` and `Eof`; without the newline character there is no `Dedent`. -/
theorem last_line_counterexample :
    Tokenize "  x\n" = .ok [Token.Indent, Token.Id "x", Token.Newline, Token.Dedent,
      Token.Eof] ∧
    ¬ ([Token.Id "x", Token.Newline, Token.Eof] <:+
      [Token.Indent, Token.Id "x", Token.Newline, Token.Dedent, Token.Eof]) ∧
    Tokenize "  x" = .ok [Token.Indent, Token.Id "x", Token.Newline, Token.Eof] :=
  ⟨rfl, by decide, rfl⟩

/-- Claim C23, amended. For an input whose last line `body`, after the whole lines `pre`,
holds at least one token (its own tokens `own` are not empty): when the line is ended by the
end of the input, the token stream ends with the tokens of the line followed by one
synthesized `Newline` and then `Eof` (first conjunct); when the line is ended by a newline
character, the stream ends with the tokens of the line, the `Newline` of that character, one
`Dedent` for each level of the depth `d` of the line, and then `Eof` (second conjunct). The
own tokens of a line hold no `Newline`, so in both cases exactly one `Newline` follows them.
Both `x = 1` followed by a newline and `x = 1` tokenize to `Id(x)`, `Char(=)`, `Number(1)`,
`Newline`, `Eof`. -/
theorem last_line_ends_stream (pre body : List Char) (hpre : WholeLines pre)
    (hb : chNewline ∉ body) :
    (∀ toks : List Token, Tokenize (String.mk (pre ++ body)) = .ok toks →
      ∃ (d : Nat) (own : List Token) (s1 : IStream), (∀ t ∈ own, isOwnToken t = true) ∧
        ReadLine ⟨body, false, false⟩ = .ok (⟨d, lineShape own true⟩, s1) ∧
        (own ≠ [] → ∃ front, toks = front ++ own ++ [Token.Newline, Token.Eof])) ∧
    (∀ toks : List Token, Tokenize (String.mk (pre ++ (body ++ [chNewline]))) = .ok toks →
      ∃ (d : Nat) (own : List Token), (∀ t ∈ own, isOwnToken t = true) ∧
        ReadLine ⟨body ++ [chNewline], false, false⟩ =
          .ok (⟨d, own ++ [Token.Newline]⟩, ⟨[], false, false⟩) ∧
        (own ≠ [] → ∃ front, toks = front ++ own ++ [Token.Newline] ++
          List.replicate d Token.Dedent ++ [Token.Eof])) ∧
    Tokenize "x = 1\n" = .ok [Token.Id "x", Token.Char '=', Token.Number 1, Token.Newline,
      Token.Eof] ∧
    Tokenize "x = 1" = .ok [Token.Id "x", Token.Char '=', Token.Number 1, Token.Newline,
      Token.Eof] := by
  refine ⟨fun toks h => ?_, fun toks h => ?_, rfl, rfl⟩
  · unfold Tokenize at h
    split at h
    · simp at h
    · rename_i L hc
      obtain ⟨L1, hR, ht, hE⟩ := drain_reachable _ _ _ _ (Reachable.create hc) h
      obtain ⟨_, _, _, _, _, _, he2⟩ := Reachable_inv hR
      rcases Reachable_last_eof hpre hb hR with ⟨q, _, hq⟩ | ⟨front, tl, s1, hr, _, htok⟩
      · exact absurd hE (he2 (by rw [hq]))
      · obtain ⟨own, ho, hshape⟩ := @ReadLine_own ⟨body, false, false⟩ s1 tl rfl hr
        rw [ReadLine_last_eof hb hr] at hshape
        refine ⟨tl.line_indent, own, s1, ho, ?_, fun hne => ⟨front, ?_⟩⟩
        · rw [hr, ← hshape]
        · rw [ht, htok, hshape]
          simp [lineShape, hne]
  · unfold Tokenize at h
    split at h
    · simp at h
    · rename_i L hc
      obtain ⟨L1, hR, ht, hE⟩ := drain_reachable _ _ _ _ (Reachable.create hc) h
      obtain ⟨_, _, _, _, _, _, he2⟩ := Reachable_inv hR
      have shape : ∀ tl : TokenLine,
          ReadLine ⟨body ++ [chNewline], false, false⟩ = .ok (tl, ⟨[], false, false⟩) →
          ∃ own : List Token, (∀ t ∈ own, isOwnToken t = true) ∧
            tl.tokens = own ++ [Token.Newline] := by
        intro tl hr
        obtain ⟨own, ho, hshape⟩ :=
          @ReadLine_own ⟨body ++ [chNewline], false, false⟩ _ tl rfl hr
        exact ⟨own, ho, by rw [hshape]; rfl⟩
      rcases Reachable_last_newline hpre hb hR with ⟨q, _, hq⟩ | ⟨_, _, _, _, hin, _⟩ |
        ⟨front, tl, hr, _, _, htok⟩ | ⟨tl, hr, hemp, _⟩
      · exact absurd hE (he2 (by rw [hq]))
      · exact absurd hE (he2 (by rw [hin]))
      · obtain ⟨own, ho, hshape⟩ := shape tl hr
        refine ⟨tl.line_indent, own, ho, ?_, fun _ => ⟨front, ?_⟩⟩
        · rw [hr, ← hshape]
        · rw [ht, htok, hshape, indentTokens_zero]
          simp
      · obtain ⟨own, ho, hshape⟩ := shape tl hr
        refine ⟨tl.line_indent, own, ho, ?_, fun hne => ?_⟩
        · rw [hr, ← hshape]
        · exfalso
          apply hne
          have : tl = ⟨tl.line_indent, own ++ [Token.Newline]⟩ := by rw [← hshape]
          rw [this] at hemp
          exact IsEmpty_own ho hemp

/-- The lines `a` and `x`, the last one of depth one: ended by a newline character the
stream ends with `Id(x)`, `Newline`, `Dedent`, `Eof`; ended by the end of the input it ends
with `Id(x)`, `Newline`, `Eof`. -/
theorem last_line_ends_stream_witness :
    WholeLines ['a', chNewline] ∧ chNewline ∉ [' ', ' ', 'x'] ∧
    Tokenize (String.mk (['a', chNewline] ++ ([' ', ' ', 'x'] ++ [chNewline]))) =
      .ok [Token.Id "a", Token.Newline, Token.Indent, Token.Id "x", Token.Newline,
        Token.Dedent, Token.Eof] ∧
    (∃ (d : Nat) (own : List Token), (∀ t ∈ own, isOwnToken t = true) ∧
      ReadLine ⟨[' ', ' ', 'x'] ++ [chNewline], false, false⟩ =
        .ok (⟨d, own ++ [Token.Newline]⟩, ⟨[], false, false⟩) ∧
      (own ≠ [] → ∃ front,
        [Token.Id "a", Token.Newline, Token.Indent, Token.Id "x", Token.Newline,
          Token.Dedent, Token.Eof] =
        front ++ own ++ [Token.Newline] ++ List.replicate d Token.Dedent ++ [Token.Eof])) :=
  ⟨Or.inr ⟨['a'], rfl⟩, by decide, rfl,
    (last_line_ends_stream ['a', chNewline] [' ', ' ', 'x'] (Or.inr ⟨['a'], rfl⟩)
      (by decide)).2.1 _ rfl⟩

end parse

namespace ast

open runtime examples

/-! ## Dotted paths through values that are not instances -/

theorem resolveIds_non_instance (heap : List ClassInstance) (id : String) (ids : List String)
    (c : Closure) (r v : ObjectHolder) (hv : c.find id = some v)
    (hn : isInstance v = false) :
    resolveIds heap (id :: ids) c r = resolveIds heap ids c v := by
  rw [resolveIds]
  cases v with
  | ClassInstance a => exact Bool.noConfusion hn
  | None => simp only [hv]
  | Bool b => simp only [hv]
  | Number n => simp only [hv]
  | String s => simp only [hv]
  | Class cl => simp only [hv]

/-- Claim C27: when a segment of a dotted path that is not the last resolves to a value that
is not a class instance (a `Number`, a `String`, a `Bool`, a `Class` object or `None`),
`VariableValue` does not fail on that account: the next segment is looked up in the closure
the segment was looked up in, at any depth of the path (first and second conjuncts). For
the path `x.y` with `x` bound in the scope to such a value, the result is the value `y` is
bound to in the scope, and the undefined-variable error is raised if and only if `y` is
absent from the scope (third to fifth conjuncts). -/
theorem VariableValue_non_instance_segment (fuel : Nat) (st : State) (x y : String)
    (vx : ObjectHolder) (hx : st.scope.find x = some vx) (hn : isInstance vx = false) :
    (∀ (heap : List ClassInstance) (id : String) (ids : List String) (c : Closure)
        (r v : ObjectHolder), c.find id = some v → isInstance v = false →
        resolveIds heap (id :: ids) c r = resolveIds heap ids c v) ∧
    (∀ rest : List String, Execute (fuel + 1) (.VariableValue (x :: rest)) st =
      (resolveIds st.heap rest st.scope vx, st)) ∧
    (∀ vy : ObjectHolder, st.scope.find y = some vy → isInstance vy = false →
      Execute (fuel + 1) (.VariableValue [x, y]) st = (.Normal vy, st)) ∧
    (st.scope.find y = none →
      Execute (fuel + 1) (.VariableValue [x, y]) st =
        (.Throw (.runtime_error ("Wrong var name: " ++ y)), st)) ∧
    ((∃ what, (Execute (fuel + 1) (.VariableValue [x, y]) st).1 =
        .Throw (.runtime_error what)) ↔ st.scope.find y = none) := by
  have h1 : ∀ rest : List String, Execute (fuel + 1) (.VariableValue (x :: rest)) st =
      (resolveIds st.heap rest st.scope vx, st) := by
    intro rest
    simp only [Execute]
    rw [resolveIds_non_instance st.heap x rest st.scope .None vx hx hn]
  have h2 : ∀ vy : ObjectHolder, st.scope.find y = some vy → isInstance vy = false →
      Execute (fuel + 1) (.VariableValue [x, y]) st = (.Normal vy, st) := by
    intro vy hy hny
    rw [h1, resolveIds_non_instance st.heap y [] st.scope vx vy hy hny]
    rfl
  have h3 : st.scope.find y = none →
      Execute (fuel + 1) (.VariableValue [x, y]) st =
        (.Throw (.runtime_error ("Wrong var name: " ++ y)), st) := by
    intro hy
    rw [h1, resolveIds]
    simp only [hy]
  refine ⟨resolveIds_non_instance, h1, h2, h3, ⟨fun ⟨what, hw⟩ => ?_, fun hy => ?_⟩⟩
  · cases hy : st.scope.find y with
    | none => rfl
    | some vy =>
      exfalso
      rw [h1, resolveIds] at hw
      simp only [hy] at hw
      cases vy with
      | ClassInstance a =>
        simp only at hw
        cases hh : st.heap.get? a with
        | none => rw [hh] at hw; simp at hw
        | some inst => rw [hh] at hw; simp [resolveIds] at hw
      | None => simp [resolveIds] at hw
      | Bool b => simp [resolveIds] at hw
      | Number n => simp [resolveIds] at hw
      | String s => simp [resolveIds] at hw
      | Class cl => simp [resolveIds] at hw
  · exact ⟨_, by rw [h3 hy]⟩

/-- With the scope that binds `x` to 5 and `y` to 3, the path `x.y` evaluates to 3, and the
path `x.z` raises the undefined-variable error. -/
theorem VariableValue_non_instance_segment_witness :
    Execute 1 (.VariableValue ["x", "y"]) twoNumbers = (.Normal (.Number 3), twoNumbers) ∧
    Execute 1 (.VariableValue ["x", "z"]) twoNumbers =
      (.Throw (.runtime_error "Wrong var name: z"), twoNumbers) :=
  ⟨(VariableValue_non_instance_segment 0 twoNumbers "x" "y" (.Number 5) rfl rfl).2.2.1
      (.Number 3) rfl rfl,
   (VariableValue_non_instance_segment 0 twoNumbers "x" "z" (.Number 5) rfl rfl).2.2.2.1 rfl⟩

end ast
